import Mathlib

/-!
# Verification of the DSD complex-notation rewriting engine

This file gives a shallow embedding of the string-rewriting engine of
`stocal/examples/dsd.py` and settles the frozen claims about it.

The source manipulates raw strings of the Lakin DSD notation through
regular expressions.  Every well-formed piece of notation is an
alternation of bracket groups and connectors, and all of the source's
regexes are anchored on brackets and colons.  The embedding therefore
represents a notation string as a list of segments: an upper strand
(angle brackets in the source), a lower strand (curly brackets), a
double strand (square brackets), a single-colon connector or a
double-colon connector.  The character sequence between the brackets of
a group (its body) is kept verbatim as a list of characters, so that
the source's character-offset splicing is reproduced exactly.

Segment lists are in bijection with the notation strings in which
connectors are maximal (no two adjacent colon segments) and bracket
groups are balanced; the body-level character operations of the source
are reproduced verbatim on the body lists.
-/

namespace DSD


/-- A body: the character sequence between two brackets. -/
abbrev Body := List Char

/-- Python's word-character class (ASCII range used by the notation). -/
def wordChar (c : Char) : Bool := c.isAlphanum || c = '_'

/-- One lexical segment of a notation string. -/
inductive Seg
  | upper (b : Body)
  | lower (b : Body)
  | double (b : Body)
  | colon
  | dcolon
deriving DecidableEq

/-- Collapse every run of two or more spaces to one space
(the `re_large_spaces` substitution of `tidy`). -/
def collapseSp : Body → Body
  | [] => []
  | ' ' :: ' ' :: t => collapseSp (' ' :: t)
  | c :: t => c :: collapseSp t

/-- Drop leading spaces. -/
def dropSp : Body → Body
  | ' ' :: t => dropSp t
  | b => b

/-- Normalise a body the way `tidy` normalises the inside of one bracket
group: collapse space runs, then strip the spaces adjacent to the
enclosing brackets (the `re_spaces` substitution), i.e. trim. -/
def tidyBody (b : Body) : Body :=
  ((collapseSp b).reverse.dropWhile (· = ' ')).reverse.dropWhile (· = ' ')

/-- `tidy` on one segment: normalise the body; an emptied bracket group
is removed (the `re_empty` substitution), signalled by `none`. -/
def tidySeg : Seg → Option Seg
  | .upper b => let b' := tidyBody b; if b' = [] then none else some (.upper b')
  | .lower b => let b' := tidyBody b; if b' = [] then none else some (.lower b')
  | .double b => let b' := tidyBody b; if b' = [] then none else some (.double b')
  | .colon => some .colon
  | .dcolon => some .dcolon

/-- The `tidy` function of the source on a segment list. -/
def tidyS (l : List Seg) : List Seg := l.filterMap tidySeg

/-- Split a body on single spaces, exactly like Python's
`str.split(" ")`: `splitB [] = [[]]` and empty fields are kept. -/
def splitB : Body → List Body
  | [] => [[]]
  | c :: t =>
    if c = ' ' then [] :: splitB t
    else
      match splitB t with
      | [] => [[c]]
      | h :: r => (c :: h) :: r

/-- Join fields with single spaces (inverse of `splitB`). -/
def joinB : List Body → Body
  | [] => []
  | [b] => b
  | b :: r => b ++ ' ' :: joinB r

/-- The body of a rotated strand: the source splits the strand body on
spaces, reverses the field list and rejoins it with spaces. -/
def rotBody (b : Body) : Body := joinB (splitB b).reverse

/-- `rotate` of the source: defined on bare strands (an input containing
a double strand makes the source print an error and return an empty
string, modelled by `none`); an upper strand becomes the lower strand
with the reversed body, and conversely. -/
def rotateSeg : Seg → Option Seg
  | .upper b => some (.lower (rotBody b))
  | .lower b => some (.upper (rotBody b))
  | _ => none

/-! ## The canonicaliser: `merge_gates` and `reformat`

`merge_gates` searches for the four lone-strand patterns
(`re_lone_upper_1/2`, `re_lone_lower_1/2`) in priority order and
rewrites the leftmost occurrence until none matches.  A lone upper
strand is merged across a double-colon join, a lone lower strand across
a single-colon join; the pattern requires a full gate
(optional lower, optional upper, mandatory double strand) on the
absorbing side. -/

/-- Is a segment the double-colon connector? -/
def isDc : Seg → Bool
  | .dcolon => true
  | _ => false

/-- Is a segment the single-colon connector? -/
def isCol : Seg → Bool
  | .colon => true
  | _ => false

/-- Is a segment a connector? -/
def isConn : Seg → Bool
  | .colon => true
  | .dcolon => true
  | _ => false

/-- `fix_upper_gate`: merge a lone upper body `u` into the gate at the
head of the list (shapes lower-upper-double, lower-double,
upper-double, double); fails when no gate starts here. -/
def gateRwU (u : Body) : List Seg → Option (List Seg)
  | .lower l :: .upper u' :: .double d :: t =>
    some (.lower l :: .upper (u ++ ' ' :: u') :: .double d :: t)
  | .lower l :: .double d :: t =>
    some (.lower l :: .upper u :: .double d :: t)
  | .upper u' :: .double d :: t =>
    some (.upper (u ++ ' ' :: u') :: .double d :: t)
  | .double d :: t => some (.upper u :: .double d :: t)
  | _ => none

/-- `fix_lower_gate`: merge a lone lower body `b` into the gate at the
head of the list. -/
def gateRwL (b : Body) : List Seg → Option (List Seg)
  | .lower l' :: .upper u' :: .double d :: t =>
    some (.lower (b ++ ' ' :: l') :: .upper u' :: .double d :: t)
  | .lower l' :: .double d :: t =>
    some (.lower (b ++ ' ' :: l') :: .double d :: t)
  | .upper u' :: .double d :: t =>
    some (.lower b :: .upper u' :: .double d :: t)
  | .double d :: t => some (.lower b :: .double d :: t)
  | _ => none

/-- Leftmost occurrence of `re_lone_upper_1` (a lone upper strand at
the start of the complex or right after a double colon, followed by a
double colon and a gate), rewritten by `fix_upper_gate`.  The flag
records whether a match may start at the current position. -/
def findLoneU1 (ok : Bool) : List Seg → Option (List Seg)
  | .upper u :: .dcolon :: rest =>
    match (if ok then gateRwU u rest else none) with
    | some r => some r
    | none =>
      (findLoneU1 true rest).map (fun x => Seg.upper u :: Seg.dcolon :: x)
  | s :: rest => (findLoneU1 (isDc s) rest).map (s :: ·)
  | [] => none

/-- Rewrite for `re_lone_upper_2` once a double strand has been found:
the remainder must be exactly `upper? lower? dcolon upper` and end the
complex; the lone upper is merged into (or inserted after) the
preceding gate. -/
def u2At (d : Body) : List Seg → Option (List Seg)
  | [.upper u2, .lower l2, .dcolon, .upper u] =>
    some [.double d, .upper (u2 ++ ' ' :: u), .lower l2]
  | [.upper u2, .dcolon, .upper u] => some [.double d, .upper (u2 ++ ' ' :: u)]
  | [.lower l2, .dcolon, .upper u] => some [.double d, .upper u, .lower l2]
  | [.dcolon, .upper u] => some [.double d, .upper u]
  | _ => none

/-- Leftmost occurrence of `re_lone_upper_2` (a gate, a double colon and
a lone upper strand ending the complex). -/
def findLoneU2 : List Seg → Option (List Seg)
  | .double d :: rest =>
    match u2At d rest with
    | some r => some r
    | none => (findLoneU2 rest).map (fun x => Seg.double d :: x)
  | s :: rest => (findLoneU2 rest).map (s :: ·)
  | [] => none

/-- Leftmost occurrence of `re_lone_lower_1` (a lone lower strand at the
start or after a single colon preceded by a non-colon character,
followed by a single colon and a gate).  `ok` says whether a match may
start at the current position, `prevNC` whether the segment before the
current head exists and is not a connector. -/
def findLoneL1 (ok : Bool) (prevNC : Bool) : List Seg → Option (List Seg)
  | .lower b :: .colon :: rest =>
    match (if ok then gateRwL b rest else none) with
    | some r => some r
    | none =>
      (findLoneL1 true false rest).map (fun x => Seg.lower b :: Seg.colon :: x)
  | s :: rest => (findLoneL1 (isCol s && prevNC) (!(isConn s)) rest).map (s :: ·)
  | [] => none

/-- Rewrite for `re_lone_lower_2` once a double strand has been found:
the remainder must be exactly `upper? lower? colon lower` ending the
complex. -/
def l2At (d : Body) : List Seg → Option (List Seg)
  | [.upper u2, .lower l2, .colon, .lower b] =>
    some [.double d, .upper u2, .lower (l2 ++ ' ' :: b)]
  | [.lower l2, .colon, .lower b] => some [.double d, .lower (l2 ++ ' ' :: b)]
  | [.upper u2, .colon, .lower b] => some [.double d, .upper u2, .lower b]
  | [.colon, .lower b] => some [.double d, .lower b]
  | _ => none

/-- Leftmost occurrence of `re_lone_lower_2` (a gate, a single colon and
a lone lower strand ending the complex). -/
def findLoneL2 : List Seg → Option (List Seg)
  | .double d :: rest =>
    match l2At d rest with
    | some r => some r
    | none => (findLoneL2 rest).map (fun x => Seg.double d :: x)
  | s :: rest => (findLoneL2 rest).map (s :: ·)
  | [] => none

/-- One `merge_gates` search in the priority order of the source. -/
def mergeStep (l : List Seg) : Option (List Seg) :=
  match findLoneU1 true l with
  | some l' => some l'
  | none =>
    match findLoneU2 l with
    | some l' => some l'
    | none =>
      match findLoneL1 true false l with
      | some l' => some l'
      | none => findLoneL2 l

/-- `merge_gates`, recursing until no lone-strand pattern matches
(fuel-bounded; every rewrite shortens the list). -/
def mergeGatesF : Nat → List Seg → List Seg
  | 0, l => l
  | fuel + 1, l =>
    match mergeStep l with
    | some l' => mergeGatesF fuel l'
    | none => l

/-- `merge_gates` of the source. -/
def mergeGates (l : List Seg) : List Seg := mergeGatesF (l.length + 1) l

/-- Tail of `re_format_1` after the double colon: `lower? upper double`;
the moved upper body `u` is prepended to the right-hand upper. -/
def f1Tail (u : Body) : List Seg → Option (List Seg)
  | .lower lb :: .upper u' :: .double d2 :: t =>
    some (.lower lb :: .upper (u ++ ' ' :: u') :: .double d2 :: t)
  | .upper u' :: .double d2 :: t =>
    some (.upper (u ++ ' ' :: u') :: .double d2 :: t)
  | _ => none

/-- `re_format_1` at the current position: `double upper lower? dcolon
lower? upper double`; the left upper migrates across the double colon
into the right upper. -/
def f1At : List Seg → Option (List Seg)
  | .double d1 :: .upper u :: .lower la :: .dcolon :: rest =>
    (f1Tail u rest).map (fun x => Seg.double d1 :: Seg.lower la :: Seg.dcolon :: x)
  | .double d1 :: .upper u :: .dcolon :: rest =>
    (f1Tail u rest).map (fun x => Seg.double d1 :: Seg.dcolon :: x)
  | _ => none

/-- Tail of `re_format_2` after the colon: `lower upper? double`; the
moved lower body `b` is prepended to the right-hand lower. -/
def f2Tail (b : Body) : List Seg → Option (List Seg)
  | .lower b' :: .upper ub :: .double d2 :: t =>
    some (.lower (b ++ ' ' :: b') :: .upper ub :: .double d2 :: t)
  | .lower b' :: .double d2 :: t =>
    some (.lower (b ++ ' ' :: b') :: .double d2 :: t)
  | _ => none

/-- `re_format_2` at the current position: `double upper? lower colon
lower upper? double`; the left lower migrates across the colon into the
right lower. -/
def f2At : List Seg → Option (List Seg)
  | .double d1 :: .upper ua :: .lower b :: .colon :: rest =>
    (f2Tail b rest).map (fun x => Seg.double d1 :: Seg.upper ua :: Seg.colon :: x)
  | .double d1 :: .lower b :: .colon :: rest =>
    (f2Tail b rest).map (fun x => Seg.double d1 :: Seg.colon :: x)
  | _ => none

/-- Tail of `re_format_3` after the double colon: `lower? double`; the
moved upper segment is inserted before the right double. -/
def f3Tail (u : Body) : List Seg → Option (List Seg)
  | .lower lb :: .double d2 :: t =>
    some (.lower lb :: .upper u :: .double d2 :: t)
  | .double d2 :: t => some (.upper u :: .double d2 :: t)
  | _ => none

/-- `re_format_3` at the current position: `double upper lower? dcolon
lower? double` (no upper on the right); the left upper moves to just
before the right double. -/
def f3At : List Seg → Option (List Seg)
  | .double d1 :: .upper u :: .lower la :: .dcolon :: rest =>
    (f3Tail u rest).map (fun x => Seg.double d1 :: Seg.lower la :: Seg.dcolon :: x)
  | .double d1 :: .upper u :: .dcolon :: rest =>
    (f3Tail u rest).map (fun x => Seg.double d1 :: Seg.dcolon :: x)
  | _ => none

/-- Tail of `re_format_4` after the moved lower: `upper? double`
(unchanged, only checked). -/
def f4Tail : List Seg → Option (List Seg)
  | .upper ub :: .double d2 :: t => some (.upper ub :: .double d2 :: t)
  | .double d2 :: t => some (.double d2 :: t)
  | _ => none

/-- `re_format_4` at the current position: `double upper? lower colon
upper? double` (no lower on the right); the left lower moves to just
after the colon. -/
def f4At : List Seg → Option (List Seg)
  | .double d1 :: .upper ua :: .lower b :: .colon :: rest =>
    (f4Tail rest).map (fun x => Seg.double d1 :: Seg.upper ua :: Seg.colon :: Seg.lower b :: x)
  | .double d1 :: .lower b :: .colon :: rest =>
    (f4Tail rest).map (fun x => Seg.double d1 :: Seg.colon :: Seg.lower b :: x)
  | _ => none

/-- Leftmost occurrence of a given positional pattern. -/
def findPat (pat : List Seg → Option (List Seg)) : List Seg → Option (List Seg)
  | [] => none
  | s :: rest =>
    match pat (s :: rest) with
    | some r => some r
    | none => (findPat pat rest).map (s :: ·)

/-- One `reformat` search in the priority order of the source. -/
def formatStep (l : List Seg) : Option (List Seg) :=
  match findPat f1At l with
  | some l' => some l'
  | none =>
    match findPat f2At l with
    | some l' => some l'
    | none =>
      match findPat f3At l with
      | some l' => some l'
      | none => findPat f4At l

/-- `reformat`, recursing until no pattern matches (fuel-bounded; every
rewrite either shortens the list or moves a strand rightwards across a
connector). -/
def reformatF : Nat → List Seg → List Seg
  | 0, l => l
  | fuel + 1, l =>
    match formatStep l with
    | some l' => reformatF fuel l'
    | none => l

/-- `reformat` of the source. -/
def reformat (l : List Seg) : List Seg :=
  reformatF (l.length * l.length + 1) l

/-- `standardise` of the source: `tidy`, then `merge_gates`, then
`reformat`. -/
def standardise (l : List Seg) : List Seg := reformat (mergeGates (tidyS l))

/-! ## Gates and reactions -/

/-- Stochastic rate constant `alpha` of the source (`1.e-10`); every
rule yields its transitions with this rate. -/
def alpha : ℚ := mkRat 1 10000000000

/-- Unused rate constant `beta` of the source (`1000 ** -2`). -/
def beta : ℚ := mkRat 1 1000000

/-- A reaction candidate: the `Transition(reactants, products, rate)`
of the source. -/
structure Reaction where
  reactants : List (List Seg)
  products : List (List Seg)
  rate : ℚ
deriving DecidableEq

/-- A gate as matched by `re_gate`: optional left lower and upper
overhangs, the double strand, optional right upper and lower
overhangs. -/
structure Gate where
  l1 : Option Body
  u1 : Option Body
  d : Body
  u2 : Option Body
  l2 : Option Body
deriving DecidableEq

/-- The segments a gate match consumed, in order. -/
def gateSegs (g : Gate) : List Seg :=
  (g.l1.map Seg.lower).toList ++ (g.u1.map Seg.upper).toList ++
    [Seg.double g.d] ++ (g.u2.map Seg.upper).toList ++ (g.l2.map Seg.lower).toList

/-- Greedy parse of the two optional groups after the double strand. -/
def parseGateTail (l1 u1 : Option Body) (d : Body) :
    List Seg → Gate × List Seg
  | .upper b :: .lower b2 :: rest => (⟨l1, u1, d, some b, some b2⟩, rest)
  | .upper b :: rest => (⟨l1, u1, d, some b, none⟩, rest)
  | .lower b2 :: rest => (⟨l1, u1, d, none, some b2⟩, rest)
  | rest => (⟨l1, u1, d, none, none⟩, rest)

/-- Parse one `re_gate` match starting at the head of the list:
two optional groups, a mandatory double strand, two optional groups. -/
def parseGate : List Seg → Option (Gate × List Seg)
  | .lower b :: .upper b2 :: .double d :: rest =>
    some (parseGateTail (some b) (some b2) d rest)
  | .lower b :: .double d :: rest => some (parseGateTail (some b) none d rest)
  | .upper b2 :: .double d :: rest => some (parseGateTail none (some b2) d rest)
  | .double d :: rest => some (parseGateTail none none d rest)
  | _ => none

/-- `re.finditer(re_gate, k)`: all gate matches, each with the segments
before and after it (fuel-bounded scan). -/
def gatesOfF : Nat → List Seg → List Seg → List (List Seg × Gate × List Seg)
  | 0, _, _ => []
  | fuel + 1, pre, l =>
    match l with
    | [] => []
    | s :: rest =>
      match parseGate (s :: rest) with
      | some (g, after) => (pre, g, after) :: gatesOfF fuel (pre ++ gateSegs g) after
      | none => gatesOfF fuel (pre ++ [s]) rest

/-- All gate matches of a complex with their contexts. -/
def gatesOf (l : List Seg) : List (List Seg × Gate × List Seg) :=
  gatesOfF (l.length + 1) [] l

/-- The body of an optional overhang (`check_in` of the source applied
to a possibly missing group). -/
def optB : Option Body → Body
  | some b => b
  | none => []

/-! ## The Unbinding rule -/

/-- `re_short_double_th`: the double-strand body consists of non-word
characters, a single word character, a caret, and non-word characters.
This matches a one-domain duplex with a single-character label and a
toehold marker and nothing else (so `[A^]` and `[A^*]` match, while
`[A^ B]`, `[AB^]` and `[A]` do not). -/
def shortDoubleTh (b : Body) : Bool :=
  match b.dropWhile (fun c => !wordChar c) with
  | c :: '^' :: rest => wordChar c && rest.all (fun x => !wordChar x)
  | _ => false

/-- The label character extracted by `re_double_lab` from a matched
short double toehold. -/
def shortLabel (b : Body) : Option Char :=
  (b.dropWhile (fun c => !wordChar c)).head?

/-- `UnbindingRule.toehold_unbinding`: for every gate whose duplex is a
single short toehold, rebuild the upper and lower constituent strands
and attach the surrounding segments to the strand matching the join
type (a double-colon join carries the upper strand, anything else the
lower strand). -/
def unbindReactions (kl : List Seg) : List Reaction :=
  (gatesOf kl).filterMap fun pgp =>
    let pre := pgp.1
    let g := pgp.2.1
    let post := pgp.2.2
    if shortDoubleTh g.d then
      match shortLabel g.d with
      | some c =>
        let pa0 : List Seg :=
          [.upper (optB g.u1 ++ ' ' :: c :: '^' :: ' ' :: optB g.u2)]
        let pb0 : List Seg :=
          [.lower (optB g.l1 ++ ' ' :: c :: '^' :: '*' :: ' ' :: optB g.l2)]
        let pa1 := if pre ≠ [] ∧ pre.getLast? = some Seg.dcolon then pre ++ pa0 else pa0
        let pb1 := if pre ≠ [] ∧ pre.getLast? ≠ some Seg.dcolon then pre ++ pb0 else pb0
        let pa2 := if post ≠ [] ∧ post.head? = some Seg.dcolon then pa1 ++ post else pa1
        let pb2 := if post ≠ [] ∧ post.head? ≠ some Seg.dcolon then pb1 ++ post else pb1
        some ⟨[kl], [standardise pa2, standardise pb2], alpha⟩
      | none => none
    else none

/-- `UnbindingRule.novel_reactions`. -/
def unbindingNovelReactions (kl : List Seg) : List Reaction :=
  unbindReactions kl

/-! ## The Binding rule

`re_upper_lab` finds word characters followed by a caret whose
remaining context reaches a closing angle bracket without crossing
another angle bracket: inside a bare strand or a gate these are exactly
the caret-marked positions inside upper-strand bodies.  `re_lower_lab`
likewise finds word characters followed by caret-star inside
lower-strand bodies. -/

/-- Match positions of `re_upper_lab` inside one upper-strand body:
index `j` such that the character at `j` is a word character and the
next character is a caret. -/
def upperLabIdx (b : Body) : List Nat :=
  (List.range b.length).filter fun j =>
    match b.drop j with
    | c :: '^' :: _ => wordChar c
    | _ => false

/-- Match positions of `re_lower_lab` inside one lower-strand body:
a word character followed by caret and star. -/
def lowerLabIdx (b : Body) : List Nat :=
  (List.range b.length).filter fun j =>
    match b.drop j with
    | c :: '^' :: '*' :: _ => wordChar c
    | _ => false

/-- Does `re_gate` match anywhere, i.e. does the complex contain a
double strand? -/
def hasGate (l : List Seg) : Bool :=
  l.any fun s => match s with | .double _ => true | _ => false

/-- `strand_to_strand_binding` with `regex_1 = re_upper_lab`: `k` is a
bare upper strand, `l` a bare lower strand; each matching pair of a
word character followed by caret in `k` and the same character followed
by caret-star in `l` is spliced into a bound complex
(characters are spliced at the match offsets exactly as the source
slices the strings, so a match inside a longer domain splits that
domain). -/
def s2sBindUp (k l : List Seg) : List Reaction :=
  match k, l with
  | [.upper kb], [.lower lb] =>
    (upperLabIdx kb).flatMap fun j1 =>
      (lowerLabIdx lb).filterMap fun j2 =>
        match (kb.drop j1).head?, (lb.drop j2).head? with
        | some c1, some c2 =>
          if c1 = c2 then
            some ⟨[[.upper kb], [.lower lb]],
              [tidyS [.lower (lb.take j2), .upper (kb.take j1),
                .double [c1, '^'], .upper (kb.drop (j1 + 2)),
                .lower (lb.drop (j2 + 3))]], alpha⟩
          else none
        | _, _ => none
  | _, _ => []

/-- `strand_to_strand_binding` with `regex_1 = re_lower_lab`: `k` is a
bare lower strand, `l` a bare upper strand. -/
def s2sBindLow (k l : List Seg) : List Reaction :=
  match k, l with
  | [.lower kb], [.upper lb] =>
    (lowerLabIdx kb).flatMap fun j1 =>
      (upperLabIdx lb).filterMap fun j2 =>
        match (kb.drop j1).head?, (lb.drop j2).head? with
        | some c1, some c2 =>
          if c1 = c2 then
            some ⟨[[.lower kb], [.upper lb]],
              [tidyS [.lower (kb.take j1), .upper (lb.take j2),
                .double [c1, '^'], .upper (lb.drop (j2 + 2)),
                .lower (kb.drop (j1 + 3))]], alpha⟩
          else none
        | _, _ => none
  | _, _ => []

/-- The optional lower-strand segment of a gate group. -/
def optLowSegs (b : Option Body) : List Seg := (b.map Seg.lower).toList

/-- The optional upper-strand segment of a gate group. -/
def optUpSegs (b : Option Body) : List Seg := (b.map Seg.upper).toList

/-- `strand_to_gate_binding` with `regex_1 = re_upper_lab`: `k` carries
the gates, `l` is a bare lower strand.  A toehold inside the left upper
overhang splits the gate before its double strand, one inside the right
upper overhang splits it after; both splices follow the source's group
arithmetic verbatim.  (When a left-overhang match fires on a gate with
no left lower overhang the source crashes on concatenating `None`; the
embedding keeps the group optional.) -/
def s2gBindUp (k l : List Seg) : List Reaction :=
  match l with
  | [.lower lb] =>
    (gatesOf k).flatMap fun pgp =>
      let pre := pgp.1
      let g := pgp.2.1
      let post := pgp.2.2
      let mk1 : List Reaction := (upperLabIdx (optB g.u1)).flatMap fun j =>
        (lowerLabIdx lb).filterMap fun j2 =>
          match ((optB g.u1).drop j).head?, (lb.drop j2).head? with
          | some c1, some c2 =>
            if c1 = c2 then
              some ⟨[k, l], [standardise (pre ++
                [.lower (lb.take j2), .upper ((optB g.u1).take j),
                 .double [c1, '^'], .lower (lb.drop (j2 + 3)), .dcolon] ++
                optLowSegs g.l1 ++ [.upper ((optB g.u1).drop (j + 2))] ++
                [.double g.d] ++ optUpSegs g.u2 ++ optLowSegs g.l2 ++ post)],
                alpha⟩
            else none
          | _, _ => none
      let mk2 : List Reaction := (upperLabIdx (optB g.u2)).flatMap fun j =>
        (lowerLabIdx lb).filterMap fun j2 =>
          match ((optB g.u2).drop j).head?, (lb.drop j2).head? with
          | some c1, some c2 =>
            if c1 = c2 then
              some ⟨[k, l], [standardise (pre ++
                optLowSegs g.l1 ++ optUpSegs g.u1 ++ [.double g.d] ++
                optLowSegs g.l2 ++
                [.dcolon, .lower (lb.take j2), .upper ((optB g.u2).take j),
                 .double [c1, '^'], .upper ((optB g.u2).drop (j + 2)),
                 .lower (lb.drop (j2 + 3))] ++ post)], alpha⟩
            else none
          | _, _ => none
      mk1 ++ mk2
  | _ => []

/-- `strand_to_gate_binding` with `regex_1 = re_lower_lab`: `k` carries
the gates, `l` is a bare upper strand.  A match inside the left lower
overhang yields its transition twice (the source's final `yield` sits
outside the `if`/`elif` and fires again with the same spliced string);
a match inside the right lower overhang yields once.  (When a
right-overhang match fires on a gate with no right upper overhang the
source slices with `end(4) = -1`, chopping the final character; the
embedding keeps the group optional.) -/
def s2gBindLow (k l : List Seg) : List Reaction :=
  match l with
  | [.upper lb] =>
    (gatesOf k).flatMap fun pgp =>
      let pre := pgp.1
      let g := pgp.2.1
      let post := pgp.2.2
      let mk1 : List Reaction := (lowerLabIdx (optB g.l1)).flatMap fun j =>
        (upperLabIdx lb).flatMap fun j2 =>
          match ((optB g.l1).drop j).head?, (lb.drop j2).head? with
          | some c1, some c2 =>
            if c1 = c2 then
              let r : Reaction := ⟨[k, l], [standardise (pre ++
                [.lower ((optB g.l1).take j), .upper (lb.take j2),
                 .double [c1, '^'], .upper (lb.drop (j2 + 3)),
                 .lower ((optB g.l1).drop (j + 3)), .colon] ++
                optUpSegs g.u1 ++ [.double g.d] ++ optUpSegs g.u2 ++
                optLowSegs g.l2 ++ post)], alpha⟩
              [r, r]
            else []
          | _, _ => []
      let mk2 : List Reaction := (lowerLabIdx (optB g.l2)).flatMap fun j =>
        (upperLabIdx lb).filterMap fun j2 =>
          match ((optB g.l2).drop j).head?, (lb.drop j2).head? with
          | some c1, some c2 =>
            if c1 = c2 then
              some ⟨[k, l], [standardise (pre ++
                optLowSegs g.l1 ++ optUpSegs g.u1 ++ [.double g.d] ++
                optUpSegs g.u2 ++
                [.colon, .lower ((optB g.l2).take j), .upper (lb.take j2),
                 .double [c1, '^'], .upper (lb.drop (j2 + 3)),
                 .lower ((optB g.l2).drop (j + 3))] ++ post)], alpha⟩
            else none
          | _, _ => none
      mk1 ++ mk2
  | _ => []

/-- `BindingRule.novel_reactions`: strand-to-gate binding when exactly
one reactant contains a gate, strand-to-strand binding when neither
does, and nothing at all when both do. -/
def bindingNovelReactions (k l : List Seg) : List Reaction :=
  if (hasGate k = false ∧ hasGate l = true) ∨
      (hasGate l = false ∧ hasGate k = true) then
    s2gBindUp k l ++ s2gBindUp l k ++ s2gBindLow k l ++ s2gBindLow l k
  else if hasGate k = false ∨ hasGate l = false then
    s2sBindUp k l ++ s2sBindLow k l
  else []

/-! ## The Leakage rule -/

/-- Leftmost non-overlapping occurrences of a pattern in a body
(`re.finditer` of the escaped duplex body inside the invader body; the
caret is escaped by the source, and the bodies the claims use contain
no other regex metacharacters, so this is literal substring search). -/
def occsF (pat : Body) : Nat → Nat → Body → List Nat
  | 0, _, _ => []
  | fuel + 1, i, s =>
    match s with
    | [] => []
    | _ :: t =>
      if pat ≠ [] ∧ s.take pat.length = pat then
        i :: occsF pat fuel (i + pat.length) (s.drop pat.length)
      else occsF pat fuel (i + 1) t

/-- All leftmost non-overlapping occurrence offsets of `pat` in `s`. -/
def substrOccs (pat s : Body) : List Nat := occsF pat (s.length + 1) 0 s

/-- `LeakageRule.strand_leak` for one gate of `k` against the bare
invader `l`.  The upper-strand-join guards compare the two characters
before and after the gate with a double colon and are faithful to the
source; the lower-strand-join guards in the source read the single
characters at `gate.start()-2` and `gate.end()+1`, which equal a colon
exactly when the adjacent join is a DOUBLE colon, so they coincide with
the upper guards (the inverted test at dsd.py lines 478-479).  Gates
with a missing overhang group reuse the gate boundary for the slice
(`start(2)`/`end(4)` of a missing group is `-1` in the source, which
slices one character off the end of the string; no reaction the claims
evaluate exercises that branch). -/
def leakGate (pre : List Seg) (g : Gate) (post : List Seg)
    (k l : List Seg) (lUp : Bool) (lb : Body) : List Reaction :=
  if shortDoubleTh g.d then []
  else
    let pat := g.d
    let rotl := rotBody lb
    let leakedU : List Seg :=
      [.upper (optB g.u1 ++ ' ' :: (g.d ++ ' ' :: optB g.u2))]
    let leakedL : List Seg :=
      [.lower (optB g.l1 ++ ' ' :: (g.d ++ ' ' :: optB g.l2))]
    let uj1 : Bool := pre.getLast? = some Seg.dcolon
    let uj2 : Bool := post.head? = some Seg.dcolon
    let lj1 : Bool := pre.getLast? = some Seg.dcolon
    let lj2 : Bool := post.head? = some Seg.dcolon
    let upperLeaks (src : Body) : List Reaction :=
      (substrOccs pat src).map fun j =>
        ⟨[k, l], [tidyS (pre ++ optLowSegs g.l1 ++
          [.upper (src.take j), .double g.d,
           .upper (src.drop (j + pat.length))] ++
          optLowSegs g.l2 ++ post), tidyS leakedU], alpha⟩
    let lowerLeaks (src : Body) : List Reaction :=
      (substrOccs pat src).map fun j =>
        ⟨[k, l], [tidyS (pre ++ [.lower (src.take j)] ++
          optUpSegs g.u1 ++ [.double g.d] ++ optUpSegs g.u2 ++
          [.lower (src.drop (j + pat.length))] ++ post), tidyS leakedL],
          alpha⟩
    if lUp then
      (if uj1 = false ∧ uj2 = false then upperLeaks lb else []) ++
        (if lj1 = false ∧ lj2 = false then lowerLeaks rotl else [])
    else
      (if lj1 = false ∧ lj2 = false then lowerLeaks lb else []) ++
        (if uj1 = false ∧ uj2 = false then upperLeaks rotl else [])

/-- `LeakageRule.strand_leak`: scan the gates of `k`; the invader `l`
must be a bare strand. -/
def strandLeak (k l : List Seg) : List Reaction :=
  match l with
  | [.upper lb] =>
    (gatesOf k).flatMap fun pgp => leakGate pgp.1 pgp.2.1 pgp.2.2 k l true lb
  | [.lower lb] =>
    (gatesOf k).flatMap fun pgp => leakGate pgp.1 pgp.2.1 pgp.2.2 k l false lb
  | _ => []

/-- `LeakageRule.novel_reactions`: fires only when exactly one of the
two reactants contains a gate. -/
def leakageNovelReactions (k l : List Seg) : List Reaction :=
  if (hasGate k = false ∧ hasGate l = true) ∨
      (hasGate l = false ∧ hasGate k = true) then
    strandLeak k l ++ strandLeak l k
  else []

/-! ## The Migration rule -/

/-- Length of the longest common prefix of two bodies: the candidate
lengths that a backtracking `(\w+)` group checked by a backreference
can settle on are bounded by it. -/
def lcp : Body → Body → Nat
  | a :: as, b :: bs => if a = b then lcp as bs + 1 else 0
  | _, _ => 0

/-- Greedy optional upper strand. -/
def optUpper : List Seg → Option Body × List Seg
  | .upper b :: t => (some b, t)
  | t => (none, t)

/-- Greedy optional lower strand. -/
def optLower : List Seg → Option Body × List Seg
  | .lower b :: t => (some b, t)
  | t => (none, t)

/-- Generic non-overlapping leftmost scan: each match yields the
segments before it, a payload, and the segments after it, and scanning
resumes after the match (`re.finditer`). -/
def scanM {α : Type} (pat : List Seg → Option (α × List Seg × List Seg)) :
    Nat → List Seg → List Seg → List (List Seg × α × List Seg)
  | 0, _, _ => []
  | fuel + 1, pre, l =>
    match l with
    | [] => []
    | s :: rest =>
      match pat (s :: rest) with
      | some (a, matched, after) =>
        (pre, a, after) :: scanM pat fuel (pre ++ matched) after
      | none => scanM pat fuel (pre ++ [s]) rest

/-- `re_upper_migrate` at the current position, already rewritten by
`MigrationRule.migrate`: a double strand, an upper overhang, a colon,
an optional upper strand, and a double strand.  The greedy but
backtracking `(\w+)` group settles on the longest word-run prefix `w`
of the overhang that the rest of the pattern accepts: the
backreference needs the second double's body to start with `w` and
the `(?!\])` lookahead needs it to continue past `w`, so the length
chosen is `min (lcp run d2) (d2.length - 1)` and the match fails only
when that is zero.  The payload is the replacement window. -/
def upMigAt : List Seg → Option (List Seg × List Seg × List Seg)
  | .double d1 :: .upper ub :: .colon :: rest =>
    let (v, r1) := optUpper rest
    match r1 with
    | .double d2 :: t =>
      let j := min (lcp (ub.takeWhile wordChar) d2) (d2.length - 1)
      if j = 0 then none
      else
        let w := (ub.takeWhile wordChar).take j
        some ([.double (d1 ++ ' ' :: w), .upper (ub.drop j),
          .colon, .upper (optB v ++ ' ' :: w), .double (d2.drop j)],
          [Seg.double d1, Seg.upper ub, Seg.colon] ++ optUpSegs v ++
            [Seg.double d2], t)
    | _ => none
  | _ => none

/-- `re_lower_migrate` at the current position, rewritten; the
backtracking `(\w+)` group behaves as in `upMigAt`. -/
def lowMigAt : List Seg → Option (List Seg × List Seg × List Seg)
  | .double d1 :: .lower ub :: .dcolon :: rest =>
    let (v, r1) := optLower rest
    match r1 with
    | .double d2 :: t =>
      let j := min (lcp (ub.takeWhile wordChar) d2) (d2.length - 1)
      if j = 0 then none
      else
        let w := (ub.takeWhile wordChar).take j
        some ([.double (d1 ++ ' ' :: w), .lower (ub.drop j),
          .dcolon, .lower (optB v ++ ' ' :: w), .double (d2.drop j)],
          [Seg.double d1, Seg.lower ub, Seg.dcolon] ++ optLowSegs v ++
            [Seg.double d2], t)
    | _ => none
  | _ => none

/-- The maximal word-character run ending a body, provided a space
precedes it (the `[^()]*(?<=\s)(\w+)` tail of the reverse-migration
duplex patterns); `none` when the body does not end that way. -/
def tailWord (b : Body) : Option Body :=
  let w := (b.reverse.takeWhile wordChar).reverse
  if w = [] then none
  else if (b.take (b.length - w.length)).getLast? = some ' ' then some w
  else none

/-- `re_upper_migrate_r` at the current position, rewritten by
`MigrationRule.migrate_rev`. -/
def upMigRevAt : List Seg → Option (List Seg × List Seg × List Seg)
  | .double d1 :: rest =>
    match tailWord d1 with
    | none => none
    | some w =>
      let (v, r1) := optUpper rest
      match r1 with
      | .colon :: .upper u2 :: .double d2 :: t =>
        if w.length ≤ u2.length ∧ u2.drop (u2.length - w.length) = w then
          some ([.double (d1.take (d1.length - w.length)),
            .upper (w ++ ' ' :: optB v), .colon,
            .upper (u2.take (u2.length - w.length)),
            .double (w ++ ' ' :: d2)],
            [Seg.double d1] ++ optUpSegs v ++
              [Seg.colon, Seg.upper u2, Seg.double d2], t)
        else none
      | _ => none
  | _ => none

/-- `re_lower_migrate_r` at the current position, rewritten.  (The
leading duplex group of the source's pattern may in principle span a
closing square bracket; the spanned prefix is copied verbatim either
way, so taking the group to be a single double-strand segment yields
the same rewritten string.) -/
def lowMigRevAt : List Seg → Option (List Seg × List Seg × List Seg)
  | .double d1 :: rest =>
    match tailWord d1 with
    | none => none
    | some w =>
      let (v, r1) := optLower rest
      match r1 with
      | .dcolon :: .lower u2 :: .double d2 :: t =>
        if w.length ≤ u2.length ∧ u2.drop (u2.length - w.length) = w then
          some ([.double (d1.take (d1.length - w.length)),
            .lower (w ++ ' ' :: optB v), .dcolon,
            .lower (u2.take (u2.length - w.length)),
            .double (w ++ ' ' :: d2)],
            [Seg.double d1] ++ optLowSegs v ++
              [Seg.dcolon, Seg.lower u2, Seg.double d2], t)
        else none
      | _ => none
  | _ => none

/-- Reactions of one migration scan: each match replaces its window and
the whole product is tidied. -/
def migReactions (k : List Seg)
    (pat : List Seg → Option (List Seg × List Seg × List Seg)) :
    List Reaction :=
  (scanM pat (k.length + 1) [] k).map fun m =>
    ⟨[k], [tidyS (m.1 ++ m.2.1 ++ m.2.2)], alpha⟩

/-- `MigrationRule.novel_reactions`: the input is tidied, then the four
scans run in the source's order (lower, upper, lower reverse, upper
reverse). -/
def migrationNovelReactions (k0 : List Seg) : List Reaction :=
  migReactions (tidyS k0) lowMigAt ++ migReactions (tidyS k0) upMigAt ++
    migReactions (tidyS k0) lowMigRevAt ++ migReactions (tidyS k0) upMigRevAt

/-! ## The Displacement rule -/

/-- Groups of a forward displacement match: the left double strand, the
leading word run of the displacing overhang, the remainder of that
overhang, and the three optional trailing groups. -/
structure DispFwd where
  d1 : Body
  w : Body
  rest : Body
  g4 : Option Body
  g6 : Option Body
  g7 : Option Body
deriving DecidableEq

/-- `re_displace_upper` at the current position: double strand, upper
overhang, colon, optional upper, a double strand, optional upper,
optional lower.  The backreference `\[(\2)\]` forces the `(\w+)`
group to be exactly the second double's body, so backtracking finds a
match precisely when that body is a nonempty prefix of the overhang's
leading word run. -/
def dispUpAt : List Seg → Option (DispFwd × List Seg × List Seg)
  | .double d1 :: .upper ub :: .colon :: rest =>
    let (g4, r1) := optUpper rest
    match r1 with
    | .double d2 :: r2 =>
      if d2 ≠ [] ∧ (ub.takeWhile wordChar).take d2.length = d2 then
        let (g6, r3) := optUpper r2
        let (g7, r4) := optLower r3
        some (⟨d1, d2, ub.drop d2.length, g4, g6, g7⟩,
          [Seg.double d1, Seg.upper ub, Seg.colon] ++ optUpSegs g4 ++
            [Seg.double d2] ++ optUpSegs g6 ++ optLowSegs g7, r4)
      else none
    | _ => none
  | _ => none

/-- `re_displace_lower` at the current position; the backtracked
`(\w+)` group is pinned to the duplex body as in `dispUpAt`. -/
def dispLowAt : List Seg → Option (DispFwd × List Seg × List Seg)
  | .double d1 :: .lower ub :: .dcolon :: rest =>
    let (g4, r1) := optLower rest
    match r1 with
    | .double d2 :: r2 =>
      if d2 ≠ [] ∧ (ub.takeWhile wordChar).take d2.length = d2 then
        let (g6, r3) := optUpper r2
        let (g7, r4) := optLower r3
        some (⟨d1, d2, ub.drop d2.length, g4, g6, g7⟩,
          [Seg.double d1, Seg.lower ub, Seg.dcolon] ++ optLowSegs g4 ++
            [Seg.double d2] ++ optUpSegs g6 ++ optLowSegs g7, r4)
      else none
    | _ => none
  | _ => none

/-- `DisplacementRule.displacement_fwd` with `re_displace_upper`: when
the match is not followed by a double colon the displaced upper strand
floats free and the gate keeps its tail, otherwise the complex splits
after the extended duplex and the right-hand upper of the match is
dropped (as in the source). -/
def dispUpReaction (k : List Seg) (m : List Seg × DispFwd × List Seg) :
    Reaction :=
  let pre := m.1
  let g := m.2.1
  let after := m.2.2
  if after.head? = some Seg.dcolon then
    ⟨[k], [tidyS (pre ++ [.double (g.d1 ++ ' ' :: g.w), .upper g.rest] ++
        optLowSegs g.g7),
      tidyS ([Seg.upper (optB g.g4 ++ ' ' :: g.w)] ++ after.drop 1)], alpha⟩
  else
    ⟨[k], [tidyS [Seg.upper (optB g.g4 ++ ' ' :: (g.w ++ ' ' :: optB g.g6))],
      tidyS (pre ++ [.double (g.d1 ++ ' ' :: g.w), .upper g.rest] ++
        optLowSegs g.g7 ++ after)], alpha⟩

/-- `DisplacementRule.displacement_fwd` with `re_displace_lower`. -/
def dispLowReaction (k : List Seg) (m : List Seg × DispFwd × List Seg) :
    Reaction :=
  let pre := m.1
  let g := m.2.1
  let after := m.2.2
  if after.head? = some Seg.colon then
    ⟨[k], [tidyS (pre ++ [.double (g.d1 ++ ' ' :: g.w)] ++ optUpSegs g.g6 ++
        [.lower g.rest]),
      tidyS ([Seg.lower (optB g.g4 ++ ' ' :: g.w)] ++ after.drop 1)], alpha⟩
  else
    ⟨[k], [tidyS [Seg.lower (optB g.g4 ++ ' ' :: (g.w ++ ' ' :: optB g.g7))],
      tidyS (pre ++ [.double (g.d1 ++ ' ' :: g.w)] ++ optUpSegs g.g6 ++
        [.lower g.rest] ++ after)], alpha⟩

/-- Groups of a reverse displacement match: optional lower and upper on
the left, the single-domain duplex `w`, the optional strand after it,
the non-matching prefix of the strand carrying `w`, and the right
double strand. -/
structure DispRev where
  g1 : Option Body
  g2 : Option Body
  w : Body
  g4 : Option Body
  b5 : Body
  d7 : Body
deriving DecidableEq

/-- `re_displace_upper_r` at the current position: optional lower,
optional upper, a duplex whose body is a single word run `w`, optional
upper, colon, an upper strand ending with `w`, and a double strand. -/
def dispUpRevAt : List Seg → Option (DispRev × List Seg × List Seg)
  | l =>
    let (g1, r0) := optLower l
    let (g2, r1) := optUpper r0
    match r1 with
    | .double w :: r2 =>
      if w ≠ [] ∧ w.all wordChar then
        let (g4, r3) := optUpper r2
        match r3 with
        | .colon :: .upper u5 :: .double d7 :: t =>
          if w.length ≤ u5.length ∧ u5.drop (u5.length - w.length) = w then
            some (⟨g1, g2, w, g4, u5.take (u5.length - w.length), d7⟩,
              optLowSegs g1 ++ optUpSegs g2 ++ [Seg.double w] ++
                optUpSegs g4 ++ [Seg.colon, Seg.upper u5, Seg.double d7], t)
          else none
        | _ => none
      else none
    | _ => none

/-- `re_displace_lower_r` at the current position. -/
def dispLowRevAt : List Seg → Option (DispRev × List Seg × List Seg)
  | l =>
    let (g1, r0) := optLower l
    let (g2, r1) := optUpper r0
    match r1 with
    | .double w :: r2 =>
      if w ≠ [] ∧ w.all wordChar then
        let (g4, r3) := optLower r2
        match r3 with
        | .dcolon :: .lower u5 :: .double d7 :: t =>
          if w.length ≤ u5.length ∧ u5.drop (u5.length - w.length) = w then
            some (⟨g1, g2, w, g4, u5.take (u5.length - w.length), d7⟩,
              optLowSegs g1 ++ optUpSegs g2 ++ [Seg.double w] ++
                optLowSegs g4 ++ [Seg.dcolon, Seg.lower u5, Seg.double d7], t)
          else none
        | _ => none
      else none
    | _ => none

/-- `DisplacementRule.displacement_rev` with `re_displace_upper_r`:
when the match is preceded by a double colon the complex splits before
it and the left upper overhang of the duplex is dropped, otherwise the
displaced upper strand floats free. -/
def dispUpRevReaction (k : List Seg) (m : List Seg × DispRev × List Seg) :
    Reaction :=
  let pre := m.1
  let g := m.2.1
  let after := m.2.2
  if pre.getLast? = some Seg.dcolon then
    ⟨[k], [tidyS (tidyS pre.dropLast ++
        [Seg.upper (g.w ++ ' ' :: optB g.g4)]),
      tidyS (optLowSegs g.g1 ++ [.upper g.b5, .double (g.w ++ ' ' :: g.d7)] ++
        after)], alpha⟩
  else
    ⟨[k], [tidyS [Seg.upper (optB g.g2 ++ ' ' :: (g.w ++ ' ' :: optB g.g4))],
      tidyS (pre ++ optLowSegs g.g1 ++
        [.upper g.b5, .double (g.w ++ ' ' :: g.d7)] ++ after)], alpha⟩

/-- `DisplacementRule.displacement_rev` with `re_displace_lower_r`. -/
def dispLowRevReaction (k : List Seg) (m : List Seg × DispRev × List Seg) :
    Reaction :=
  let pre := m.1
  let g := m.2.1
  let after := m.2.2
  if pre.getLast? = some Seg.colon then
    ⟨[k], [tidyS (tidyS pre.dropLast ++
        [Seg.lower (g.w ++ ' ' :: optB g.g4)]),
      tidyS ([Seg.lower g.b5] ++ optUpSegs g.g2 ++
        [.double (g.w ++ ' ' :: g.d7)] ++ after)], alpha⟩
  else
    ⟨[k], [tidyS [Seg.lower (optB g.g1 ++ ' ' :: (g.w ++ ' ' :: optB g.g4))],
      tidyS (pre ++ [Seg.lower g.b5] ++ optUpSegs g.g2 ++
        [.double (g.w ++ ' ' :: g.d7)] ++ after)], alpha⟩

/-- `DisplacementRule.novel_reactions`: the input is tidied, then the
four scans run in the source's order (upper, lower, upper reverse,
lower reverse). -/
def displacementNovelReactions (k0 : List Seg) : List Reaction :=
  (scanM dispUpAt ((tidyS k0).length + 1) [] (tidyS k0)).map
      (dispUpReaction (tidyS k0)) ++
    (scanM dispLowAt ((tidyS k0).length + 1) [] (tidyS k0)).map
      (dispLowReaction (tidyS k0)) ++
    (scanM dispUpRevAt ((tidyS k0).length + 1) [] (tidyS k0)).map
      (dispUpRevReaction (tidyS k0)) ++
    (scanM dispLowRevAt ((tidyS k0).length + 1) [] (tidyS k0)).map
      (dispLowRevReaction (tidyS k0))

/-! ## Concrete notation helpers -/

/-- An upper strand segment from a literal body. -/
def uSeg (s : String) : Seg := .upper s.toList

/-- A lower strand segment from a literal body. -/
def lSeg (s : String) : Seg := .lower s.toList

/-- A double strand segment from a literal body. -/
def dSeg (s : String) : Seg := .double s.toList

/-! ## Claim theorems -/

/-- The reduction example RD of the Lakin paper. -/
def c5Input : List Seg :=
  [lSeg "L'", uSeg "L", dSeg "S1", uSeg "S R", Seg.colon,
   uSeg "L2", dSeg "S", uSeg "R2", lSeg "R'"]

/-- The migration chain with two overlapping migration sites. -/
def c10Input : List Seg :=
  [dSeg "A", uSeg "w", Seg.colon, dSeg "w B", uSeg "w2", Seg.colon, dSeg "w2 C"]

/-- A single site whose duplex `S1` equals the matching domain of the
flanking overhang: `re_displace_upper` matches it with `w = S1` and
`re_upper_migrate` also matches it, backtracking `(\w+)` to `w = S`. -/
def c10Both : List Seg := [dSeg "A", uSeg "S1", Seg.colon, dSeg "S1"]

/-- A gate joined to a left neighbour by a single colon. -/
def c2K : List Seg :=
  [dSeg "A", Seg.colon, lSeg "L'", uSeg "L", dSeg "S", uSeg "R", lSeg "R'"]

/-- The bare lower invader strand for the leak counterexample. -/
def c2L : List Seg := [lSeg "L1 S R1"]

/-- A complex holding a gate and an exposed upper toehold. -/
def c6K : List Seg := [dSeg "A", uSeg "N^"]

/-- A complex holding a gate and the complementary exposed lower
toehold. -/
def c6L : List Seg := [dSeg "B", lSeg "N^*"]

/-- The spec's side condition for Unbinding, read literally: the duplex
body is one single domain token and that token bears a caret. -/
def specSingleToehold (b : Body) : Bool :=
  match splitB (tidyBody b) with
  | [t] => t.any fun c => c = '^'
  | _ => false

/-- A gate whose duplex is a single toehold domain with a two-character
label. -/
def c4Gate : List Seg := [lSeg "L'", uSeg "L", dSeg "AB^", uSeg "R", lSeg "R'"]

/-- The Lakin single-toehold gate. -/
def c4Lakin : List Seg := [lSeg "L'", uSeg "L", dSeg "N^", uSeg "R", lSeg "R'"]

/-- A gate flanked by lower overhangs, for the leak-rate example. -/
def c7K : List Seg := [lSeg "P", dSeg "T", lSeg "Q"]

/-- The invader lower strand of the leak-rate example. -/
def c7L : List Seg := [lSeg "T"]

/-- No two adjacent spaces, as a chain relation. -/
def NoSp2 (b : Body) : Prop := List.Chain' (fun a c => ¬(a = ' ' ∧ c = ' ')) b

/-- A normal body — what `tidy` leaves unchanged: nonempty, no leading
or trailing space, no two adjacent spaces. -/
def normBody (b : Body) : Prop :=
  b ≠ [] ∧ b.head? ≠ some ' ' ∧ b.getLast? ≠ some ' ' ∧ NoSp2 b

/-- A plain domain body: nonempty, no spaces, no carets. -/
def plainDom (b : Body) : Bool :=
  !b.isEmpty && b.all fun ch => !(ch = ' ') && !(ch = '^')

/-- The bare upper strand with the two-character toehold label `AB`. -/
def c3K : List Seg := [uSeg "AB^"]

/-- The complementary bare lower strand with label `AB`. -/
def c3L : List Seg := [lSeg "AB^*"]

/-- Is a segment a strand overhang (upper or lower)? -/
def isStrand : Seg → Bool
  | .upper _ => true
  | .lower _ => true
  | _ => false

/-- Number of connector segments. -/
def connCount (l : List Seg) : Nat := (l.filter isConn).length

/-- Termination measure of `reformat`: each strand segment counts the
connectors to its right. -/
def mu : List Seg → Nat
  | [] => 0
  | s :: t => (if isStrand s then connCount t else 0) + mu t

/-- Normality of one segment: strand and duplex bodies are normal. -/
def segNorm : Seg → Prop
  | .upper b => normBody b
  | .lower b => normBody b
  | .double b => normBody b
  | .colon => True
  | .dcolon => True

/-- The gate prefix shape shared by `fix_upper_gate` and
`fix_lower_gate`: optional lower, optional upper, double. -/
def gateShape : List Seg → Bool
  | .lower _ :: .upper _ :: .double _ :: _ => true
  | .lower _ :: .double _ :: _ => true
  | .upper _ :: .double _ :: _ => true
  | .double _ :: _ => true
  | _ => false

/-- Start condition of the `re_lone_upper_1` scan at a given prefix. -/
def okD (ok : Bool) (pre : List Seg) : Prop :=
  (pre = [] ∧ ok = true) ∨ pre.getLast? = some Seg.dcolon

/-- Start condition of the `re_lone_lower_1` scan at a given prefix:
matches may begin at the start (when allowed), right after a single
colon preceded by a non-connector, or after a lone leading colon when
the virtual previous character is a non-connector. -/
def okL (ok pNC : Bool) (pre : List Seg) : Prop :=
  (pre = [] ∧ ok = true) ∨
  (∃ s, pre = [s] ∧ isCol s = true ∧ pNC = true) ∨
  (∃ q s, pre = q ++ [s, Seg.colon] ∧ isConn s = false)

/-- No upper strand directly followed by a double colon. -/
def noUD (m : List Seg) : Prop :=
  ∀ p u q, m ≠ p ++ Seg.upper u :: Seg.dcolon :: q

/-- No lower strand directly followed by a single colon. -/
def noLC (m : List Seg) : Prop :=
  ∀ p b q, m ≠ p ++ Seg.lower b :: Seg.colon :: q

/-- No double strand at all. -/
def noDb (m : List Seg) : Prop := ∀ b, Seg.double b ∉ m

theorem splitB_ne_nil (b : Body) : splitB b ≠ [] := by
  cases b with
  | nil => simp [splitB]
  | cons c t =>
    simp only [splitB]
    split
    · simp
    · cases h : splitB t <;> simp

theorem joinB_cons_ne (b : Body) (L : List Body) (h : L ≠ []) :
    joinB (b :: L) = b ++ ' ' :: joinB L := by
  cases L with
  | nil => exact absurd rfl h
  | cons x r => rfl

theorem joinB_splitB (b : Body) : joinB (splitB b) = b := by
  induction b with
  | nil => rfl
  | cons c t ih =>
    by_cases hc : c = ' '
    · subst hc
      rw [show splitB (' ' :: t) = [] :: splitB t by simp [splitB]]
      rw [joinB_cons_ne [] (splitB t) (splitB_ne_nil t), ih]
      rfl
    · simp only [splitB, if_neg hc]
      cases h : splitB t with
      | nil => exact absurd h (splitB_ne_nil t)
      | cons x r =>
        cases r with
        | nil =>
          simp only [joinB]
          rw [h] at ih
          simp only [joinB] at ih
          simp [ih]
        | cons y s =>
          rw [joinB_cons_ne (c :: x) (y :: s) (by simp)]
          rw [h, joinB_cons_ne x (y :: s) (by simp)] at ih
          simp [ih]

theorem splitB_no_space (b : Body) : ∀ f ∈ splitB b, ' ' ∉ f := by
  induction b with
  | nil => intro f hf; simp [splitB] at hf; simp [hf]
  | cons c t ih =>
    intro f hf
    by_cases hc : c = ' '
    · rw [show splitB (c :: t) = [] :: splitB t by simp [splitB, hc]] at hf
      rcases List.mem_cons.mp hf with h | h
      · simp [h]
      · exact ih f h
    · cases h : splitB t with
      | nil => exact absurd h (splitB_ne_nil t)
      | cons x r =>
        rw [show splitB (c :: t) = (c :: x) :: r by simp [splitB, hc, h]] at hf
        rcases List.mem_cons.mp hf with h1 | h1
        · subst h1
          intro hm
          rcases List.mem_cons.mp hm with h2 | h2
          · exact hc h2.symm
          · exact ih x (h ▸ List.mem_cons_self x r) h2
        · exact ih f (h ▸ List.mem_cons_of_mem x h1)

theorem splitB_nosp (b : Body) (hb : ' ' ∉ b) : splitB b = [b] := by
  induction b with
  | nil => rfl
  | cons c t ih =>
    have hc : c ≠ ' ' := fun h => hb (h ▸ List.mem_cons_self c t)
    have ht : ' ' ∉ t := fun h => hb (List.mem_cons_of_mem c h)
    simp only [splitB, if_neg hc, ih ht]

theorem splitB_append_space (b : Body) (hb : ' ' ∉ b) (r : Body) :
    splitB (b ++ ' ' :: r) = b :: splitB r := by
  induction b with
  | nil => simp [splitB]
  | cons c t ih =>
    have hc : c ≠ ' ' := fun h => hb (h ▸ List.mem_cons_self c t)
    have ht : ' ' ∉ t := fun h => hb (List.mem_cons_of_mem c h)
    have := ih ht
    simp only [List.cons_append, splitB, if_neg hc, List.append_eq] at this ⊢
    rw [this]

theorem splitB_joinB (ps : List Body) (hne : ps ≠ [])
    (hsp : ∀ f ∈ ps, ' ' ∉ f) : splitB (joinB ps) = ps := by
  induction ps with
  | nil => exact absurd rfl hne
  | cons b r ih =>
    cases r with
    | nil => exact splitB_nosp b (hsp b (by simp))
    | cons b2 r2 =>
      rw [joinB_cons_ne b (b2 :: r2) (by simp)]
      rw [splitB_append_space b (hsp b (by simp))]
      rw [ih (by simp) (fun f hf => hsp f (List.mem_cons_of_mem b hf))]

theorem rotBody_rotBody (b : Body) : rotBody (rotBody b) = b := by
  unfold rotBody
  rw [splitB_joinB (splitB b).reverse
      (by simp [splitB_ne_nil b])
      (fun f hf => splitB_no_space b f (List.mem_reverse.mp hf))]
  rw [List.reverse_reverse, joinB_splitB]

/-- C9: rotating a bare strand twice gives the strand back; one
rotation flips the orientation and reverses the domain order of the
body without touching the domains themselves. -/
theorem c9_rotate_involution (b : Body) :
    (rotateSeg (Seg.upper b)).bind rotateSeg = some (Seg.upper b) ∧
    (rotateSeg (Seg.lower b)).bind rotateSeg = some (Seg.lower b) ∧
    rotateSeg (Seg.upper b) = some (Seg.lower (rotBody b)) ∧
    rotateSeg (Seg.lower b) = some (Seg.upper (rotBody b)) ∧
    splitB (rotBody b) = (splitB b).reverse := by
  refine ⟨?_, ?_, rfl, rfl, ?_⟩
  · simp [rotateSeg, Option.bind, rotBody_rotBody]
  · simp [rotateSeg, Option.bind, rotBody_rotBody]
  · unfold rotBody
    exact splitB_joinB _ (by simp [splitB_ne_nil])
      (fun f hf => splitB_no_space b f (List.mem_reverse.mp hf))

theorem dispUpReaction_len (k : List Seg) (m : List Seg × DispFwd × List Seg) :
    (dispUpReaction k m).products.length = 2 := by
  unfold dispUpReaction; dsimp only; split <;> rfl

theorem dispLowReaction_len (k : List Seg) (m : List Seg × DispFwd × List Seg) :
    (dispLowReaction k m).products.length = 2 := by
  unfold dispLowReaction; dsimp only; split <;> rfl

theorem dispUpRevReaction_len (k : List Seg) (m : List Seg × DispRev × List Seg) :
    (dispUpRevReaction k m).products.length = 2 := by
  unfold dispUpRevReaction; dsimp only; split <;> rfl

theorem dispLowRevReaction_len (k : List Seg) (m : List Seg × DispRev × List Seg) :
    (dispLowRevReaction k m).products.length = 2 := by
  unfold dispLowRevReaction; dsimp only; split <;> rfl

/-- C5: every Displacement reaction has exactly two product complexes,
and on the Lakin RD example the rule yields exactly one reaction whose
two products are the freed strand and the remaining gate. -/
theorem c5_displacement :
    (∀ (k : List Seg) (r : Reaction),
        r ∈ displacementNovelReactions k → r.products.length = 2) ∧
    displacementNovelReactions c5Input =
      [⟨[c5Input], [[uSeg "L2 S R2"],
        [lSeg "L'", uSeg "L", dSeg "S1 S", uSeg "R", lSeg "R'"]], alpha⟩] := by
  constructor
  · intro k r hr
    unfold displacementNovelReactions at hr
    simp only [List.mem_append, List.mem_map] at hr
    rcases hr with ((⟨m, _, h⟩ | ⟨m, _, h⟩) | ⟨m, _, h⟩) | ⟨m, _, h⟩
    · exact h ▸ dispUpReaction_len _ m
    · exact h ▸ dispLowReaction_len _ m
    · exact h ▸ dispUpRevReaction_len _ m
    · exact h ▸ dispLowRevReaction_len _ m
  · decide

/-- C5 witness: the universal two-product clause evaluated at the
Lakin RD example's single reaction. -/
theorem c5_displacement_witness :
    (⟨[c5Input], [[uSeg "L2 S R2"],
        [lSeg "L'", uSeg "L", dSeg "S1 S", uSeg "R", lSeg "R'"]], alpha⟩ :
      Reaction).products.length = 2 :=
  c5_displacement.1 c5Input _ (by rw [c5_displacement.2]; exact List.mem_singleton.mpr rfl)

/-- C10 counterexample: on `[A]<S1>:[S1]` the boundary's duplex
consists of exactly the one domain matching the flanking overhang, so
the claim promises a Displacement candidate and no Migration
candidate; yet both patterns match the site (`re_upper_migrate`
backtracks `(\w+)` to the shorter run `S`) and both rules emit a
candidate.  Moreover the chain `[A]<w>:[w B]<w2>:[w2 C]` has
migration-pattern sites at positions 0 and 3, yet the Migration rule
emits a single candidate, because the finditer scan is non-overlapping
and the first match swallows the second site's duplex. -/
theorem c10_counterexample :
    ((upMigAt c10Both).isSome = true ∧
      (dispUpAt c10Both).isSome = true ∧
      (migrationNovelReactions c10Both).length = 1 ∧
      (displacementNovelReactions c10Both).length = 1) ∧
    (upMigAt c10Input).isSome = true ∧
    (upMigAt (c10Input.drop 3)).isSome = true ∧
    (migrationNovelReactions c10Input).length = 1 := by decide

/-- A body made of word characters only has no space-preceded tail
word, so the reverse-migration duplex test fails on it. -/
theorem tailWord_all_none (b : Body) (h : b.all wordChar = true) :
    tailWord b = none := by
  have hta : b.reverse.takeWhile wordChar = b.reverse := by
    rw [List.takeWhile_eq_self_iff]
    intro a ha
    exact List.all_eq_true.mp h a (List.mem_reverse.mp ha)
  unfold tailWord
  simp only [hta, List.reverse_reverse]
  cases b with
  | nil => simp
  | cons x xs =>
    rw [if_neg (List.cons_ne_nil x xs), Nat.sub_self, List.take_zero]
    simp

/-- On a prefix whose next segment is a double strand, the optional
upper group is read off exactly. -/
theorem optUpper_upSegs_double (v : Option Body) (d : Body) (t : List Seg) :
    optUpper (optUpSegs v ++ Seg.double d :: t) = (v, Seg.double d :: t) := by
  cases v <;> rfl

/-- On a prefix whose next segment is a double strand, the optional
lower group is read off exactly. -/
theorem optLower_lowSegs_double (v : Option Body) (d : Body) (t : List Seg) :
    optLower (optLowSegs v ++ Seg.double d :: t) = (v, Seg.double d :: t) := by
  cases v <;> rfl

/-- When `b` is the `a.length`-prefix relation's image, the common
prefix of `a` and `b` is all of `b`. -/
theorem lcp_of_take (a b : Body) (h : a.take b.length = b) :
    lcp a b = b.length := by
  induction b generalizing a with
  | nil => cases a <;> rfl
  | cons c bs ih =>
    cases a with
    | nil => exact absurd h (by simp)
    | cons a0 as =>
      rw [List.length_cons, List.take_succ_cons] at h
      obtain ⟨rfl, h2⟩ := List.cons.inj h
      have he : lcp (a0 :: as) (a0 :: bs) =
          if a0 = a0 then lcp as bs + 1 else 0 := rfl
      rw [he, if_pos rfl, ih as h2, List.length_cons]

/-- The common prefix length is symmetric. -/
theorem lcp_comm (a b : Body) : lcp a b = lcp b a := by
  induction a generalizing b with
  | nil => cases b <;> rfl
  | cons x xs ih =>
    cases b with
    | nil => rfl
    | cons y ys =>
      show (if x = y then lcp xs ys + 1 else 0) =
        (if y = x then lcp ys xs + 1 else 0)
      by_cases hxy : x = y
      · rw [if_pos hxy, if_pos hxy.symm, ih ys]
      · rw [if_neg hxy, if_neg (fun h => hxy h.symm)]

/-- The upper migration pattern matches an explicit site exactly when
the backtracked run length is nonzero. -/
theorem upMigAt_site (d1 ub d2 : Body) (v : Option Body) (t : List Seg) :
    (upMigAt (Seg.double d1 :: Seg.upper ub :: Seg.colon ::
        (optUpSegs v ++ Seg.double d2 :: t))).isSome = true ↔
      min (lcp (ub.takeWhile wordChar) d2) (d2.length - 1) ≠ 0 := by
  unfold upMigAt
  dsimp only
  rw [optUpper_upSegs_double]
  dsimp only
  by_cases hj : min (lcp (ub.takeWhile wordChar) d2) (d2.length - 1) = 0
  · rw [if_pos hj]
    simp [hj]
  · rw [if_neg hj]
    simp [hj]

/-- The lower migration pattern matches an explicit site exactly when
the backtracked run length is nonzero. -/
theorem lowMigAt_site (d1 ub d2 : Body) (v : Option Body) (t : List Seg) :
    (lowMigAt (Seg.double d1 :: Seg.lower ub :: Seg.dcolon ::
        (optLowSegs v ++ Seg.double d2 :: t))).isSome = true ↔
      min (lcp (ub.takeWhile wordChar) d2) (d2.length - 1) ≠ 0 := by
  unfold lowMigAt
  dsimp only
  rw [optLower_lowSegs_double]
  dsimp only
  by_cases hj : min (lcp (ub.takeWhile wordChar) d2) (d2.length - 1) = 0
  · rw [if_pos hj]
    simp [hj]
  · rw [if_neg hj]
    simp [hj]

/-- The upper displacement pattern matches an explicit site exactly
when the duplex body is a nonempty prefix of the overhang's word
run. -/
theorem dispUpAt_site (d1 ub d2 : Body) (v : Option Body) (t : List Seg) :
    (dispUpAt (Seg.double d1 :: Seg.upper ub :: Seg.colon ::
        (optUpSegs v ++ Seg.double d2 :: t))).isSome = true ↔
      d2 ≠ [] ∧ (ub.takeWhile wordChar).take d2.length = d2 := by
  unfold dispUpAt
  dsimp only
  rw [optUpper_upSegs_double]
  dsimp only
  by_cases hc : d2 ≠ [] ∧ (ub.takeWhile wordChar).take d2.length = d2
  · rw [if_pos hc]
    exact iff_of_true rfl hc
  · rw [if_neg hc]
    exact iff_of_false (by simp) hc

/-- The lower displacement pattern matches an explicit site exactly
when the duplex body is a nonempty prefix of the overhang's word
run. -/
theorem dispLowAt_site (d1 ub d2 : Body) (v : Option Body) (t : List Seg) :
    (dispLowAt (Seg.double d1 :: Seg.lower ub :: Seg.dcolon ::
        (optLowSegs v ++ Seg.double d2 :: t))).isSome = true ↔
      d2 ≠ [] ∧ (ub.takeWhile wordChar).take d2.length = d2 := by
  unfold dispLowAt
  dsimp only
  rw [optLower_lowSegs_double]
  dsimp only
  by_cases hc : d2 ≠ [] ∧ (ub.takeWhile wordChar).take d2.length = d2
  · rw [if_pos hc]
    exact iff_of_true rfl hc
  · rw [if_neg hc]
    exact iff_of_false (by simp) hc

/-- Same-position exclusivity, upper reverse family: reverse migration
needs a space inside the leading duplex body, reverse displacement
needs that body to be a single word run. -/
theorem upMigRevAt_excl (l : List Seg) :
    (upMigRevAt l).isSome = true → dispUpRevAt l = none := by
  intro h
  unfold upMigRevAt at h
  split at h
  case _ d1 rest =>
    rcases htw : tailWord d1 with _ | w
    · rw [htw] at h; simp at h
    have hna : ¬(d1 ≠ [] ∧ d1.all wordChar = true) := by
      rintro ⟨-, hall⟩
      rw [tailWord_all_none d1 hall] at htw
      exact Option.noConfusion htw
    unfold dispUpRevAt
    dsimp only [optLower, optUpper]
    rw [if_neg hna]
  case _ => simp at h

/-- Same-position exclusivity, lower reverse family. -/
theorem lowMigRevAt_excl (l : List Seg) :
    (lowMigRevAt l).isSome = true → dispLowRevAt l = none := by
  intro h
  unfold lowMigRevAt at h
  split at h
  case _ d1 rest =>
    rcases htw : tailWord d1 with _ | w
    · rw [htw] at h; simp at h
    have hna : ¬(d1 ≠ [] ∧ d1.all wordChar = true) := by
      rintro ⟨-, hall⟩
      rw [tailWord_all_none d1 hall] at htw
      exact Option.noConfusion htw
    unfold dispLowRevAt
    dsimp only [optLower, optUpper]
    rw [if_neg hna]
  case _ => simp at h

/-- C10 amended: at a single forward-family site `double, overhang,
connector, optional strand, double` the two patterns are not mutually
exclusive — both match exactly when the duplex body is a prefix of the
overhang's leading word run of length at least two (the backtracking
`(\w+)` then yields both a displacement match on the full body and a
migration match on a shorter run), so exclusion holds only for
single-character duplexes; a duplex that strictly extends the word run
still yields a migration match and no displacement match; the reverse
families are mutually exclusive at every position; and on `[A]<S1>:[S1]`
both rules emit exactly one candidate each. -/
theorem c10_mutual_exclusion :
    (∀ (d1 ub d2 : Body) (v : Option Body) (t : List Seg),
      ((upMigAt (Seg.double d1 :: Seg.upper ub :: Seg.colon ::
            (optUpSegs v ++ Seg.double d2 :: t))).isSome = true ∧
        (dispUpAt (Seg.double d1 :: Seg.upper ub :: Seg.colon ::
            (optUpSegs v ++ Seg.double d2 :: t))).isSome = true) ↔
        ((ub.takeWhile wordChar).take d2.length = d2 ∧ 2 ≤ d2.length)) ∧
    (∀ (d1 ub d2 : Body) (v : Option Body) (t : List Seg),
      ((lowMigAt (Seg.double d1 :: Seg.lower ub :: Seg.dcolon ::
            (optLowSegs v ++ Seg.double d2 :: t))).isSome = true ∧
        (dispLowAt (Seg.double d1 :: Seg.lower ub :: Seg.dcolon ::
            (optLowSegs v ++ Seg.double d2 :: t))).isSome = true) ↔
        ((ub.takeWhile wordChar).take d2.length = d2 ∧ 2 ≤ d2.length)) ∧
    (∀ (d1 ub d2 : Body) (v : Option Body) (t : List Seg),
      d2.take (ub.takeWhile wordChar).length = ub.takeWhile wordChar →
      (ub.takeWhile wordChar).length < d2.length →
      ub.takeWhile wordChar ≠ [] →
      (upMigAt (Seg.double d1 :: Seg.upper ub :: Seg.colon ::
          (optUpSegs v ++ Seg.double d2 :: t))).isSome = true ∧
        dispUpAt (Seg.double d1 :: Seg.upper ub :: Seg.colon ::
          (optUpSegs v ++ Seg.double d2 :: t)) = none) ∧
    (∀ l, ¬((upMigRevAt l).isSome = true ∧ (dispUpRevAt l).isSome = true)) ∧
    (∀ l, ¬((lowMigRevAt l).isSome = true ∧ (dispLowRevAt l).isSome = true)) ∧
    (migrationNovelReactions c10Both).length = 1 ∧
    (displacementNovelReactions c10Both).length = 1 := by
  refine ⟨?_, ?_, ?_, ?_, ?_, by decide, by decide⟩
  · intro d1 ub d2 v t
    rw [upMigAt_site, dispUpAt_site]
    constructor
    · rintro ⟨hj, -, hpre⟩
      exact ⟨hpre, by omega⟩
    · rintro ⟨hpre, h2⟩
      refine ⟨?_, List.length_pos.mp (by omega), hpre⟩
      rw [lcp_of_take _ _ hpre]
      omega
  · intro d1 ub d2 v t
    rw [lowMigAt_site, dispLowAt_site]
    constructor
    · rintro ⟨hj, -, hpre⟩
      exact ⟨hpre, by omega⟩
    · rintro ⟨hpre, h2⟩
      refine ⟨?_, List.length_pos.mp (by omega), hpre⟩
      rw [lcp_of_take _ _ hpre]
      omega
  · intro d1 ub d2 v t hpre hlt hw
    constructor
    · rw [upMigAt_site]
      have h1 : lcp (ub.takeWhile wordChar) d2 =
          (ub.takeWhile wordChar).length := by
        rw [lcp_comm]
        exact lcp_of_take d2 _ hpre
      have h2 : 0 < (ub.takeWhile wordChar).length := List.length_pos.mpr hw
      rw [h1]
      omega
    · rw [← Option.not_isSome_iff_eq_none, Bool.not_eq_true,
        ← Bool.not_eq_true, dispUpAt_site]
      rintro ⟨-, hpre2⟩
      rw [List.take_of_length_le (le_of_lt hlt)] at hpre2
      exact absurd (congrArg List.length hpre2) (by omega)
  · rintro l ⟨h1, h2⟩
    rw [upMigRevAt_excl l h1] at h2
    simp at h2
  · rintro l ⟨h1, h2⟩
    rw [lowMigRevAt_excl l h1] at h2
    simp at h2

/-- C2 counterexample: the second gate of `[A]:{L'}<L>[S]<R>{R'}` is
joined to its neighbour by a single colon, yet the Leakage rule's
first emitted reaction removes that gate's lower constituent strand
`{L' S R'}` across this join, because the source's lower-strand join
guard reads the single characters at `start-2` and `end+1`, which
equal a colon exactly when the join is a double colon, so the guard
blocks the legal direction and passes the illegal one. -/
theorem c2_lower_leak_across_colon :
    c2K.head? = some (dSeg "A") ∧ c2K.tail.head? = some Seg.colon ∧
    leakageNovelReactions c2K c2L =
      [⟨[c2K, c2L], [[dSeg "A", Seg.colon, lSeg "L1", uSeg "L", dSeg "S",
          uSeg "R", lSeg "R1"], [lSeg "L' S R'"]], alpha⟩,
       ⟨[c2K, c2L], [[dSeg "A", Seg.colon, lSeg "L'", uSeg "R1", dSeg "S",
          uSeg "L1", lSeg "R'"], [uSeg "L S R"]], alpha⟩] := by decide

/-- C6 counterexample: both reactants hold a gate and expose the
complementary toeholds `N^` and `N^*`, yet Binding emits no reaction
in either order, because `novel_reactions` only covers the cases where
at most one reactant matches `re_gate`. -/
theorem c6_counterexample :
    hasGate c6K = true ∧ hasGate c6L = true ∧
    upperLabIdx ['N', '^'] = [0] ∧ lowerLabIdx ['N', '^', '*'] = [0] ∧
    bindingNovelReactions c6K c6L = [] ∧
    bindingNovelReactions c6L c6K = [] := by decide

/-- C6 amended: when both reactants contain a gate the Binding rule
emits nothing at all; the strand-to-strand and strand-to-gate
geometries do fire, as on the Lakin toehold pair and on a splice into
a gate's right upper overhang. -/
theorem c6_binding (k l : List Seg) (hk : hasGate k = true)
    (hl : hasGate l = true) :
    bindingNovelReactions k l = [] ∧
    bindingNovelReactions [uSeg "L N^ R"] [lSeg "L' N^* R'"] =
      [⟨[[uSeg "L N^ R"], [lSeg "L' N^* R'"]],
        [[lSeg "L'", uSeg "L", dSeg "N^", uSeg "R", lSeg "R'"]], alpha⟩] ∧
    bindingNovelReactions
        [lSeg "L'", uSeg "L", dSeg "S", uSeg "R C^ D", lSeg "R'"]
        [lSeg "E C^* F"] =
      [⟨[[lSeg "L'", uSeg "L", dSeg "S", uSeg "R C^ D", lSeg "R'"],
          [lSeg "E C^* F"]],
        [[lSeg "L'", uSeg "L", dSeg "S", lSeg "R'", Seg.dcolon, lSeg "E",
          uSeg "R", dSeg "C^", uSeg "D", lSeg "F"]], alpha⟩] := by
  refine ⟨?_, by decide, by decide⟩
  unfold bindingNovelReactions
  rw [if_neg, if_neg]
  · simp [hk, hl]
  · simp [hk, hl]

/-- C6 amendment witness: two one-gate complexes produce no binding
reaction. -/
theorem c6_binding_witness :
    hasGate [dSeg "X"] = true ∧ hasGate [dSeg "Y"] = true ∧
    bindingNovelReactions [dSeg "X"] [dSeg "Y"] = [] :=
  ⟨by decide, by decide,
    (c6_binding [dSeg "X"] [dSeg "Y"] (by decide) (by decide)).1⟩

/-- C4 counterexample: the duplex of `{L'}<L>[AB^]<R>{R'}` is exactly
one toehold domain, yet `toehold_unbinding` emits nothing, because
`re_short_double_th` only accepts a single word character before the
caret. -/
theorem c4_counterexample :
    specSingleToehold ('A' :: ['B', '^']) = true ∧
    shortDoubleTh ('A' :: ['B', '^']) = false ∧
    unbindingNovelReactions c4Gate = [] := by decide

/-- A short single-toehold duplex always carries a label character. -/
theorem shortLabel_of_th (b : Body) (h : shortDoubleTh b = true) :
    ∃ c, shortLabel b = some c := by
  unfold shortDoubleTh at h
  split at h
  next c rest heq => exact ⟨c, by unfold shortLabel; rw [heq]; rfl⟩
  next => exact Bool.noConfusion h

/-- C4 amended: the Unbinding rule fires exactly when some gate's
duplex is a one-domain toehold with a single-character label; every
emitted reaction has exactly two products; and on the Lakin gate the
products are the upper and lower constituent strands. -/
theorem c4_unbinding (kl : List Seg) :
    (unbindingNovelReactions kl ≠ [] ↔
      ∃ pgp ∈ gatesOf kl, shortDoubleTh pgp.2.1.d = true) ∧
    (∀ r ∈ unbindingNovelReactions kl, r.products.length = 2) ∧
    unbindingNovelReactions c4Lakin =
      [⟨[c4Lakin], [[uSeg "L N^ R"], [lSeg "L' N^* R'"]], alpha⟩] := by
  refine ⟨?_, ?_, by decide⟩
  · unfold unbindingNovelReactions unbindReactions
    rw [ne_eq, List.filterMap_eq_nil_iff]
    push_neg
    constructor
    · rintro ⟨pgp, hmem, hne⟩
      refine ⟨pgp, hmem, ?_⟩
      by_contra hth
      apply hne
      dsimp only
      rw [if_neg hth]
    · rintro ⟨pgp, hmem, hth⟩
      refine ⟨pgp, hmem, ?_⟩
      obtain ⟨c, hc⟩ := shortLabel_of_th _ hth
      dsimp only
      rw [if_pos hth, hc]
      exact Option.noConfusion
  · intro r hr
    unfold unbindingNovelReactions unbindReactions at hr
    obtain ⟨pgp, -, hf⟩ := List.mem_filterMap.mp hr
    dsimp only at hf
    by_cases hth : shortDoubleTh pgp.2.1.d = true
    · rw [if_pos hth] at hf
      obtain ⟨c, hc⟩ := shortLabel_of_th _ hth
      rw [hc] at hf
      obtain rfl := Option.some.inj hf
      rfl
    · rw [if_neg hth] at hf
      exact Option.noConfusion hf

/-- C4 amendment witness: the Lakin reaction is emitted and has two
products. -/
theorem c4_unbinding_witness :
    (⟨[c4Lakin], [[uSeg "L N^ R"], [lSeg "L' N^* R'"]], alpha⟩ : Reaction) ∈
        unbindingNovelReactions c4Lakin ∧
      (⟨[c4Lakin], [[uSeg "L N^ R"], [lSeg "L' N^* R'"]], alpha⟩ :
        Reaction).products.length = 2 :=
  ⟨by rw [(c4_unbinding c4Lakin).2.2]; exact List.mem_singleton.mpr rfl,
    (c4_unbinding c4Lakin).2.1 _
      (by rw [(c4_unbinding c4Lakin).2.2]; exact List.mem_singleton.mpr rfl)⟩

theorem migReactions_rate (k : List Seg)
    (pat : List Seg → Option (List Seg × List Seg × List Seg)) (r : Reaction)
    (hr : r ∈ migReactions k pat) : r.rate = alpha := by
  obtain ⟨m, -, rfl⟩ := List.mem_map.mp hr
  rfl

theorem migration_rate (kl : List Seg) (r : Reaction)
    (hr : r ∈ migrationNovelReactions kl) : r.rate = alpha := by
  unfold migrationNovelReactions at hr
  simp only [List.mem_append] at hr
  rcases hr with ((hr | hr) | hr) | hr <;> exact migReactions_rate _ _ _ hr

theorem dispUpReaction_rate (k : List Seg) (m : List Seg × DispFwd × List Seg) :
    (dispUpReaction k m).rate = alpha := by
  unfold dispUpReaction; dsimp only; split <;> rfl

theorem dispLowReaction_rate (k : List Seg) (m : List Seg × DispFwd × List Seg) :
    (dispLowReaction k m).rate = alpha := by
  unfold dispLowReaction; dsimp only; split <;> rfl

theorem dispUpRevReaction_rate (k : List Seg) (m : List Seg × DispRev × List Seg) :
    (dispUpRevReaction k m).rate = alpha := by
  unfold dispUpRevReaction; dsimp only; split <;> rfl

theorem dispLowRevReaction_rate (k : List Seg) (m : List Seg × DispRev × List Seg) :
    (dispLowRevReaction k m).rate = alpha := by
  unfold dispLowRevReaction; dsimp only; split <;> rfl

theorem displacement_rate (kl : List Seg) (r : Reaction)
    (hr : r ∈ displacementNovelReactions kl) : r.rate = alpha := by
  unfold displacementNovelReactions at hr
  simp only [List.mem_append, List.mem_map] at hr
  rcases hr with ((⟨m, -, rfl⟩ | ⟨m, -, rfl⟩) | ⟨m, -, rfl⟩) | ⟨m, -, rfl⟩
  · exact dispUpReaction_rate _ m
  · exact dispLowReaction_rate _ m
  · exact dispUpRevReaction_rate _ m
  · exact dispLowRevReaction_rate _ m

theorem unbinding_rate (kl : List Seg) (r : Reaction)
    (hr : r ∈ unbindingNovelReactions kl) : r.rate = alpha := by
  unfold unbindingNovelReactions unbindReactions at hr
  obtain ⟨pgp, -, hf⟩ := List.mem_filterMap.mp hr
  dsimp only at hf
  by_cases hth : shortDoubleTh pgp.2.1.d = true
  · rw [if_pos hth] at hf
    obtain ⟨c, hc⟩ := shortLabel_of_th _ hth
    rw [hc] at hf
    obtain rfl := Option.some.inj hf
    rfl
  · rw [if_neg hth] at hf
    exact Option.noConfusion hf

theorem s2sBindUp_rate (k l : List Seg) (r : Reaction)
    (hr : r ∈ s2sBindUp k l) : r.rate = alpha := by
  unfold s2sBindUp at hr
  split at hr
  · simp only [List.mem_flatMap, List.mem_filterMap] at hr
    obtain ⟨j1, -, j2, -, hf⟩ := hr
    split at hf
    · split at hf
      · obtain rfl := Option.some.inj hf; rfl
      · exact Option.noConfusion hf
    all_goals exact Option.noConfusion hf
  · exact absurd hr (List.not_mem_nil r)

theorem s2sBindLow_rate (k l : List Seg) (r : Reaction)
    (hr : r ∈ s2sBindLow k l) : r.rate = alpha := by
  unfold s2sBindLow at hr
  split at hr
  · simp only [List.mem_flatMap, List.mem_filterMap] at hr
    obtain ⟨j1, -, j2, -, hf⟩ := hr
    split at hf
    · split at hf
      · obtain rfl := Option.some.inj hf; rfl
      · exact Option.noConfusion hf
    all_goals exact Option.noConfusion hf
  · exact absurd hr (List.not_mem_nil r)

theorem s2gBindUp_rate (k l : List Seg) (r : Reaction)
    (hr : r ∈ s2gBindUp k l) : r.rate = alpha := by
  unfold s2gBindUp at hr
  split at hr
  · obtain ⟨pgp, -, hr⟩ := List.mem_flatMap.mp hr
    dsimp only at hr
    rw [List.mem_append] at hr
    rcases hr with hr | hr <;>
    · simp only [List.mem_flatMap, List.mem_filterMap] at hr
      obtain ⟨j, -, j2, -, hf⟩ := hr
      split at hf
      · split at hf
        · obtain rfl := Option.some.inj hf; rfl
        · exact Option.noConfusion hf
      all_goals exact Option.noConfusion hf
  · exact absurd hr (List.not_mem_nil r)

theorem s2gBindLow_rate (k l : List Seg) (r : Reaction)
    (hr : r ∈ s2gBindLow k l) : r.rate = alpha := by
  unfold s2gBindLow at hr
  split at hr
  · obtain ⟨pgp, -, hr⟩ := List.mem_flatMap.mp hr
    dsimp only at hr
    rw [List.mem_append] at hr
    rcases hr with hr | hr
    · simp only [List.mem_flatMap] at hr
      obtain ⟨j, -, j2, -, hf⟩ := hr
      split at hf
      · split at hf
        · simp only [List.mem_cons, List.not_mem_nil, or_false] at hf
          rcases hf with rfl | rfl <;> rfl
        · exact absurd hf (List.not_mem_nil r)
      all_goals exact absurd hf (List.not_mem_nil r)
    · simp only [List.mem_flatMap, List.mem_filterMap] at hr
      obtain ⟨j, -, j2, -, hf⟩ := hr
      split at hf
      · split at hf
        · obtain rfl := Option.some.inj hf; rfl
        · exact Option.noConfusion hf
      all_goals exact Option.noConfusion hf
  · exact absurd hr (List.not_mem_nil r)

theorem binding_rate (k l : List Seg) (r : Reaction)
    (hr : r ∈ bindingNovelReactions k l) : r.rate = alpha := by
  unfold bindingNovelReactions at hr
  split at hr
  · simp only [List.mem_append] at hr
    rcases hr with ((hr | hr) | hr) | hr
    · exact s2gBindUp_rate _ _ _ hr
    · exact s2gBindUp_rate _ _ _ hr
    · exact s2gBindLow_rate _ _ _ hr
    · exact s2gBindLow_rate _ _ _ hr
  · split at hr
    · rcases List.mem_append.mp hr with hr | hr
      · exact s2sBindUp_rate _ _ _ hr
      · exact s2sBindLow_rate _ _ _ hr
    · exact absurd hr (List.not_mem_nil r)

theorem leakGate_rate (pre : List Seg) (g : Gate) (post k l : List Seg)
    (lUp : Bool) (lb : Body) (r : Reaction)
    (hr : r ∈ leakGate pre g post k l lUp lb) : r.rate = alpha := by
  unfold leakGate at hr
  split at hr
  · exact absurd hr (List.not_mem_nil r)
  · dsimp only at hr
    split at hr <;>
    · rw [List.mem_append] at hr
      rcases hr with hr | hr <;>
      · split at hr
        · obtain ⟨j, -, rfl⟩ := List.mem_map.mp hr; rfl
        · exact absurd hr (List.not_mem_nil r)

theorem strandLeak_rate (k l : List Seg) (r : Reaction)
    (hr : r ∈ strandLeak k l) : r.rate = alpha := by
  unfold strandLeak at hr
  split at hr
  · obtain ⟨pgp, -, hr⟩ := List.mem_flatMap.mp hr
    exact leakGate_rate _ _ _ _ _ _ _ _ hr
  · obtain ⟨pgp, -, hr⟩ := List.mem_flatMap.mp hr
    exact leakGate_rate _ _ _ _ _ _ _ _ hr
  · exact absurd hr (List.not_mem_nil r)

theorem leakage_rate (k l : List Seg) (r : Reaction)
    (hr : r ∈ leakageNovelReactions k l) : r.rate = alpha := by
  unfold leakageNovelReactions at hr
  split at hr
  · rcases List.mem_append.mp hr with hr | hr <;> exact strandLeak_rate _ _ _ hr
  · exact absurd hr (List.not_mem_nil r)

/-- C7 counterexample: a Leakage reaction and a Binding reaction carry
the same constant rate, so the Leakage rate is not strictly smaller;
the source defines no binding_rate or migration_rate function, every
rule family passes the module constant `alpha`. -/
theorem c7_counterexample :
    (leakageNovelReactions c7K c7L).map Reaction.rate = [alpha, alpha] ∧
    (bindingNovelReactions [uSeg "a^"] [lSeg "a^*"]).map Reaction.rate =
      [alpha] ∧
    ¬(alpha < alpha) :=
  ⟨by decide, by decide, lt_irrefl alpha⟩

/-- C7 amended: every reaction emitted by any of the rule families
carries the one module constant `alpha = 1/10^10`. -/
theorem c7_rates (k l kl : List Seg) :
    (∀ r ∈ bindingNovelReactions k l, r.rate = alpha) ∧
    (∀ r ∈ unbindingNovelReactions kl, r.rate = alpha) ∧
    (∀ r ∈ migrationNovelReactions kl, r.rate = alpha) ∧
    (∀ r ∈ displacementNovelReactions kl, r.rate = alpha) ∧
    (∀ r ∈ leakageNovelReactions k l, r.rate = alpha) ∧
    alpha = 1 / 10 ^ 10 :=
  ⟨fun r hr => binding_rate k l r hr, fun r hr => unbinding_rate kl r hr,
   fun r hr => migration_rate kl r hr, fun r hr => displacement_rate kl r hr,
   fun r hr => leakage_rate k l r hr,
   by unfold alpha; rw [Rat.mkRat_eq_div]; norm_num⟩

/-- C7 amendment witness: the binding reaction of the complementary
pair `<b^>`, `{b^*}` carries rate `alpha`. -/
theorem c7_rates_witness :
    (⟨[[uSeg "b^"], [lSeg "b^*"]], [[dSeg "b^"]], alpha⟩ : Reaction) ∈
        bindingNovelReactions [uSeg "b^"] [lSeg "b^*"] ∧
      (⟨[[uSeg "b^"], [lSeg "b^*"]], [[dSeg "b^"]], alpha⟩ :
        Reaction).rate = alpha :=
  ⟨by decide, (c7_rates [uSeg "b^"] [lSeg "b^*"] []).1 _ (by decide)⟩

/-- C10 amendment witness: on the site `[A]<S1>:[S1]` the duplex is a
two-character prefix of the overhang's word run, so by the iff both
the Migration and Displacement patterns match; and on `[A]<S>:[S B]`
the duplex strictly extends the run, so Migration matches and
Displacement does not. -/
theorem c10_mutual_exclusion_witness :
    ((['S', '1'].takeWhile wordChar).take ['S', '1'].length = ['S', '1'] ∧
      2 ≤ ['S', '1'].length) ∧
    ((upMigAt (Seg.double ['A'] :: Seg.upper ['S', '1'] :: Seg.colon ::
        (optUpSegs none ++ Seg.double ['S', '1'] :: []))).isSome = true ∧
      (dispUpAt (Seg.double ['A'] :: Seg.upper ['S', '1'] :: Seg.colon ::
        (optUpSegs none ++ Seg.double ['S', '1'] :: []))).isSome = true) ∧
    ((upMigAt (Seg.double ['A'] :: Seg.upper ['S'] :: Seg.colon ::
        (optUpSegs none ++ Seg.double ['S', ' ', 'B'] :: []))).isSome = true ∧
      dispUpAt (Seg.double ['A'] :: Seg.upper ['S'] :: Seg.colon ::
        (optUpSegs none ++ Seg.double ['S', ' ', 'B'] :: [])) = none) :=
  ⟨by decide,
    (c10_mutual_exclusion.1 ['A'] ['S', '1'] ['S', '1'] none []).mpr
      (by decide),
    c10_mutual_exclusion.2.2.1 ['A'] ['S'] ['S', ' ', 'B'] none []
      (by decide) (by decide) (by decide)⟩

theorem collapseSp_cons (a : Char) (t : Body)
    (h : ¬(a = ' ' ∧ t.head? = some ' ')) :
    collapseSp (a :: t) = a :: collapseSp t := by
  conv_lhs => unfold collapseSp
  split
  next heq => exact List.noConfusion heq
  next t2 heq =>
    obtain ⟨h1, h2⟩ := List.cons.inj heq
    exact absurd ⟨h1, by rw [h2]; rfl⟩ h
  next c t2 hne heq =>
    obtain ⟨h1, h2⟩ := List.cons.inj heq
    subst h1
    subst h2
    rfl

theorem collapseSp_self (b : Body) (h : NoSp2 b) : collapseSp b = b := by
  induction b using collapseSp.induct with
  | case1 => rfl
  | case2 t ih =>
    rw [NoSp2, List.chain'_cons] at h
    exact absurd ⟨rfl, rfl⟩ h.1
  | case3 c t hne ih =>
    have hcnd : ¬(c = ' ' ∧ t.head? = some ' ') := by
      rintro ⟨rfl, ht⟩
      cases t with
      | nil => exact Option.noConfusion ht
      | cons b2 t2 =>
        have hb2 : b2 = ' ' := by
          rw [List.head?_cons] at ht
          exact Option.some.inj ht
        exact hne t2 rfl (by rw [hb2])
    rw [collapseSp_cons c t hcnd, ih h.tail]

theorem dropWhile_sp (b : Body) (h : b.head? ≠ some ' ') :
    b.dropWhile (fun x => x = ' ') = b := by
  cases b with
  | nil => rfl
  | cons a t =>
    rw [List.head?_cons] at h
    rw [List.dropWhile_cons, if_neg]
    simp only [decide_eq_true_eq]
    exact fun ha => h (by rw [ha])

theorem tidyBody_norm (b : Body) (h : normBody b) : tidyBody b = b := by
  obtain ⟨h0, h1, h2, h3⟩ := h
  unfold tidyBody
  rw [collapseSp_self b h3]
  have e1 : b.reverse.dropWhile (fun x => x = ' ') = b.reverse :=
    dropWhile_sp _ (by rw [List.head?_reverse]; exact h2)
  rw [e1, List.reverse_reverse]
  exact dropWhile_sp _ h1

theorem noSp2_append (x y : Body) (hx : NoSp2 x) (hy : NoSp2 y)
    (hb : ¬(x.getLast? = some ' ' ∧ y.head? = some ' ')) :
    NoSp2 (x ++ y) := by
  rw [NoSp2, List.chain'_append]
  refine ⟨hx, hy, ?_⟩
  intro a ha c hc
  exact fun hac => hb (by rw [ha, hc, hac.1, hac.2]; exact ⟨rfl, rfl⟩)

theorem normBody_join (x y : Body) (hx : normBody x) (hy : normBody y) :
    normBody (x ++ ' ' :: y) := by
  obtain ⟨hx0, hx1, hx2, hx3⟩ := hx
  obtain ⟨hy0, hy1, hy2, hy3⟩ := hy
  refine ⟨by simp, ?_, ?_, ?_⟩
  · rw [List.head?_append_of_ne_nil _ hx0]
    exact hx1
  · rw [List.getLast?_append_of_ne_nil _ (List.cons_ne_nil _ _)]
    rw [show (' ' :: y : Body) = [' '] ++ y from rfl,
      List.getLast?_append_of_ne_nil _ hy0]
    exact hy2
  · apply noSp2_append _ _ hx3 _ (by rintro ⟨h1, -⟩; exact hx2 h1)
    rw [show (' ' :: y : Body) = [' '] ++ y from rfl]
    apply noSp2_append _ _ (by rw [NoSp2]; exact List.chain'_singleton _) hy3
    rintro ⟨-, h2⟩
    exact hy1 h2

theorem tidyBody_app_sp (b : Body) (h : normBody b) :
    tidyBody (b ++ [' ']) = b := by
  obtain ⟨h0, h1, h2, h3⟩ := h
  unfold tidyBody
  rw [collapseSp_self _ (noSp2_append b [' '] h3
      (by rw [NoSp2]; exact List.chain'_singleton _)
      (by rintro ⟨hl, -⟩; exact h2 hl))]
  have e0 : (b ++ [' ']).reverse = ' ' :: b.reverse := by
    rw [List.reverse_append]; rfl
  rw [e0, List.dropWhile_cons, if_pos (by simp)]
  have e1 : b.reverse.dropWhile (fun x => x = ' ') = b.reverse :=
    dropWhile_sp _ (by rw [List.head?_reverse]; exact h2)
  rw [e1, List.reverse_reverse]
  exact dropWhile_sp _ h1

theorem tidyBody_sp_cons (b : Body) (h : normBody b) :
    tidyBody (' ' :: b) = b := by
  obtain ⟨h0, h1, h2, h3⟩ := h
  unfold tidyBody
  rw [show (' ' :: b : Body) = [' '] ++ b from rfl]
  rw [collapseSp_self _ (noSp2_append [' '] b
      (by rw [NoSp2]; exact List.chain'_singleton _) h3
      (by rintro ⟨-, hr⟩; exact h1 hr))]
  have e0 : (([' '] : Body) ++ b).reverse = b.reverse ++ [' '] := by
    rw [List.reverse_append]; rfl
  rw [e0]
  have e1 : (b.reverse ++ [' ']).dropWhile (fun x => x = ' ') =
      b.reverse ++ [' '] := by
    apply dropWhile_sp
    rw [List.head?_append_of_ne_nil _ (by simp [h0] : b.reverse ≠ [])]
    rw [List.head?_reverse]
    exact h2
  rw [e1]
  have e2 : (b.reverse ++ [' ']).reverse = ' ' :: b := by
    rw [List.reverse_append, List.reverse_reverse]; rfl
  rw [e2, List.dropWhile_cons, if_pos (by simp)]
  exact dropWhile_sp _ h1

theorem plainDom_facts (b : Body) (h : plainDom b = true) :
    b ≠ [] ∧ ∀ ch ∈ b, ch ≠ ' ' ∧ ch ≠ '^' := by
  unfold plainDom at h
  rw [Bool.and_eq_true, List.all_eq_true] at h
  refine ⟨by simpa using h.1, fun ch hc => ?_⟩
  have := h.2 ch hc
  rw [Bool.and_eq_true] at this
  simpa using this

theorem chain'_of_no_sp (b : Body) (h : ∀ ch ∈ b, ch ≠ ' ') : NoSp2 b := by
  induction b with
  | nil => exact List.chain'_nil
  | cons a t ih =>
    cases t with
    | nil => exact List.chain'_singleton _
    | cons c t2 =>
      rw [NoSp2, List.chain'_cons]
      exact ⟨fun hp => h a (by simp) hp.1,
        ih fun ch hc => h ch (List.mem_cons_of_mem a hc)⟩

theorem plainDom_norm (b : Body) (h : plainDom b = true) : normBody b := by
  obtain ⟨h0, hch⟩ := plainDom_facts b h
  refine ⟨h0, ?_, ?_, chain'_of_no_sp b fun ch hc => (hch ch hc).1⟩
  · intro hh
    cases b with
    | nil => exact Option.noConfusion hh
    | cons a t =>
      rw [List.head?_cons] at hh
      exact (hch a (by simp) ).1 (Option.some.inj hh)
  · intro hh
    obtain ⟨hne, heq⟩ :=
      List.mem_getLast?_eq_getLast (show ' ' ∈ b.getLast? from hh)
    have hm : ' ' ∈ b := by rw [heq]; exact List.getLast_mem hne
    exact (hch ' ' hm).1 rfl

theorem wordChar_ne (c : Char) (h : wordChar c = true) :
    c ≠ ' ' ∧ c ≠ '^' ∧ c ≠ '*' := by
  refine ⟨?_, ?_, ?_⟩ <;> rintro rfl <;> exact absurd h (by decide)

theorem filter_range_singleton (n i : Nat) (p : Nat → Bool) (hi : i < n)
    (hp : p i = true) (hu : ∀ j, p j = true → j = i) :
    (List.range n).filter p = [i] := by
  induction n with
  | zero => omega
  | succ m ih =>
    rw [List.range_succ, List.filter_append]
    by_cases him : i < m
    · rw [ih him]
      have hm : p m = false := by
        cases hpm : p m with
        | false => rfl
        | true => have := hu m hpm; omega
      simp [List.filter_cons, hm]
    · have : i = m := by omega
      subst this
      have hf : (List.range i).filter p = [] := by
        rw [List.filter_eq_nil_iff]
        intro a ha hpa
        rw [List.mem_range] at ha
        have := hu a hpa
        omega
      rw [hf]
      simp [List.filter_cons, hp]

theorem drop_join (d1 r : Body) : (d1 ++ ' ' :: r).drop (d1.length + 1) = r := by
  rw [show d1 ++ ' ' :: r = (d1 ++ [' ']) ++ r by simp]
  rw [show d1.length + 1 = (d1 ++ [' ']).length by simp]
  exact List.drop_left _ _

theorem take_join (d1 r : Body) :
    (d1 ++ ' ' :: r).take (d1.length + 1) = d1 ++ [' '] := by
  rw [show d1 ++ ' ' :: r = (d1 ++ [' ']) ++ r by simp]
  rw [show d1.length + 1 = (d1 ++ [' ']).length by simp]
  exact List.take_left _ _

theorem drop_join_add (d1 r : Body) (m : Nat) :
    (d1 ++ ' ' :: r).drop (d1.length + 1 + m) = r.drop m := by
  rw [← List.drop_drop, drop_join]

theorem caret_unique_up (c : Char) (d1 d2 : Body) (hc : wordChar c = true)
    (h1 : plainDom d1 = true) (h2 : plainDom d2 = true) (k : Nat)
    (hk : (d1 ++ ' ' :: c :: '^' :: ' ' :: d2)[k]? = some '^') :
    k = d1.length + 2 := by
  by_cases hlt : k < d1.length
  · rw [List.getElem?_append_left hlt] at hk
    have := List.getElem?_mem hk
    exact absurd rfl ((plainDom_facts d1 h1).2 '^' this).2
  · rw [List.getElem?_append_right (by omega)] at hk
    rcases hm : k - d1.length with _ | m1
    · rw [hm] at hk; simp at hk
    rcases m1 with _ | m2
    · rw [hm] at hk
      simp only [List.getElem?_cons_succ, List.getElem?_cons_zero] at hk
      obtain rfl := Option.some.inj hk
      exact absurd hc (by decide)
    rcases m2 with _ | m3
    · omega
    rcases m3 with _ | m4
    · rw [hm] at hk; simp at hk
    · rw [hm] at hk
      simp only [List.getElem?_cons_succ] at hk
      have := List.getElem?_mem hk
      exact absurd rfl ((plainDom_facts d2 h2).2 '^' this).2

theorem caret_unique_low (c : Char) (e1 e2 : Body) (hc : wordChar c = true)
    (h1 : plainDom e1 = true) (h2 : plainDom e2 = true) (k : Nat)
    (hk : (e1 ++ ' ' :: c :: '^' :: '*' :: ' ' :: e2)[k]? = some '^') :
    k = e1.length + 2 := by
  by_cases hlt : k < e1.length
  · rw [List.getElem?_append_left hlt] at hk
    have := List.getElem?_mem hk
    exact absurd rfl ((plainDom_facts e1 h1).2 '^' this).2
  · rw [List.getElem?_append_right (by omega)] at hk
    rcases hm : k - e1.length with _ | m1
    · rw [hm] at hk; simp at hk
    rcases m1 with _ | m2
    · rw [hm] at hk
      simp only [List.getElem?_cons_succ, List.getElem?_cons_zero] at hk
      obtain rfl := Option.some.inj hk
      exact absurd hc (by decide)
    rcases m2 with _ | m3
    · omega
    rcases m3 with _ | m4
    · rw [hm] at hk; simp at hk
    rcases m4 with _ | m5
    · rw [hm] at hk; simp at hk
    · rw [hm] at hk
      simp only [List.getElem?_cons_succ] at hk
      have := List.getElem?_mem hk
      exact absurd rfl ((plainDom_facts e2 h2).2 '^' this).2

theorem labPatUp_caret (b : Body) (j : Nat)
    (h : (match b.drop j with
      | x :: '^' :: _ => wordChar x
      | _ => false) = true) :
    b[j + 1]? = some '^' := by
  split at h
  next x rest heq =>
    have h2 : (b.drop j)[1]? = some '^' := by
      rw [heq]
      simp
    rw [List.getElem?_drop] at h2
    exact h2
  next => exact Bool.noConfusion h

theorem labPatLow_caret (b : Body) (j : Nat)
    (h : (match b.drop j with
      | x :: '^' :: '*' :: _ => wordChar x
      | _ => false) = true) :
    b[j + 1]? = some '^' := by
  split at h
  next x rest heq =>
    have h2 : (b.drop j)[1]? = some '^' := by
      rw [heq]
      simp
    rw [List.getElem?_drop] at h2
    exact h2
  next => exact Bool.noConfusion h

theorem upperLabIdx_single (c : Char) (d1 d2 : Body) (hc : wordChar c = true)
    (h1 : plainDom d1 = true) (h2 : plainDom d2 = true) :
    upperLabIdx (d1 ++ ' ' :: c :: '^' :: ' ' :: d2) = [d1.length + 1] := by
  unfold upperLabIdx
  apply filter_range_singleton
  · simp only [List.length_append, List.length_cons]
    omega
  · rw [drop_join]
    exact hc
  · intro j hj
    have hj2 := caret_unique_up c d1 d2 hc h1 h2 (j + 1) (labPatUp_caret _ j hj)
    omega

theorem lowerLabIdx_single (c : Char) (e1 e2 : Body) (hc : wordChar c = true)
    (h1 : plainDom e1 = true) (h2 : plainDom e2 = true) :
    lowerLabIdx (e1 ++ ' ' :: c :: '^' :: '*' :: ' ' :: e2) = [e1.length + 1] := by
  unfold lowerLabIdx
  apply filter_range_singleton
  · simp only [List.length_append, List.length_cons]
    omega
  · rw [drop_join]
    exact hc
  · intro j hj
    have hj2 := caret_unique_low c e1 e2 hc h1 h2 (j + 1) (labPatLow_caret _ j hj)
    omega

theorem normBody_pair (c : Char) (hc : wordChar c = true) : normBody [c, '^'] := by
  refine ⟨by simp, ?_, ?_, ?_⟩
  · rw [List.head?_cons]
    intro hh
    exact (wordChar_ne c hc).1 (Option.some.inj hh)
  · intro hh
    rw [show ([c, '^'] : Body).getLast? = some '^' by simp] at hh
    exact absurd (Option.some.inj hh) (by decide)
  · rw [NoSp2, List.chain'_cons]
    exact ⟨fun hp => absurd hp.2 (by decide), List.chain'_singleton _⟩

theorem normBody_trip (c : Char) (hc : wordChar c = true) : normBody [c, '^', '*'] := by
  refine ⟨by simp, ?_, ?_, ?_⟩
  · rw [List.head?_cons]
    intro hh
    exact (wordChar_ne c hc).1 (Option.some.inj hh)
  · intro hh
    rw [show ([c, '^', '*'] : Body).getLast? = some '*' by simp] at hh
    exact absurd (Option.some.inj hh) (by decide)
  · rw [NoSp2, List.chain'_cons]
    refine ⟨fun hp => absurd hp.2 (by decide), ?_⟩
    rw [List.chain'_cons]
    exact ⟨fun hp => absurd hp.2 (by decide), List.chain'_singleton _⟩

theorem tidyS_bound (c : Char) (d1 d2 e1 e2 : Body) (hc : wordChar c = true)
    (h1 : normBody d1) (h2 : normBody d2) (h3 : normBody e1)
    (h4 : normBody e2) :
    tidyS [Seg.lower (e1 ++ [' ']), Seg.upper (d1 ++ [' ']),
      Seg.double [c, '^'], Seg.upper (' ' :: d2), Seg.lower (' ' :: e2)] =
      [Seg.lower e1, Seg.upper d1, Seg.double [c, '^'],
       Seg.upper d2, Seg.lower e2] := by
  have t1 : tidyBody (e1 ++ [' ']) = e1 := tidyBody_app_sp _ h3
  have t2 : tidyBody (d1 ++ [' ']) = d1 := tidyBody_app_sp _ h1
  have t3 : tidyBody [c, '^'] = [c, '^'] := tidyBody_norm _ (normBody_pair c hc)
  have t4 : tidyBody (' ' :: d2) = d2 := tidyBody_sp_cons _ h2
  have t5 : tidyBody (' ' :: e2) = e2 := tidyBody_sp_cons _ h4
  simp [tidyS, List.filterMap_cons, tidySeg, t1, t2, t3, t4, t5,
    h1.1, h2.1, h3.1, h4.1]

theorem s2sBindUp_single (c : Char) (d1 d2 e1 e2 : Body) (hc : wordChar c = true)
    (h1 : plainDom d1 = true) (h2 : plainDom d2 = true)
    (h3 : plainDom e1 = true) (h4 : plainDom e2 = true) :
    s2sBindUp [Seg.upper (d1 ++ ' ' :: c :: '^' :: ' ' :: d2)]
        [Seg.lower (e1 ++ ' ' :: c :: '^' :: '*' :: ' ' :: e2)] =
      [⟨[[Seg.upper (d1 ++ ' ' :: c :: '^' :: ' ' :: d2)],
         [Seg.lower (e1 ++ ' ' :: c :: '^' :: '*' :: ' ' :: e2)]],
        [[Seg.lower e1, Seg.upper d1, Seg.double [c, '^'],
          Seg.upper d2, Seg.lower e2]], alpha⟩] := by
  unfold s2sBindUp
  dsimp only
  rw [upperLabIdx_single c d1 d2 hc h1 h2,
    lowerLabIdx_single c e1 e2 hc h3 h4]
  simp only [List.flatMap_cons, List.flatMap_nil, List.append_nil,
    List.filterMap_cons, List.filterMap_nil, drop_join, take_join,
    drop_join_add, List.head?_cons, List.drop_succ_cons, List.drop_zero,
    if_pos]
  rw [tidyS_bound c d1 d2 e1 e2 hc (plainDom_norm _ h1) (plainDom_norm _ h2)
    (plainDom_norm _ h3) (plainDom_norm _ h4)]

theorem bindingNovelReactions_ss (kb lb : Body) :
    bindingNovelReactions [Seg.upper kb] [Seg.lower lb] =
      s2sBindUp [Seg.upper kb] [Seg.lower lb] := by
  unfold bindingNovelReactions
  have hcond : ¬((hasGate [Seg.upper kb] = false ∧
      hasGate [Seg.lower lb] = true) ∨
      (hasGate [Seg.lower lb] = false ∧ hasGate [Seg.upper kb] = true)) := by
    rintro (⟨-, h⟩ | ⟨-, h⟩) <;> exact Bool.noConfusion h
  have hor : hasGate [Seg.upper kb] = false ∨ hasGate [Seg.lower lb] = false :=
    Or.inl (by rfl)
  rw [if_neg hcond, if_pos hor,
    show s2sBindLow [Seg.upper kb] [Seg.lower lb] = [] from rfl,
    List.append_nil]

theorem shortDoubleTh_pair (c : Char) (hc : wordChar c = true) :
    shortDoubleTh [c, '^'] = true := by
  unfold shortDoubleTh
  rw [List.dropWhile_cons, if_neg (by simp [hc])]
  simp [hc]

theorem shortLabel_pair (c : Char) (hc : wordChar c = true) :
    shortLabel [c, '^'] = some c := by
  unfold shortLabel
  rw [List.dropWhile_cons, if_neg (by simp [hc])]
  rfl

theorem standardise_upper_norm (b : Body) (h : normBody b) :
    standardise [Seg.upper b] = [Seg.upper b] := by
  unfold standardise
  rw [show tidyS [Seg.upper b] = [Seg.upper b] by
    simp [tidyS, List.filterMap_cons, tidySeg, tidyBody_norm b h, h.1]]
  rfl

theorem standardise_lower_norm (b : Body) (h : normBody b) :
    standardise [Seg.lower b] = [Seg.lower b] := by
  unfold standardise
  rw [show tidyS [Seg.lower b] = [Seg.lower b] by
    simp [tidyS, List.filterMap_cons, tidySeg, tidyBody_norm b h, h.1]]
  rfl

theorem unbind_bound (c : Char) (d1 d2 e1 e2 : Body) (hc : wordChar c = true) :
    unbindReactions [Seg.lower e1, Seg.upper d1, Seg.double [c, '^'],
        Seg.upper d2, Seg.lower e2] =
      [⟨[[Seg.lower e1, Seg.upper d1, Seg.double [c, '^'], Seg.upper d2,
          Seg.lower e2]],
        [standardise [Seg.upper (d1 ++ ' ' :: c :: '^' :: ' ' :: d2)],
         standardise [Seg.lower (e1 ++ ' ' :: c :: '^' :: '*' :: ' ' :: e2)]],
        alpha⟩] := by
  unfold unbindReactions
  rw [show gatesOf [Seg.lower e1, Seg.upper d1, Seg.double [c, '^'],
      Seg.upper d2, Seg.lower e2] =
      [([], ⟨some e1, some d1, [c, '^'], some d2, some e2⟩, [])] from rfl]
  simp only [List.filterMap_cons, List.filterMap_nil,
    shortDoubleTh_pair c hc, shortLabel_pair c hc, optB, if_true, ne_eq,
    not_true_eq_false, false_and, if_false]

/-- C3 counterexample: `<AB^>` and `{AB^*}` carry the complementary
toehold `AB^`/`AB^*` and are already canonical, but the label regexes
capture only the single character before the caret, so Binding splits
the `AB` domain and produces `{A}<A>[B^]`, whose Unbinding returns
`<A B^>` and `{A B^*}` — not the original pair in either order. -/
theorem c3_counterexample :
    standardise c3K = c3K ∧ standardise c3L = c3L ∧
    bindingNovelReactions c3K c3L =
      [⟨[c3K, c3L], [[lSeg "A", uSeg "A", dSeg "B^"]], alpha⟩] ∧
    unbindingNovelReactions [lSeg "A", uSeg "A", dSeg "B^"] =
      [⟨[[lSeg "A", uSeg "A", dSeg "B^"]],
        [[uSeg "A B^"], [lSeg "A B^*"]], alpha⟩] ∧
    [([uSeg "A B^"] : List Seg), [lSeg "A B^*"]] ≠ [c3K, c3L] ∧
    [([uSeg "A B^"] : List Seg), [lSeg "A B^*"]] ≠ [c3L, c3K] := by decide

/-- C3 amended: for bare strands carrying complementary toeholds with a
single-character label flanked by plain domains, Binding yields exactly
the bound gate and Unbinding that gate returns exactly the original
strand pair. -/
theorem c3_bind_unbind (c : Char) (d1 d2 e1 e2 : Body)
    (hc : wordChar c = true) (h1 : plainDom d1 = true)
    (h2 : plainDom d2 = true) (h3 : plainDom e1 = true)
    (h4 : plainDom e2 = true) :
    bindingNovelReactions [Seg.upper (d1 ++ ' ' :: c :: '^' :: ' ' :: d2)]
        [Seg.lower (e1 ++ ' ' :: c :: '^' :: '*' :: ' ' :: e2)] =
      [⟨[[Seg.upper (d1 ++ ' ' :: c :: '^' :: ' ' :: d2)],
         [Seg.lower (e1 ++ ' ' :: c :: '^' :: '*' :: ' ' :: e2)]],
        [[Seg.lower e1, Seg.upper d1, Seg.double [c, '^'],
          Seg.upper d2, Seg.lower e2]], alpha⟩] ∧
    unbindingNovelReactions [Seg.lower e1, Seg.upper d1, Seg.double [c, '^'],
        Seg.upper d2, Seg.lower e2] =
      [⟨[[Seg.lower e1, Seg.upper d1, Seg.double [c, '^'], Seg.upper d2,
          Seg.lower e2]],
        [[Seg.upper (d1 ++ ' ' :: c :: '^' :: ' ' :: d2)],
         [Seg.lower (e1 ++ ' ' :: c :: '^' :: '*' :: ' ' :: e2)]],
        alpha⟩] := by
  have hub : normBody (d1 ++ ' ' :: c :: '^' :: ' ' :: d2) :=
    normBody_join d1 _ (plainDom_norm _ h1)
      (normBody_join [c, '^'] d2 (normBody_pair c hc) (plainDom_norm _ h2))
  have hlb : normBody (e1 ++ ' ' :: c :: '^' :: '*' :: ' ' :: e2) :=
    normBody_join e1 _ (plainDom_norm _ h3)
      (normBody_join [c, '^', '*'] e2 (normBody_trip c hc) (plainDom_norm _ h4))
  constructor
  · rw [bindingNovelReactions_ss, s2sBindUp_single c d1 d2 e1 e2 hc h1 h2 h3 h4]
  · rw [show unbindingNovelReactions [Seg.lower e1, Seg.upper d1,
        Seg.double [c, '^'], Seg.upper d2, Seg.lower e2] =
      unbindReactions [Seg.lower e1, Seg.upper d1, Seg.double [c, '^'],
        Seg.upper d2, Seg.lower e2] from rfl]
    rw [unbind_bound c d1 d2 e1 e2 hc]
    rw [standardise_upper_norm _ hub, standardise_lower_norm _ hlb]

/-- C3 amendment witness: the round trip on `<L N^ R>` and
`{M N^* S}`. -/
theorem c3_bind_unbind_witness :
    wordChar 'N' = true ∧ plainDom ['L'] = true ∧
    bindingNovelReactions
        [Seg.upper (['L'] ++ ' ' :: 'N' :: '^' :: ' ' :: ['R'])]
        [Seg.lower (['M'] ++ ' ' :: 'N' :: '^' :: '*' :: ' ' :: ['S'])] =
      [⟨[[Seg.upper (['L'] ++ ' ' :: 'N' :: '^' :: ' ' :: ['R'])],
         [Seg.lower (['M'] ++ ' ' :: 'N' :: '^' :: '*' :: ' ' :: ['S'])]],
        [[Seg.lower ['M'], Seg.upper ['L'], Seg.double ['N', '^'],
          Seg.upper ['R'], Seg.lower ['S']]], alpha⟩] :=
  ⟨by decide, by decide,
    (c3_bind_unbind 'N' ['L'] ['R'] ['M'] ['S'] (by decide) (by decide)
      (by decide) (by decide) (by decide)).1⟩

theorem gateRwU_len (u : Body) (r r' : List Seg) (h : gateRwU u r = some r') :
    r'.length ≤ r.length + 1 := by
  unfold gateRwU at h
  split at h
  all_goals first
    | exact Option.noConfusion h
    | (obtain rfl := Option.some.inj h; simp only [List.length_cons]; omega)

theorem gateRwL_len (b : Body) (r r' : List Seg) (h : gateRwL b r = some r') :
    r'.length ≤ r.length + 1 := by
  unfold gateRwL at h
  split at h
  all_goals first
    | exact Option.noConfusion h
    | (obtain rfl := Option.some.inj h; simp only [List.length_cons]; omega)

theorem u2At_len (d : Body) (r r' : List Seg) (h : u2At d r = some r') :
    r'.length ≤ r.length := by
  unfold u2At at h
  split at h
  all_goals first
    | exact Option.noConfusion h
    | (obtain rfl := Option.some.inj h; simp)

theorem l2At_len (d : Body) (r r' : List Seg) (h : l2At d r = some r') :
    r'.length ≤ r.length := by
  unfold l2At at h
  split at h
  all_goals first
    | exact Option.noConfusion h
    | (obtain rfl := Option.some.inj h; simp)

theorem findLoneU1_len (ok : Bool) (l l' : List Seg)
    (h : findLoneU1 ok l = some l') : l'.length < l.length := by
  induction ok, l using findLoneU1.induct generalizing l' with
  | case1 ok u rest r hr =>
    rw [findLoneU1, hr] at h
    obtain rfl := Option.some.inj h
    split at hr
    · have := gateRwU_len u rest r hr
      simp only [List.length_cons]
      omega
    · exact Option.noConfusion hr
  | case2 ok u rest hr ih =>
    rw [findLoneU1, hr] at h
    simp only [Option.map_eq_some'] at h
    obtain ⟨x, hx, rfl⟩ := h
    have := ih x hx
    simp only [List.length_cons]
    omega
  | case3 ok s rest hs ih =>
    have he : findLoneU1 ok (s :: rest) =
        (findLoneU1 (isDc s) rest).map (s :: ·) := by
      cases s with
      | upper u =>
        cases rest with
        | nil => rfl
        | cons r1 rest2 =>
          cases r1 with
          | dcolon => exact (hs u rest2 rfl rfl).elim
          | upper b => rfl
          | lower b => rfl
          | double b => rfl
          | colon => rfl
      | lower b => rfl
      | double b => rfl
      | colon => rfl
      | dcolon => rfl
    rw [he, Option.map_eq_some'] at h
    obtain ⟨x, hx, rfl⟩ := h
    have := ih x hx
    simp only [List.length_cons]
    omega
  | case4 ok => exact Option.noConfusion h

theorem findLoneU2_len (l l' : List Seg)
    (h : findLoneU2 l = some l') : l'.length < l.length := by
  induction l using findLoneU2.induct generalizing l' with
  | case1 d rest r hr =>
    rw [findLoneU2, hr] at h
    obtain rfl := Option.some.inj h
    have := u2At_len d rest r hr
    simp only [List.length_cons]
    omega
  | case2 d rest hr ih =>
    rw [findLoneU2, hr] at h
    simp only [Option.map_eq_some'] at h
    obtain ⟨x, hx, rfl⟩ := h
    have := ih x hx
    simp only [List.length_cons]
    omega
  | case3 s rest hs ih =>
    have he : findLoneU2 (s :: rest) = (findLoneU2 rest).map (s :: ·) := by
      cases s with
      | upper b => rfl
      | lower b => rfl
      | double b => exact (hs b rfl).elim
      | colon => rfl
      | dcolon => rfl
    rw [he, Option.map_eq_some'] at h
    obtain ⟨x, hx, rfl⟩ := h
    have := ih x hx
    simp only [List.length_cons]
    omega
  | case4 => exact Option.noConfusion h

theorem findLoneL1_len (ok pNC : Bool) (l l' : List Seg)
    (h : findLoneL1 ok pNC l = some l') : l'.length < l.length := by
  induction ok, pNC, l using findLoneL1.induct generalizing l' with
  | case1 ok pNC b rest r hr =>
    rw [findLoneL1, hr] at h
    obtain rfl := Option.some.inj h
    split at hr
    · have := gateRwL_len b rest r hr
      simp only [List.length_cons]
      omega
    · exact Option.noConfusion hr
  | case2 ok pNC b rest hr ih =>
    rw [findLoneL1, hr] at h
    simp only [Option.map_eq_some'] at h
    obtain ⟨x, hx, rfl⟩ := h
    have := ih x hx
    simp only [List.length_cons]
    omega
  | case3 ok pNC s rest hs ih =>
    have he : findLoneL1 ok pNC (s :: rest) =
        (findLoneL1 (isCol s && pNC) (!(isConn s)) rest).map (s :: ·) := by
      cases s with
      | lower b =>
        cases rest with
        | nil => rfl
        | cons r1 rest2 =>
          cases r1 with
          | colon => exact (hs b rest2 rfl rfl).elim
          | upper b2 => rfl
          | lower b2 => rfl
          | double b2 => rfl
          | dcolon => rfl
      | upper b => rfl
      | double b => rfl
      | colon => rfl
      | dcolon => rfl
    rw [he, Option.map_eq_some'] at h
    obtain ⟨x, hx, rfl⟩ := h
    have := ih x hx
    simp only [List.length_cons]
    omega
  | case4 ok pNC => exact Option.noConfusion h

theorem findLoneL2_len (l l' : List Seg)
    (h : findLoneL2 l = some l') : l'.length < l.length := by
  induction l using findLoneL2.induct generalizing l' with
  | case1 d rest r hr =>
    rw [findLoneL2, hr] at h
    obtain rfl := Option.some.inj h
    have := l2At_len d rest r hr
    simp only [List.length_cons]
    omega
  | case2 d rest hr ih =>
    rw [findLoneL2, hr] at h
    simp only [Option.map_eq_some'] at h
    obtain ⟨x, hx, rfl⟩ := h
    have := ih x hx
    simp only [List.length_cons]
    omega
  | case3 s rest hs ih =>
    have he : findLoneL2 (s :: rest) = (findLoneL2 rest).map (s :: ·) := by
      cases s with
      | upper b => rfl
      | lower b => rfl
      | double b => exact (hs b rfl).elim
      | colon => rfl
      | dcolon => rfl
    rw [he, Option.map_eq_some'] at h
    obtain ⟨x, hx, rfl⟩ := h
    have := ih x hx
    simp only [List.length_cons]
    omega
  | case4 => exact Option.noConfusion h

theorem mergeStep_len (l l' : List Seg) (h : mergeStep l = some l') :
    l'.length < l.length := by
  unfold mergeStep at h
  rcases h1 : findLoneU1 true l with _ | r1
  · rw [h1] at h
    rcases h2 : findLoneU2 l with _ | r2
    · rw [h2] at h
      rcases h3 : findLoneL1 true false l with _ | r3
      · rw [h3] at h
        exact findLoneL2_len l l' h
      · rw [h3] at h
        obtain rfl := Option.some.inj h
        exact findLoneL1_len true false l _ h3
    · rw [h2] at h
      obtain rfl := Option.some.inj h
      exact findLoneU2_len l _ h2
  · rw [h1] at h
    obtain rfl := Option.some.inj h
    exact findLoneU1_len true l _ h1

theorem mergeGatesF_fix (fuel : Nat) (l : List Seg) (hf : l.length < fuel) :
    mergeStep (mergeGatesF fuel l) = none := by
  induction fuel generalizing l with
  | zero => omega
  | succ m ih =>
    rw [mergeGatesF]
    rcases hs : mergeStep l with _ | l'
    · exact hs
    · exact ih l' (by have := mergeStep_len l l' hs; omega)

theorem mergeGates_fix (l : List Seg) : mergeStep (mergeGates l) = none :=
  mergeGatesF_fix (l.length + 1) l (by omega)

theorem connCount_cons (s : Seg) (t : List Seg) :
    connCount (s :: t) = (if isConn s then 1 else 0) + connCount t := by
  unfold connCount
  rw [List.filter_cons]
  split
  · simp
    omega
  · simp

theorem connCount_le (l : List Seg) : connCount l ≤ l.length :=
  List.length_filter_le _ _

theorem mu_le (l : List Seg) : mu l ≤ l.length * l.length := by
  induction l with
  | nil => simp [mu]
  | cons s t ih =>
    simp only [mu, List.length_cons]
    have h1 : (if isStrand s then connCount t else 0) ≤ t.length := by
      split
      · exact connCount_le t
      · omega
    have e : (t.length + 1) * (t.length + 1) =
        t.length * t.length + 2 * t.length + 1 := by ring
    omega

theorem f1At_mu (w r : List Seg) (h : f1At w = some r) :
    mu r < mu w ∧ connCount r = connCount w := by
  unfold f1At at h
  split at h
  · rw [Option.map_eq_some'] at h
    obtain ⟨x, hx, rfl⟩ := h
    unfold f1Tail at hx
    split at hx
    all_goals first
      | exact Option.noConfusion hx
      | (obtain rfl := Option.some.inj hx;
         refine ⟨?_, ?_⟩ <;>
           simp [mu, connCount_cons, isConn, isStrand])
  · rw [Option.map_eq_some'] at h
    obtain ⟨x, hx, rfl⟩ := h
    unfold f1Tail at hx
    split at hx
    all_goals first
      | exact Option.noConfusion hx
      | (obtain rfl := Option.some.inj hx;
         refine ⟨?_, ?_⟩ <;>
           simp [mu, connCount_cons, isConn, isStrand])
  · exact Option.noConfusion h

theorem f2At_mu (w r : List Seg) (h : f2At w = some r) :
    mu r < mu w ∧ connCount r = connCount w := by
  unfold f2At at h
  split at h
  · rw [Option.map_eq_some'] at h
    obtain ⟨x, hx, rfl⟩ := h
    unfold f2Tail at hx
    split at hx
    all_goals first
      | exact Option.noConfusion hx
      | (obtain rfl := Option.some.inj hx;
         refine ⟨?_, ?_⟩ <;>
           simp [mu, connCount_cons, isConn, isStrand])
  · rw [Option.map_eq_some'] at h
    obtain ⟨x, hx, rfl⟩ := h
    unfold f2Tail at hx
    split at hx
    all_goals first
      | exact Option.noConfusion hx
      | (obtain rfl := Option.some.inj hx;
         refine ⟨?_, ?_⟩ <;>
           simp [mu, connCount_cons, isConn, isStrand])
  · exact Option.noConfusion h

theorem f3At_mu (w r : List Seg) (h : f3At w = some r) :
    mu r < mu w ∧ connCount r = connCount w := by
  unfold f3At at h
  split at h
  · rw [Option.map_eq_some'] at h
    obtain ⟨x, hx, rfl⟩ := h
    unfold f3Tail at hx
    split at hx
    all_goals first
      | exact Option.noConfusion hx
      | (obtain rfl := Option.some.inj hx;
         refine ⟨?_, ?_⟩ <;>
           simp [mu, connCount_cons, isConn, isStrand])
  · rw [Option.map_eq_some'] at h
    obtain ⟨x, hx, rfl⟩ := h
    unfold f3Tail at hx
    split at hx
    all_goals first
      | exact Option.noConfusion hx
      | (obtain rfl := Option.some.inj hx;
         refine ⟨?_, ?_⟩ <;>
           simp [mu, connCount_cons, isConn, isStrand])
  · exact Option.noConfusion h

theorem f4At_mu (w r : List Seg) (h : f4At w = some r) :
    mu r < mu w ∧ connCount r = connCount w := by
  unfold f4At at h
  split at h
  · rw [Option.map_eq_some'] at h
    obtain ⟨x, hx, rfl⟩ := h
    unfold f4Tail at hx
    split at hx
    all_goals first
      | exact Option.noConfusion hx
      | (obtain rfl := Option.some.inj hx;
         refine ⟨?_, ?_⟩ <;>
           simp [mu, connCount_cons, isConn, isStrand])
  · rw [Option.map_eq_some'] at h
    obtain ⟨x, hx, rfl⟩ := h
    unfold f4Tail at hx
    split at hx
    all_goals first
      | exact Option.noConfusion hx
      | (obtain rfl := Option.some.inj hx;
         refine ⟨?_, ?_⟩ <;>
           simp [mu, connCount_cons, isConn, isStrand])
  · exact Option.noConfusion h

theorem findPat_mu (pat : List Seg → Option (List Seg))
    (hpat : ∀ w r, pat w = some r → mu r < mu w ∧ connCount r = connCount w)
    (l l' : List Seg) (h : findPat pat l = some l') :
    mu l' < mu l ∧ connCount l' = connCount l := by
  induction l generalizing l' with
  | nil => exact Option.noConfusion h
  | cons s rest ih =>
    rw [findPat] at h
    rcases hp : pat (s :: rest) with _ | r
    · rw [hp] at h
      simp only [Option.map_eq_some'] at h
      obtain ⟨x, hx, rfl⟩ := h
      obtain ⟨ihm, ihc⟩ := ih x hx
      constructor
      · simp only [mu, ihc]
        omega
      · simp only [connCount_cons, ihc]
    · rw [hp] at h
      obtain rfl := Option.some.inj h
      exact hpat _ _ hp

theorem formatStep_mu (l l' : List Seg) (h : formatStep l = some l') :
    mu l' < mu l ∧ connCount l' = connCount l := by
  unfold formatStep at h
  rcases h1 : findPat f1At l with _ | r1
  · rw [h1] at h
    rcases h2 : findPat f2At l with _ | r2
    · rw [h2] at h
      rcases h3 : findPat f3At l with _ | r3
      · rw [h3] at h
        exact findPat_mu f4At f4At_mu l l' h
      · rw [h3] at h
        obtain rfl := Option.some.inj h
        exact findPat_mu f3At f3At_mu l _ h3
    · rw [h2] at h
      obtain rfl := Option.some.inj h
      exact findPat_mu f2At f2At_mu l _ h2
  · rw [h1] at h
    obtain rfl := Option.some.inj h
    exact findPat_mu f1At f1At_mu l _ h1

theorem reformatF_fix (fuel : Nat) (l : List Seg) (hf : mu l < fuel) :
    formatStep (reformatF fuel l) = none := by
  induction fuel generalizing l with
  | zero => omega
  | succ m ih =>
    rw [reformatF]
    rcases hs : formatStep l with _ | l'
    · exact hs
    · exact ih l' (by have := (formatStep_mu l l' hs).1; omega)

theorem reformat_fix (l : List Seg) : formatStep (reformat l) = none :=
  reformatF_fix _ l (by have := mu_le l; omega)

theorem collapseSp_cons_ind (c : Char) (t : Body)
    (hne : ∀ t1, c = ' ' → t = ' ' :: t1 → False) :
    collapseSp (c :: t) = c :: collapseSp t := by
  apply collapseSp_cons
  rintro ⟨rfl, hh⟩
  cases t with
  | nil => exact Option.noConfusion hh
  | cons b2 t2 =>
    rw [List.head?_cons] at hh
    exact hne t2 rfl (by rw [Option.some.inj hh])

theorem collapseSp_head (b : Body) : (collapseSp b).head? = b.head? := by
  induction b using collapseSp.induct with
  | case1 => rfl
  | case2 t ih =>
    rw [show collapseSp (' ' :: ' ' :: t) = collapseSp (' ' :: t) from rfl, ih]
    rfl
  | case3 c t hne ih =>
    rw [collapseSp_cons_ind c t hne]
    rfl

theorem collapseSp_noSp2 (b : Body) : NoSp2 (collapseSp b) := by
  induction b using collapseSp.induct with
  | case1 => exact List.chain'_nil
  | case2 t ih =>
    rw [show collapseSp (' ' :: ' ' :: t) = collapseSp (' ' :: t) from rfl]
    exact ih
  | case3 c t hne ih =>
    rw [collapseSp_cons_ind c t hne, NoSp2, List.chain'_cons']
    refine ⟨?_, ih⟩
    intro x hx
    rintro ⟨rfl, rfl⟩
    rw [collapseSp_head t] at hx
    cases t with
    | nil => exact Option.noConfusion hx
    | cons b2 t2 =>
      rw [List.head?_cons] at hx
      exact hne t2 rfl (by rw [Option.some.inj hx])

theorem noSp2_reverse (b : Body) (h : NoSp2 b) : NoSp2 b.reverse := by
  rw [NoSp2, List.chain'_reverse]
  exact h.imp fun a c hac hp => hac ⟨hp.2, hp.1⟩

theorem head?_dropWhile_sp (l : Body) :
    (l.dropWhile (fun x => x = ' ')).head? ≠ some ' ' := by
  have hd := List.head?_dropWhile_not (fun x => x = ' ') l
  intro hh
  rw [hh] at hd
  simp at hd

theorem tidyBody_normal (b : Body) (hne : tidyBody b ≠ []) :
    normBody (tidyBody b) := by
  have hcu : NoSp2 (collapseSp b) := collapseSp_noSp2 b
  have hz : NoSp2 ((collapseSp b).reverse.dropWhile (fun x => x = ' ')) :=
    List.Chain'.suffix (noSp2_reverse _ hcu) (List.dropWhile_suffix _)
  have hv : NoSp2
      (((collapseSp b).reverse.dropWhile (fun x => x = ' ')).reverse) :=
    noSp2_reverse _ hz
  refine ⟨hne, ?_, ?_, ?_⟩
  · exact head?_dropWhile_sp _
  · unfold tidyBody at hne ⊢
    set v := ((collapseSp b).reverse.dropWhile (fun x => x = ' ')).reverse
      with hvdef
    have hsplit : v.takeWhile (fun x => x = ' ') ++
        v.dropWhile (fun x => x = ' ') = v :=
      List.takeWhile_append_dropWhile _ v
    have hlast : (v.dropWhile (fun x => x = ' ')).getLast? = v.getLast? := by
      conv_rhs => rw [← hsplit]
      rw [List.getLast?_append_of_ne_nil _ hne]
    rw [hlast, hvdef, List.getLast?_reverse]
    exact head?_dropWhile_sp _
  · exact List.Chain'.suffix hv (List.dropWhile_suffix _)

theorem tidyS_norm (l : List Seg) : ∀ s ∈ tidyS l, segNorm s := by
  intro s hs
  obtain ⟨s0, -, hf⟩ := List.mem_filterMap.mp hs
  cases s0 with
  | upper b =>
    rw [tidySeg] at hf
    split at hf
    · exact Option.noConfusion hf
    · obtain rfl := Option.some.inj hf
      exact tidyBody_normal b (by assumption)
  | lower b =>
    rw [tidySeg] at hf
    split at hf
    · exact Option.noConfusion hf
    · obtain rfl := Option.some.inj hf
      exact tidyBody_normal b (by assumption)
  | double b =>
    rw [tidySeg] at hf
    split at hf
    · exact Option.noConfusion hf
    · obtain rfl := Option.some.inj hf
      exact tidyBody_normal b (by assumption)
  | colon =>
    obtain rfl := Option.some.inj hf
    exact trivial
  | dcolon =>
    obtain rfl := Option.some.inj hf
    exact trivial

theorem tidyS_self (l : List Seg) (h : ∀ s ∈ l, segNorm s) : tidyS l = l := by
  induction l with
  | nil => rfl
  | cons s t ih =>
    have hs := h s (by simp)
    have ht := ih fun x hx => h x (List.mem_cons_of_mem s hx)
    rw [show tidyS (s :: t) = (tidySeg s).toList ++ tidyS t by
      simp [tidyS, List.filterMap_cons]; split <;> simp_all]
    cases s with
    | upper b =>
      rw [show tidySeg (Seg.upper b) = some (Seg.upper b) by
        simp [tidySeg, tidyBody_norm b hs, hs.1]]
      rw [ht]
      rfl
    | lower b =>
      rw [show tidySeg (Seg.lower b) = some (Seg.lower b) by
        simp [tidySeg, tidyBody_norm b hs, hs.1]]
      rw [ht]
      rfl
    | double b =>
      rw [show tidySeg (Seg.double b) = some (Seg.double b) by
        simp [tidySeg, tidyBody_norm b hs, hs.1]]
      rw [ht]
      rfl
    | colon =>
      rw [show tidySeg Seg.colon = some Seg.colon from rfl, ht]
      rfl
    | dcolon =>
      rw [show tidySeg Seg.dcolon = some Seg.dcolon from rfl, ht]
      rfl

theorem gateRwU_norm (u : Body) (hu : normBody u) (r r' : List Seg)
    (hr : ∀ s ∈ r, segNorm s) (h : gateRwU u r = some r') :
    ∀ s ∈ r', segNorm s := by
  unfold gateRwU at h
  split at h
  · obtain rfl := Option.some.inj h
    simp only [List.forall_mem_cons] at hr ⊢
    exact ⟨hr.1, normBody_join u _ hu hr.2.1, hr.2.2⟩
  · obtain rfl := Option.some.inj h
    simp only [List.forall_mem_cons] at hr ⊢
    exact ⟨hr.1, hu, hr.2⟩
  · obtain rfl := Option.some.inj h
    simp only [List.forall_mem_cons] at hr ⊢
    exact ⟨normBody_join u _ hu hr.1, hr.2⟩
  · obtain rfl := Option.some.inj h
    simp only [List.forall_mem_cons] at hr ⊢
    exact ⟨hu, hr⟩
  · exact Option.noConfusion h

theorem gateRwL_norm (b : Body) (hb : normBody b) (r r' : List Seg)
    (hr : ∀ s ∈ r, segNorm s) (h : gateRwL b r = some r') :
    ∀ s ∈ r', segNorm s := by
  unfold gateRwL at h
  split at h
  · obtain rfl := Option.some.inj h
    simp only [List.forall_mem_cons] at hr ⊢
    exact ⟨normBody_join b _ hb hr.1, hr.2⟩
  · obtain rfl := Option.some.inj h
    simp only [List.forall_mem_cons] at hr ⊢
    exact ⟨normBody_join b _ hb hr.1, hr.2⟩
  · obtain rfl := Option.some.inj h
    simp only [List.forall_mem_cons] at hr ⊢
    exact ⟨hb, hr⟩
  · obtain rfl := Option.some.inj h
    simp only [List.forall_mem_cons] at hr ⊢
    exact ⟨hb, hr⟩
  · exact Option.noConfusion h

theorem u2At_norm (d : Body) (hd : normBody d) (r r' : List Seg)
    (hr : ∀ s ∈ r, segNorm s) (h : u2At d r = some r') :
    ∀ s ∈ r', segNorm s := by
  unfold u2At at h
  split at h
  · obtain rfl := Option.some.inj h
    simp only [List.forall_mem_cons] at hr ⊢
    exact ⟨hd, normBody_join _ _ hr.1 hr.2.2.2.1, hr.2.1, fun x hx => absurd hx (List.not_mem_nil x)⟩
  · obtain rfl := Option.some.inj h
    simp only [List.forall_mem_cons] at hr ⊢
    exact ⟨hd, normBody_join _ _ hr.1 hr.2.2.1, fun x hx => absurd hx (List.not_mem_nil x)⟩
  · obtain rfl := Option.some.inj h
    simp only [List.forall_mem_cons] at hr ⊢
    exact ⟨hd, hr.2.2.1, hr.1, fun x hx => absurd hx (List.not_mem_nil x)⟩
  · obtain rfl := Option.some.inj h
    simp only [List.forall_mem_cons] at hr ⊢
    exact ⟨hd, hr.2.1, fun x hx => absurd hx (List.not_mem_nil x)⟩
  · exact Option.noConfusion h

theorem l2At_norm (d : Body) (hd : normBody d) (r r' : List Seg)
    (hr : ∀ s ∈ r, segNorm s) (h : l2At d r = some r') :
    ∀ s ∈ r', segNorm s := by
  unfold l2At at h
  split at h
  · obtain rfl := Option.some.inj h
    simp only [List.forall_mem_cons] at hr ⊢
    exact ⟨hd, hr.1, normBody_join _ _ hr.2.1 hr.2.2.2.1, fun x hx => absurd hx (List.not_mem_nil x)⟩
  · obtain rfl := Option.some.inj h
    simp only [List.forall_mem_cons] at hr ⊢
    exact ⟨hd, normBody_join _ _ hr.1 hr.2.2.1, fun x hx => absurd hx (List.not_mem_nil x)⟩
  · obtain rfl := Option.some.inj h
    simp only [List.forall_mem_cons] at hr ⊢
    exact ⟨hd, hr.1, hr.2.2.1, fun x hx => absurd hx (List.not_mem_nil x)⟩
  · obtain rfl := Option.some.inj h
    simp only [List.forall_mem_cons] at hr ⊢
    exact ⟨hd, hr.2.1, fun x hx => absurd hx (List.not_mem_nil x)⟩
  · exact Option.noConfusion h

theorem findLoneU1_norm (ok : Bool) (l l' : List Seg)
    (h : findLoneU1 ok l = some l') (hl : ∀ s ∈ l, segNorm s) :
    ∀ s ∈ l', segNorm s := by
  induction ok, l using findLoneU1.induct generalizing l' with
  | case1 ok u rest r hr =>
    rw [findLoneU1, hr] at h
    obtain rfl := Option.some.inj h
    split at hr
    · simp only [List.forall_mem_cons] at hl
      exact gateRwU_norm u hl.1 rest _ hl.2.2 hr
    · exact Option.noConfusion hr
  | case2 ok u rest hr ih =>
    rw [findLoneU1, hr] at h
    simp only [Option.map_eq_some'] at h
    obtain ⟨x, hx, rfl⟩ := h
    simp only [List.forall_mem_cons] at hl ⊢
    exact ⟨hl.1, hl.2.1, ih x hx hl.2.2⟩
  | case3 ok s rest hs ih =>
    have he : findLoneU1 ok (s :: rest) =
        (findLoneU1 (isDc s) rest).map (s :: ·) := by
      cases s with
      | upper u =>
        cases rest with
        | nil => rfl
        | cons r1 rest2 =>
          cases r1 with
          | dcolon => exact (hs u rest2 rfl rfl).elim
          | upper b => rfl
          | lower b => rfl
          | double b => rfl
          | colon => rfl
      | lower b => rfl
      | double b => rfl
      | colon => rfl
      | dcolon => rfl
    rw [he, Option.map_eq_some'] at h
    obtain ⟨x, hx, rfl⟩ := h
    simp only [List.forall_mem_cons] at hl ⊢
    exact ⟨hl.1, ih x hx hl.2⟩
  | case4 ok => exact Option.noConfusion h

theorem findLoneU2_norm (l l' : List Seg)
    (h : findLoneU2 l = some l') (hl : ∀ s ∈ l, segNorm s) :
    ∀ s ∈ l', segNorm s := by
  induction l using findLoneU2.induct generalizing l' with
  | case1 d rest r hr =>
    rw [findLoneU2, hr] at h
    obtain rfl := Option.some.inj h
    simp only [List.forall_mem_cons] at hl
    exact u2At_norm d hl.1 rest _ hl.2 hr
  | case2 d rest hr ih =>
    rw [findLoneU2, hr] at h
    simp only [Option.map_eq_some'] at h
    obtain ⟨x, hx, rfl⟩ := h
    simp only [List.forall_mem_cons] at hl ⊢
    exact ⟨hl.1, ih x hx hl.2⟩
  | case3 s rest hs ih =>
    have he : findLoneU2 (s :: rest) = (findLoneU2 rest).map (s :: ·) := by
      cases s with
      | upper b => rfl
      | lower b => rfl
      | double b => exact (hs b rfl).elim
      | colon => rfl
      | dcolon => rfl
    rw [he, Option.map_eq_some'] at h
    obtain ⟨x, hx, rfl⟩ := h
    simp only [List.forall_mem_cons] at hl ⊢
    exact ⟨hl.1, ih x hx hl.2⟩
  | case4 => exact Option.noConfusion h

theorem findLoneL1_norm (ok pNC : Bool) (l l' : List Seg)
    (h : findLoneL1 ok pNC l = some l') (hl : ∀ s ∈ l, segNorm s) :
    ∀ s ∈ l', segNorm s := by
  induction ok, pNC, l using findLoneL1.induct generalizing l' with
  | case1 ok pNC b rest r hr =>
    rw [findLoneL1, hr] at h
    obtain rfl := Option.some.inj h
    split at hr
    · simp only [List.forall_mem_cons] at hl
      exact gateRwL_norm b hl.1 rest _ hl.2.2 hr
    · exact Option.noConfusion hr
  | case2 ok pNC b rest hr ih =>
    rw [findLoneL1, hr] at h
    simp only [Option.map_eq_some'] at h
    obtain ⟨x, hx, rfl⟩ := h
    simp only [List.forall_mem_cons] at hl ⊢
    exact ⟨hl.1, hl.2.1, ih x hx hl.2.2⟩
  | case3 ok pNC s rest hs ih =>
    have he : findLoneL1 ok pNC (s :: rest) =
        (findLoneL1 (isCol s && pNC) (!(isConn s)) rest).map (s :: ·) := by
      cases s with
      | lower b =>
        cases rest with
        | nil => rfl
        | cons r1 rest2 =>
          cases r1 with
          | colon => exact (hs b rest2 rfl rfl).elim
          | upper b2 => rfl
          | lower b2 => rfl
          | double b2 => rfl
          | dcolon => rfl
      | upper b => rfl
      | double b => rfl
      | colon => rfl
      | dcolon => rfl
    rw [he, Option.map_eq_some'] at h
    obtain ⟨x, hx, rfl⟩ := h
    simp only [List.forall_mem_cons] at hl ⊢
    exact ⟨hl.1, ih x hx hl.2⟩
  | case4 ok pNC => exact Option.noConfusion h

theorem findLoneL2_norm (l l' : List Seg)
    (h : findLoneL2 l = some l') (hl : ∀ s ∈ l, segNorm s) :
    ∀ s ∈ l', segNorm s := by
  induction l using findLoneL2.induct generalizing l' with
  | case1 d rest r hr =>
    rw [findLoneL2, hr] at h
    obtain rfl := Option.some.inj h
    simp only [List.forall_mem_cons] at hl
    exact l2At_norm d hl.1 rest _ hl.2 hr
  | case2 d rest hr ih =>
    rw [findLoneL2, hr] at h
    simp only [Option.map_eq_some'] at h
    obtain ⟨x, hx, rfl⟩ := h
    simp only [List.forall_mem_cons] at hl ⊢
    exact ⟨hl.1, ih x hx hl.2⟩
  | case3 s rest hs ih =>
    have he : findLoneL2 (s :: rest) = (findLoneL2 rest).map (s :: ·) := by
      cases s with
      | upper b => rfl
      | lower b => rfl
      | double b => exact (hs b rfl).elim
      | colon => rfl
      | dcolon => rfl
    rw [he, Option.map_eq_some'] at h
    obtain ⟨x, hx, rfl⟩ := h
    simp only [List.forall_mem_cons] at hl ⊢
    exact ⟨hl.1, ih x hx hl.2⟩
  | case4 => exact Option.noConfusion h

theorem mergeStep_norm (l l' : List Seg) (hl : ∀ s ∈ l, segNorm s)
    (h : mergeStep l = some l') : ∀ s ∈ l', segNorm s := by
  unfold mergeStep at h
  rcases h1 : findLoneU1 true l with _ | r1
  · rw [h1] at h
    rcases h2 : findLoneU2 l with _ | r2
    · rw [h2] at h
      rcases h3 : findLoneL1 true false l with _ | r3
      · rw [h3] at h
        exact findLoneL2_norm l l' h hl
      · rw [h3] at h
        obtain rfl := Option.some.inj h
        exact findLoneL1_norm true false l _ h3 hl
    · rw [h2] at h
      obtain rfl := Option.some.inj h
      exact findLoneU2_norm l _ h2 hl
  · rw [h1] at h
    obtain rfl := Option.some.inj h
    exact findLoneU1_norm true l _ h1 hl

theorem mergeGatesF_norm (fuel : Nat) (l : List Seg)
    (hl : ∀ s ∈ l, segNorm s) : ∀ s ∈ mergeGatesF fuel l, segNorm s := by
  induction fuel generalizing l with
  | zero => exact hl
  | succ m ih =>
    rw [mergeGatesF]
    rcases hs : mergeStep l with _ | l'
    · exact hl
    · exact ih l' (mergeStep_norm l l' hl hs)

theorem f1Tail_norm (u : Body) (hu : normBody u) (r r' : List Seg)
    (h : f1Tail u r = some r') (hr : ∀ s ∈ r, segNorm s) :
    ∀ s ∈ r', segNorm s := by
  unfold f1Tail at h
  split at h
  · obtain rfl := Option.some.inj h
    simp only [List.forall_mem_cons] at hr ⊢
    exact ⟨hr.1, normBody_join u _ hu hr.2.1, hr.2.2⟩
  · obtain rfl := Option.some.inj h
    simp only [List.forall_mem_cons] at hr ⊢
    exact ⟨normBody_join u _ hu hr.1, hr.2⟩
  · exact Option.noConfusion h

theorem f1At_norm (w r : List Seg) (h : f1At w = some r)
    (hw : ∀ s ∈ w, segNorm s) : ∀ s ∈ r, segNorm s := by
  unfold f1At at h
  split at h
  · rw [Option.map_eq_some'] at h
    obtain ⟨x, hx, rfl⟩ := h
    simp only [List.forall_mem_cons] at hw ⊢
    exact ⟨hw.1, hw.2.2.1, trivial, f1Tail_norm _ hw.2.1 _ _ hx hw.2.2.2.2⟩
  · rw [Option.map_eq_some'] at h
    obtain ⟨x, hx, rfl⟩ := h
    simp only [List.forall_mem_cons] at hw ⊢
    exact ⟨hw.1, trivial, f1Tail_norm _ hw.2.1 _ _ hx hw.2.2.2⟩
  · exact Option.noConfusion h

theorem f2Tail_norm (b : Body) (hb : normBody b) (r r' : List Seg)
    (h : f2Tail b r = some r') (hr : ∀ s ∈ r, segNorm s) :
    ∀ s ∈ r', segNorm s := by
  unfold f2Tail at h
  split at h
  · obtain rfl := Option.some.inj h
    simp only [List.forall_mem_cons] at hr ⊢
    exact ⟨normBody_join b _ hb hr.1, hr.2⟩
  · obtain rfl := Option.some.inj h
    simp only [List.forall_mem_cons] at hr ⊢
    exact ⟨normBody_join b _ hb hr.1, hr.2⟩
  · exact Option.noConfusion h

theorem f2At_norm (w r : List Seg) (h : f2At w = some r)
    (hw : ∀ s ∈ w, segNorm s) : ∀ s ∈ r, segNorm s := by
  unfold f2At at h
  split at h
  · rw [Option.map_eq_some'] at h
    obtain ⟨x, hx, rfl⟩ := h
    simp only [List.forall_mem_cons] at hw ⊢
    exact ⟨hw.1, hw.2.1, trivial, f2Tail_norm _ hw.2.2.1 _ _ hx hw.2.2.2.2⟩
  · rw [Option.map_eq_some'] at h
    obtain ⟨x, hx, rfl⟩ := h
    simp only [List.forall_mem_cons] at hw ⊢
    exact ⟨hw.1, trivial, f2Tail_norm _ hw.2.1 _ _ hx hw.2.2.2⟩
  · exact Option.noConfusion h

theorem f3Tail_norm (u : Body) (hu : normBody u) (r r' : List Seg)
    (h : f3Tail u r = some r') (hr : ∀ s ∈ r, segNorm s) :
    ∀ s ∈ r', segNorm s := by
  unfold f3Tail at h
  split at h
  · obtain rfl := Option.some.inj h
    simp only [List.forall_mem_cons] at hr ⊢
    exact ⟨hr.1, hu, hr.2⟩
  · obtain rfl := Option.some.inj h
    simp only [List.forall_mem_cons] at hr ⊢
    exact ⟨hu, hr⟩
  · exact Option.noConfusion h

theorem f3At_norm (w r : List Seg) (h : f3At w = some r)
    (hw : ∀ s ∈ w, segNorm s) : ∀ s ∈ r, segNorm s := by
  unfold f3At at h
  split at h
  · rw [Option.map_eq_some'] at h
    obtain ⟨x, hx, rfl⟩ := h
    simp only [List.forall_mem_cons] at hw ⊢
    exact ⟨hw.1, hw.2.2.1, trivial, f3Tail_norm _ hw.2.1 _ _ hx hw.2.2.2.2⟩
  · rw [Option.map_eq_some'] at h
    obtain ⟨x, hx, rfl⟩ := h
    simp only [List.forall_mem_cons] at hw ⊢
    exact ⟨hw.1, trivial, f3Tail_norm _ hw.2.1 _ _ hx hw.2.2.2⟩
  · exact Option.noConfusion h

theorem f4Tail_norm (r r' : List Seg) (h : f4Tail r = some r')
    (hr : ∀ s ∈ r, segNorm s) : ∀ s ∈ r', segNorm s := by
  unfold f4Tail at h
  split at h
  · obtain rfl := Option.some.inj h
    exact hr
  · obtain rfl := Option.some.inj h
    exact hr
  · exact Option.noConfusion h

theorem f4At_norm (w r : List Seg) (h : f4At w = some r)
    (hw : ∀ s ∈ w, segNorm s) : ∀ s ∈ r, segNorm s := by
  unfold f4At at h
  split at h
  · rw [Option.map_eq_some'] at h
    obtain ⟨x, hx, rfl⟩ := h
    simp only [List.forall_mem_cons] at hw ⊢
    exact ⟨hw.1, hw.2.1, trivial, hw.2.2.1,
      f4Tail_norm _ _ hx hw.2.2.2.2⟩
  · rw [Option.map_eq_some'] at h
    obtain ⟨x, hx, rfl⟩ := h
    simp only [List.forall_mem_cons] at hw ⊢
    exact ⟨hw.1, trivial, hw.2.1, f4Tail_norm _ _ hx hw.2.2.2⟩
  · exact Option.noConfusion h

theorem findPat_norm (pat : List Seg → Option (List Seg))
    (hpat : ∀ w r, pat w = some r → (∀ s ∈ w, segNorm s) → ∀ s ∈ r, segNorm s)
    (l l' : List Seg) (h : findPat pat l = some l')
    (hl : ∀ s ∈ l, segNorm s) : ∀ s ∈ l', segNorm s := by
  induction l generalizing l' with
  | nil => exact Option.noConfusion h
  | cons s rest ih =>
    rw [findPat] at h
    rcases hp : pat (s :: rest) with _ | r
    · rw [hp] at h
      simp only [Option.map_eq_some'] at h
      obtain ⟨x, hx, rfl⟩ := h
      simp only [List.forall_mem_cons] at hl ⊢
      exact ⟨hl.1, ih x hx hl.2⟩
    · rw [hp] at h
      obtain rfl := Option.some.inj h
      exact hpat _ _ hp hl

theorem formatStep_norm (l l' : List Seg) (h : formatStep l = some l')
    (hl : ∀ s ∈ l, segNorm s) : ∀ s ∈ l', segNorm s := by
  unfold formatStep at h
  rcases h1 : findPat f1At l with _ | r1
  · rw [h1] at h
    rcases h2 : findPat f2At l with _ | r2
    · rw [h2] at h
      rcases h3 : findPat f3At l with _ | r3
      · rw [h3] at h
        exact findPat_norm f4At f4At_norm l l' h hl
      · rw [h3] at h
        obtain rfl := Option.some.inj h
        exact findPat_norm f3At f3At_norm l _ h3 hl
    · rw [h2] at h
      obtain rfl := Option.some.inj h
      exact findPat_norm f2At f2At_norm l _ h2 hl
  · rw [h1] at h
    obtain rfl := Option.some.inj h
    exact findPat_norm f1At f1At_norm l _ h1 hl

theorem reformatF_norm (fuel : Nat) (l : List Seg)
    (hl : ∀ s ∈ l, segNorm s) : ∀ s ∈ reformatF fuel l, segNorm s := by
  induction fuel generalizing l with
  | zero => exact hl
  | succ m ih =>
    rw [reformatF]
    rcases hs : formatStep l with _ | l'
    · exact hl
    · exact ih l' (formatStep_norm l l' hs hl)

theorem standardise_norm (l : List Seg) : ∀ s ∈ standardise l, segNorm s :=
  reformatF_norm _ _ (mergeGatesF_norm _ _ (tidyS_norm l))

theorem gateRwU_isSome (u : Body) (r : List Seg) :
    (gateRwU u r).isSome = gateShape r := by
  match r with
  | [] => rfl
  | [s1] => cases s1 <;> rfl
  | [s1, s2] => cases s1 <;> cases s2 <;> rfl
  | s1 :: s2 :: s3 :: t => cases s1 <;> cases s2 <;> cases s3 <;> rfl

theorem gateRwL_isSome (b : Body) (r : List Seg) :
    (gateRwL b r).isSome = gateShape r := by
  match r with
  | [] => rfl
  | [s1] => cases s1 <;> rfl
  | [s1, s2] => cases s1 <;> cases s2 <;> rfl
  | s1 :: s2 :: s3 :: t => cases s1 <;> cases s2 <;> cases s3 <;> rfl

theorem gateShape_congr (z : List Seg) (d : Body) (w w' : List Seg) :
    gateShape (z ++ Seg.double d :: w) = gateShape (z ++ Seg.double d :: w') := by
  match z with
  | [] => rfl
  | [s1] => cases s1 <;> rfl
  | [s1, s2] => cases s1 <;> cases s2 <;> rfl
  | s1 :: s2 :: s3 :: z2 => cases s1 <;> cases s2 <;> cases s3 <;> rfl

theorem isDc_eq (s : Seg) (h : isDc s = true) : s = Seg.dcolon := by
  cases s <;> first | rfl | exact Bool.noConfusion h

theorem isCol_eq (s : Seg) (h : isCol s = true) : s = Seg.colon := by
  cases s <;> first | rfl | exact Bool.noConfusion h

theorem getLast?_cc (a b : Seg) (l : List Seg) :
    (a :: b :: l).getLast? = (b :: l).getLast? := rfl

theorem findLoneU1_none (ok : Bool) (l : List Seg) :
    findLoneU1 ok l = none ↔
      ∀ pre u rest, l = pre ++ Seg.upper u :: Seg.dcolon :: rest →
        okD ok pre → gateShape rest = false := by
  induction ok, l using findLoneU1.induct with
  | case1 ok u rest r hr =>
    constructor
    · intro h
      rw [findLoneU1, hr] at h
      exact Option.noConfusion h
    · intro hall
      exfalso
      split at hr
      · have hg := hall [] u rest rfl (Or.inl ⟨rfl, by assumption⟩)
        rw [← gateRwU_isSome u rest, hr] at hg
        exact Bool.noConfusion hg
      · exact Option.noConfusion hr
  | case2 ok u rest hr ih =>
    rw [findLoneU1, hr]
    rw [show (match (none : Option (List Seg)) with
        | some r => some r
        | none => (findLoneU1 true rest).map
            (fun x => Seg.upper u :: Seg.dcolon :: x)) =
        (findLoneU1 true rest).map
          (fun x => Seg.upper u :: Seg.dcolon :: x) from rfl]
    rw [Option.map_eq_none', ih]
    constructor
    · intro hall pre u' rest' heq hok
      cases pre with
      | nil =>
        rw [List.nil_append] at heq
        obtain ⟨h1, h2⟩ := List.cons.inj heq
        obtain ⟨-, h3⟩ := List.cons.inj h2
        subst h3
        rcases hok with ⟨-, hok1⟩ | hlast
        · subst hok1
          rw [if_pos rfl] at hr
          rw [← Bool.not_eq_true]
          intro hg
          rw [← gateRwU_isSome u rest, hr] at hg
          exact Bool.noConfusion hg
        · exact absurd hlast Option.noConfusion
      | cons s0 pre2 =>
        obtain ⟨rfl, h2⟩ := List.cons.inj heq
        cases pre2 with
        | nil =>
          have h2b : Seg.dcolon :: rest = Seg.upper u' :: Seg.dcolon :: rest' :=
            h2
          exact Seg.noConfusion (List.cons.inj h2b).1
        | cons s1 pre3 =>
          obtain ⟨rfl, h3⟩ := List.cons.inj h2
          apply hall pre3 u' rest' h3
          rcases hok with ⟨hpre, -⟩ | hlast
          · exact absurd hpre (List.cons_ne_nil _ _)
          · rw [getLast?_cc] at hlast
            cases pre3 with
            | nil => exact Or.inl ⟨rfl, rfl⟩
            | cons p0 pre4 =>
              rw [getLast?_cc] at hlast
              exact Or.inr hlast
    · intro hall pre u' rest' heq hok
      apply hall (Seg.upper u :: Seg.dcolon :: pre) u' rest' (by rw [heq]; rfl)
      right
      rw [getLast?_cc]
      cases pre with
      | nil => rfl
      | cons p0 pre2 =>
        rw [getLast?_cc]
        rcases hok with ⟨hpre, -⟩ | hlast
        · exact absurd hpre (List.cons_ne_nil _ _)
        · exact hlast
  | case3 ok s rest hs ih =>
    have he : findLoneU1 ok (s :: rest) =
        (findLoneU1 (isDc s) rest).map (s :: ·) := by
      cases s with
      | upper u =>
        cases rest with
        | nil => rfl
        | cons r1 rest2 =>
          cases r1 with
          | dcolon => exact (hs u rest2 rfl rfl).elim
          | upper b => rfl
          | lower b => rfl
          | double b => rfl
          | colon => rfl
      | lower b => rfl
      | double b => rfl
      | colon => rfl
      | dcolon => rfl
    rw [he, Option.map_eq_none', ih]
    constructor
    · intro hall pre u' rest' heq hok
      cases pre with
      | nil =>
        rw [List.nil_append] at heq
        obtain ⟨rfl, h2⟩ := List.cons.inj heq
        exact (hs u' rest' rfl h2).elim
      | cons s0 pre2 =>
        obtain ⟨rfl, h2⟩ := List.cons.inj heq
        apply hall pre2 u' rest' h2
        rcases hok with ⟨hpre, -⟩ | hlast
        · exact absurd hpre (List.cons_ne_nil _ _)
        · cases pre2 with
          | nil =>
            rw [show ((s :: [] : List Seg)).getLast? = some s from rfl]
              at hlast
            obtain rfl := Option.some.inj hlast
            exact Or.inl ⟨rfl, rfl⟩
          | cons p0 pre3 =>
            rw [getLast?_cc] at hlast
            exact Or.inr hlast
    · intro hall pre u' rest' heq hok
      apply hall (s :: pre) u' rest' (by rw [heq]; rfl)
      right
      cases pre with
      | nil =>
        rcases hok with ⟨-, hok1⟩ | hlast
        · rw [show ((s :: [] : List Seg)).getLast? = some s from rfl,
            isDc_eq s hok1]
        · exact absurd hlast Option.noConfusion
      | cons p0 pre2 =>
        rw [getLast?_cc]
        rcases hok with ⟨hpre, -⟩ | hlast
        · exact absurd hpre (List.cons_ne_nil _ _)
        · exact hlast
  | case4 ok =>
    constructor
    · intro h pre u rest heq hok
      exact absurd heq (by simp)
    · intro h
      rfl

theorem findLoneU2_none (l : List Seg) :
    findLoneU2 l = none ↔
      ∀ pre d rest, l = pre ++ Seg.double d :: rest → u2At d rest = none := by
  induction l using findLoneU2.induct with
  | case1 d rest r hr =>
    constructor
    · intro h
      rw [findLoneU2, hr] at h
      exact Option.noConfusion h
    · intro hall
      exfalso
      rw [hall [] d rest rfl] at hr
      exact Option.noConfusion hr
  | case2 d rest hr ih =>
    rw [findLoneU2, hr]
    rw [show (match (none : Option (List Seg)) with
        | some r => some r
        | none => (findLoneU2 rest).map (fun x => Seg.double d :: x)) =
        (findLoneU2 rest).map (fun x => Seg.double d :: x) from rfl]
    rw [Option.map_eq_none', ih]
    constructor
    · intro hall pre d' rest' heq
      cases pre with
      | nil =>
        rw [List.nil_append] at heq
        obtain ⟨h1, h2⟩ := List.cons.inj heq
        obtain rfl := Seg.double.inj h1
        subst h2
        exact hr
      | cons s0 pre2 =>
        obtain ⟨rfl, h2⟩ := List.cons.inj heq
        exact hall pre2 d' rest' h2
    · intro hall pre d' rest' heq
      exact hall (Seg.double d :: pre) d' rest' (by rw [heq]; rfl)
  | case3 s rest hs ih =>
    have he : findLoneU2 (s :: rest) = (findLoneU2 rest).map (s :: ·) := by
      cases s with
      | upper b => rfl
      | lower b => rfl
      | double b => exact (hs b rfl).elim
      | colon => rfl
      | dcolon => rfl
    rw [he, Option.map_eq_none', ih]
    constructor
    · intro hall pre d' rest' heq
      cases pre with
      | nil =>
        rw [List.nil_append] at heq
        exact (hs d' (List.cons.inj heq).1).elim
      | cons s0 pre2 =>
        obtain ⟨rfl, h2⟩ := List.cons.inj heq
        exact hall pre2 d' rest' h2
    · intro hall pre d' rest' heq
      exact hall (s :: pre) d' rest' (by rw [heq]; rfl)
  | case4 =>
    constructor
    · intro h pre d rest heq
      exact absurd heq (by simp)
    · intro h
      rfl

theorem findLoneL2_none (l : List Seg) :
    findLoneL2 l = none ↔
      ∀ pre d rest, l = pre ++ Seg.double d :: rest → l2At d rest = none := by
  induction l using findLoneL2.induct with
  | case1 d rest r hr =>
    constructor
    · intro h
      rw [findLoneL2, hr] at h
      exact Option.noConfusion h
    · intro hall
      exfalso
      rw [hall [] d rest rfl] at hr
      exact Option.noConfusion hr
  | case2 d rest hr ih =>
    rw [findLoneL2, hr]
    rw [show (match (none : Option (List Seg)) with
        | some r => some r
        | none => (findLoneL2 rest).map (fun x => Seg.double d :: x)) =
        (findLoneL2 rest).map (fun x => Seg.double d :: x) from rfl]
    rw [Option.map_eq_none', ih]
    constructor
    · intro hall pre d' rest' heq
      cases pre with
      | nil =>
        rw [List.nil_append] at heq
        obtain ⟨h1, h2⟩ := List.cons.inj heq
        obtain rfl := Seg.double.inj h1
        subst h2
        exact hr
      | cons s0 pre2 =>
        obtain ⟨rfl, h2⟩ := List.cons.inj heq
        exact hall pre2 d' rest' h2
    · intro hall pre d' rest' heq
      exact hall (Seg.double d :: pre) d' rest' (by rw [heq]; rfl)
  | case3 s rest hs ih =>
    have he : findLoneL2 (s :: rest) = (findLoneL2 rest).map (s :: ·) := by
      cases s with
      | upper b => rfl
      | lower b => rfl
      | double b => exact (hs b rfl).elim
      | colon => rfl
      | dcolon => rfl
    rw [he, Option.map_eq_none', ih]
    constructor
    · intro hall pre d' rest' heq
      cases pre with
      | nil =>
        rw [List.nil_append] at heq
        exact (hs d' (List.cons.inj heq).1).elim
      | cons s0 pre2 =>
        obtain ⟨rfl, h2⟩ := List.cons.inj heq
        exact hall pre2 d' rest' h2
    · intro hall pre d' rest' heq
      exact hall (s :: pre) d' rest' (by rw [heq]; rfl)
  | case4 =>
    constructor
    · intro h pre d rest heq
      exact absurd heq (by simp)
    · intro h
      rfl

theorem findLoneL1_none (ok pNC : Bool) (l : List Seg) :
    findLoneL1 ok pNC l = none ↔
      ∀ pre b rest, l = pre ++ Seg.lower b :: Seg.colon :: rest →
        okL ok pNC pre → gateShape rest = false := by
  induction ok, pNC, l using findLoneL1.induct with
  | case1 ok pNC b rest r hr =>
    constructor
    · intro h
      rw [findLoneL1, hr] at h
      exact Option.noConfusion h
    · intro hall
      exfalso
      split at hr
      · have hg := hall [] b rest rfl (Or.inl ⟨rfl, by assumption⟩)
        rw [← gateRwL_isSome b rest, hr] at hg
        exact Bool.noConfusion hg
      · exact Option.noConfusion hr
  | case2 ok pNC b rest hr ih =>
    rw [findLoneL1, hr]
    rw [show (match (none : Option (List Seg)) with
        | some r => some r
        | none => (findLoneL1 true false rest).map
            (fun x => Seg.lower b :: Seg.colon :: x)) =
        (findLoneL1 true false rest).map
          (fun x => Seg.lower b :: Seg.colon :: x) from rfl]
    rw [Option.map_eq_none', ih]
    constructor
    · intro hall pre b' rest' heq hok
      cases pre with
      | nil =>
        rw [List.nil_append] at heq
        obtain ⟨h1, h2⟩ := List.cons.inj heq
        obtain rfl := Seg.lower.inj h1
        obtain ⟨-, h3⟩ := List.cons.inj h2
        subst h3
        rcases hok with ⟨-, hok1⟩ | ⟨s, hps, -, -⟩ | ⟨q, s, hq, -⟩
        · subst hok1
          rw [if_pos rfl] at hr
          rw [← Bool.not_eq_true]
          intro hg
          rw [← gateRwL_isSome b rest, hr] at hg
          exact Bool.noConfusion hg
        · exact absurd hps (by simp)
        · exact absurd hq (by simp)
      | cons s0 pre2 =>
        obtain ⟨rfl, h2⟩ := List.cons.inj heq
        cases pre2 with
        | nil =>
          have h2b : Seg.colon :: rest = Seg.lower b' :: Seg.colon :: rest' :=
            h2
          exact Seg.noConfusion (List.cons.inj h2b).1
        | cons s1 pre3 =>
          obtain ⟨rfl, h3⟩ := List.cons.inj h2
          apply hall pre3 b' rest' h3
          cases pre3 with
          | nil => exact Or.inl ⟨rfl, rfl⟩
          | cons p0 pre4 =>
            rcases hok with ⟨hnil, -⟩ | ⟨s, hps, -, -⟩ | ⟨q, s, hq, hcs⟩
            · exact absurd hnil (List.cons_ne_nil _ _)
            · rw [show ([s] : List Seg) = s :: [] from rfl] at hps
              obtain ⟨-, hps2⟩ := List.cons.inj hps
              exact absurd hps2 (List.cons_ne_nil _ _)
            · right; right
              cases q with
              | nil =>
                obtain ⟨-, hq2⟩ := List.cons.inj hq
                obtain ⟨-, hq3⟩ := List.cons.inj hq2
                exact absurd hq3 (List.cons_ne_nil _ _)
              | cons q0 q2 =>
                obtain ⟨-, hq2⟩ := List.cons.inj hq
                cases q2 with
                | nil =>
                  obtain ⟨hcol, hq3⟩ := List.cons.inj hq2
                  subst hcol
                  exact absurd hcs (by decide)
                | cons q1 q3 =>
                  obtain ⟨-, hq3⟩ := List.cons.inj hq2
                  exact ⟨q3, s, hq3, hcs⟩
    · intro hall pre b' rest' heq hok
      apply hall (Seg.lower b :: Seg.colon :: pre) b' rest'
        (by rw [heq]; rfl)
      rcases hok with ⟨rfl, -⟩ | ⟨s, rfl, -, hpn⟩ | ⟨q, s, rfl, hcs⟩
      · exact Or.inr (Or.inr ⟨[], Seg.lower b, rfl, rfl⟩)
      · exact absurd hpn Bool.noConfusion
      · exact Or.inr (Or.inr ⟨Seg.lower b :: Seg.colon :: q, s, rfl, hcs⟩)
  | case3 ok pNC s rest hs ih =>
    have he : findLoneL1 ok pNC (s :: rest) =
        (findLoneL1 (isCol s && pNC) (!(isConn s)) rest).map (s :: ·) := by
      cases s with
      | lower b =>
        cases rest with
        | nil => rfl
        | cons r1 rest2 =>
          cases r1 with
          | colon => exact (hs b rest2 rfl rfl).elim
          | upper b2 => rfl
          | lower b2 => rfl
          | double b2 => rfl
          | dcolon => rfl
      | upper b => rfl
      | double b => rfl
      | colon => rfl
      | dcolon => rfl
    rw [he, Option.map_eq_none', ih]
    constructor
    · intro hall pre b' rest' heq hok
      cases pre with
      | nil =>
        rw [List.nil_append] at heq
        obtain ⟨rfl, h2⟩ := List.cons.inj heq
        exact (hs b' rest' rfl h2).elim
      | cons s0 pre2 =>
        obtain ⟨rfl, h2⟩ := List.cons.inj heq
        apply hall pre2 b' rest' h2
        rcases hok with ⟨hnil, -⟩ | ⟨t, hpt, hcolt, hpnc⟩ | ⟨q, t, hq, hct⟩
        · exact absurd hnil (List.cons_ne_nil _ _)
        · rw [show ([t] : List Seg) = t :: [] from rfl] at hpt
          obtain ⟨rfl, hpt2⟩ := List.cons.inj hpt
          subst hpt2
          exact Or.inl ⟨rfl, by rw [Bool.and_eq_true]; exact ⟨hcolt, hpnc⟩⟩
        · cases q with
          | nil =>
            obtain ⟨rfl, hq2⟩ := List.cons.inj hq
            subst hq2
            exact Or.inr (Or.inl ⟨Seg.colon, rfl, rfl, by simp [hct]⟩)
          | cons q0 q2 =>
            obtain ⟨rfl, hq2⟩ := List.cons.inj hq
            exact Or.inr (Or.inr ⟨q2, t, hq2, hct⟩)
    · intro hall pre b' rest' heq hok
      apply hall (s :: pre) b' rest' (by rw [heq]; rfl)
      rcases hok with ⟨rfl, hand⟩ | ⟨t, rfl, hcolt, hpn⟩ | ⟨q, t, rfl, hct⟩
      · rw [Bool.and_eq_true] at hand
        exact Or.inr (Or.inl ⟨s, rfl, hand.1, hand.2⟩)
      · rw [Bool.not_eq_true'] at hpn
        obtain rfl := isCol_eq t hcolt
        exact Or.inr (Or.inr ⟨[], s, rfl, hpn⟩)
      · exact Or.inr (Or.inr ⟨s :: q, t, rfl, hct⟩)
  | case4 ok pNC =>
    constructor
    · intro h pre b rest heq hok
      exact absurd heq (by simp)
    · intro h
      rfl

theorem noUD_nil : noUD [] := by
  intro p u q heq
  exact absurd heq.symm (by simp)

theorem noUD_cons (s : Seg) (m : List Seg) (hm : noUD m)
    (hs : (∀ u, s ≠ Seg.upper u) ∨ m.head? ≠ some Seg.dcolon) :
    noUD (s :: m) := by
  intro p u q heq
  cases p with
  | nil =>
    rw [List.nil_append] at heq
    obtain ⟨h1, h2⟩ := List.cons.inj heq
    rcases hs with hs | hs
    · exact hs u h1
    · exact hs (by rw [h2]; rfl)
  | cons p0 p2 =>
    obtain ⟨-, h2⟩ := List.cons.inj heq
    exact hm p2 u q h2

theorem noLC_nil : noLC [] := by
  intro p b q heq
  exact absurd heq.symm (by simp)

theorem noLC_cons (s : Seg) (m : List Seg) (hm : noLC m)
    (hs : (∀ b, s ≠ Seg.lower b) ∨ m.head? ≠ some Seg.colon) :
    noLC (s :: m) := by
  intro p b q heq
  cases p with
  | nil =>
    rw [List.nil_append] at heq
    obtain ⟨h1, h2⟩ := List.cons.inj heq
    rcases hs with hs | hs
    · exact hs b h1
    · exact hs (by rw [h2]; rfl)
  | cons p0 p2 =>
    obtain ⟨-, h2⟩ := List.cons.inj heq
    exact hm p2 b q h2

theorem findPat_decomp (pat : List Seg → Option (List Seg)) (l l' : List Seg)
    (h : findPat pat l = some l') :
    ∃ a w r, l = a ++ w ∧ pat w = some r ∧ l' = a ++ r := by
  induction l generalizing l' with
  | nil => exact Option.noConfusion h
  | cons s rest ih =>
    rw [findPat] at h
    rcases hp : pat (s :: rest) with _ | r
    · rw [hp] at h
      rw [Option.map_eq_some'] at h
      obtain ⟨x, hx, rfl⟩ := h
      obtain ⟨a, w, r, rfl, hw, rfl⟩ := ih x hx
      exact ⟨s :: a, w, r, rfl, hw, rfl⟩
    · rw [hp] at h
      obtain rfl := Option.some.inj h
      exact ⟨[], s :: rest, _, rfl, hp, rfl⟩

theorem f1At_window (w r : List Seg) (h : f1At w = some r) :
    ∃ d1 mid mid' d2 t,
      w = Seg.double d1 :: (mid ++ Seg.double d2 :: t) ∧
      r = Seg.double d1 :: (mid' ++ Seg.double d2 :: t) ∧
      noUD mid' ∧ noLC mid' ∧ noDb mid' := by
  unfold f1At at h
  split at h
  next d1 u la rest =>
    rw [Option.map_eq_some'] at h
    obtain ⟨x, hx, rfl⟩ := h
    unfold f1Tail at hx
    split at hx
    next lb u' d2 t =>
      obtain rfl := Option.some.inj hx
      refine ⟨_, [Seg.upper u, Seg.lower la, Seg.dcolon, Seg.lower lb, Seg.upper u'], [Seg.lower la, Seg.dcolon, Seg.lower lb, Seg.upper (u ++ ' ' :: u')], _, _, rfl, rfl, ?_, ?_, ?_⟩
      · repeat'
          first
          | exact noUD_nil
          | refine noUD_cons _ _ ?_ (by simp)
      · repeat'
          first
          | exact noLC_nil
          | refine noLC_cons _ _ ?_ (by simp)
      · intro b0
        simp
    next u' d2 t =>
      obtain rfl := Option.some.inj hx
      refine ⟨_, [Seg.upper u, Seg.lower la, Seg.dcolon, Seg.upper u'], [Seg.lower la, Seg.dcolon, Seg.upper (u ++ ' ' :: u')], _, _, rfl, rfl, ?_, ?_, ?_⟩
      · repeat'
          first
          | exact noUD_nil
          | refine noUD_cons _ _ ?_ (by simp)
      · repeat'
          first
          | exact noLC_nil
          | refine noLC_cons _ _ ?_ (by simp)
      · intro b0
        simp
    next => exact Option.noConfusion hx
  next d1 u rest =>
    rw [Option.map_eq_some'] at h
    obtain ⟨x, hx, rfl⟩ := h
    unfold f1Tail at hx
    split at hx
    next lb u' d2 t =>
      obtain rfl := Option.some.inj hx
      refine ⟨_, [Seg.upper u, Seg.dcolon, Seg.lower lb, Seg.upper u'], [Seg.dcolon, Seg.lower lb, Seg.upper (u ++ ' ' :: u')], _, _, rfl, rfl, ?_, ?_, ?_⟩
      · repeat'
          first
          | exact noUD_nil
          | refine noUD_cons _ _ ?_ (by simp)
      · repeat'
          first
          | exact noLC_nil
          | refine noLC_cons _ _ ?_ (by simp)
      · intro b0
        simp
    next u' d2 t =>
      obtain rfl := Option.some.inj hx
      refine ⟨_, [Seg.upper u, Seg.dcolon, Seg.upper u'], [Seg.dcolon, Seg.upper (u ++ ' ' :: u')], _, _, rfl, rfl, ?_, ?_, ?_⟩
      · repeat'
          first
          | exact noUD_nil
          | refine noUD_cons _ _ ?_ (by simp)
      · repeat'
          first
          | exact noLC_nil
          | refine noLC_cons _ _ ?_ (by simp)
      · intro b0
        simp
    next => exact Option.noConfusion hx
  next => exact Option.noConfusion h

theorem f2At_window (w r : List Seg) (h : f2At w = some r) :
    ∃ d1 mid mid' d2 t,
      w = Seg.double d1 :: (mid ++ Seg.double d2 :: t) ∧
      r = Seg.double d1 :: (mid' ++ Seg.double d2 :: t) ∧
      noUD mid' ∧ noLC mid' ∧ noDb mid' := by
  unfold f2At at h
  split at h
  next d1 ua b rest =>
    rw [Option.map_eq_some'] at h
    obtain ⟨x, hx, rfl⟩ := h
    unfold f2Tail at hx
    split at hx
    next b' ub d2 t =>
      obtain rfl := Option.some.inj hx
      refine ⟨_, [Seg.upper ua, Seg.lower b, Seg.colon, Seg.lower b', Seg.upper ub], [Seg.upper ua, Seg.colon, Seg.lower (b ++ ' ' :: b'), Seg.upper ub], _, _, rfl, rfl, ?_, ?_, ?_⟩
      · repeat'
          first
          | exact noUD_nil
          | refine noUD_cons _ _ ?_ (by simp)
      · repeat'
          first
          | exact noLC_nil
          | refine noLC_cons _ _ ?_ (by simp)
      · intro b0
        simp
    next b' d2 t =>
      obtain rfl := Option.some.inj hx
      refine ⟨_, [Seg.upper ua, Seg.lower b, Seg.colon, Seg.lower b'], [Seg.upper ua, Seg.colon, Seg.lower (b ++ ' ' :: b')], _, _, rfl, rfl, ?_, ?_, ?_⟩
      · repeat'
          first
          | exact noUD_nil
          | refine noUD_cons _ _ ?_ (by simp)
      · repeat'
          first
          | exact noLC_nil
          | refine noLC_cons _ _ ?_ (by simp)
      · intro b0
        simp
    next => exact Option.noConfusion hx
  next d1 b rest =>
    rw [Option.map_eq_some'] at h
    obtain ⟨x, hx, rfl⟩ := h
    unfold f2Tail at hx
    split at hx
    next b' ub d2 t =>
      obtain rfl := Option.some.inj hx
      refine ⟨_, [Seg.lower b, Seg.colon, Seg.lower b', Seg.upper ub], [Seg.colon, Seg.lower (b ++ ' ' :: b'), Seg.upper ub], _, _, rfl, rfl, ?_, ?_, ?_⟩
      · repeat'
          first
          | exact noUD_nil
          | refine noUD_cons _ _ ?_ (by simp)
      · repeat'
          first
          | exact noLC_nil
          | refine noLC_cons _ _ ?_ (by simp)
      · intro b0
        simp
    next b' d2 t =>
      obtain rfl := Option.some.inj hx
      refine ⟨_, [Seg.lower b, Seg.colon, Seg.lower b'], [Seg.colon, Seg.lower (b ++ ' ' :: b')], _, _, rfl, rfl, ?_, ?_, ?_⟩
      · repeat'
          first
          | exact noUD_nil
          | refine noUD_cons _ _ ?_ (by simp)
      · repeat'
          first
          | exact noLC_nil
          | refine noLC_cons _ _ ?_ (by simp)
      · intro b0
        simp
    next => exact Option.noConfusion hx
  next => exact Option.noConfusion h

theorem f3At_window (w r : List Seg) (h : f3At w = some r) :
    ∃ d1 mid mid' d2 t,
      w = Seg.double d1 :: (mid ++ Seg.double d2 :: t) ∧
      r = Seg.double d1 :: (mid' ++ Seg.double d2 :: t) ∧
      noUD mid' ∧ noLC mid' ∧ noDb mid' := by
  unfold f3At at h
  split at h
  next d1 u la rest =>
    rw [Option.map_eq_some'] at h
    obtain ⟨x, hx, rfl⟩ := h
    unfold f3Tail at hx
    split at hx
    next lb d2 t =>
      obtain rfl := Option.some.inj hx
      refine ⟨_, [Seg.upper u, Seg.lower la, Seg.dcolon, Seg.lower lb], [Seg.lower la, Seg.dcolon, Seg.lower lb, Seg.upper u], _, _, rfl, rfl, ?_, ?_, ?_⟩
      · repeat'
          first
          | exact noUD_nil
          | refine noUD_cons _ _ ?_ (by simp)
      · repeat'
          first
          | exact noLC_nil
          | refine noLC_cons _ _ ?_ (by simp)
      · intro b0
        simp
    next d2 t =>
      obtain rfl := Option.some.inj hx
      refine ⟨_, [Seg.upper u, Seg.lower la, Seg.dcolon], [Seg.lower la, Seg.dcolon, Seg.upper u], _, _, rfl, rfl, ?_, ?_, ?_⟩
      · repeat'
          first
          | exact noUD_nil
          | refine noUD_cons _ _ ?_ (by simp)
      · repeat'
          first
          | exact noLC_nil
          | refine noLC_cons _ _ ?_ (by simp)
      · intro b0
        simp
    next => exact Option.noConfusion hx
  next d1 u rest =>
    rw [Option.map_eq_some'] at h
    obtain ⟨x, hx, rfl⟩ := h
    unfold f3Tail at hx
    split at hx
    next lb d2 t =>
      obtain rfl := Option.some.inj hx
      refine ⟨_, [Seg.upper u, Seg.dcolon, Seg.lower lb], [Seg.dcolon, Seg.lower lb, Seg.upper u], _, _, rfl, rfl, ?_, ?_, ?_⟩
      · repeat'
          first
          | exact noUD_nil
          | refine noUD_cons _ _ ?_ (by simp)
      · repeat'
          first
          | exact noLC_nil
          | refine noLC_cons _ _ ?_ (by simp)
      · intro b0
        simp
    next d2 t =>
      obtain rfl := Option.some.inj hx
      refine ⟨_, [Seg.upper u, Seg.dcolon], [Seg.dcolon, Seg.upper u], _, _, rfl, rfl, ?_, ?_, ?_⟩
      · repeat'
          first
          | exact noUD_nil
          | refine noUD_cons _ _ ?_ (by simp)
      · repeat'
          first
          | exact noLC_nil
          | refine noLC_cons _ _ ?_ (by simp)
      · intro b0
        simp
    next => exact Option.noConfusion hx
  next => exact Option.noConfusion h

theorem f4At_window (w r : List Seg) (h : f4At w = some r) :
    ∃ d1 mid mid' d2 t,
      w = Seg.double d1 :: (mid ++ Seg.double d2 :: t) ∧
      r = Seg.double d1 :: (mid' ++ Seg.double d2 :: t) ∧
      noUD mid' ∧ noLC mid' ∧ noDb mid' := by
  unfold f4At at h
  split at h
  next d1 ua b rest =>
    rw [Option.map_eq_some'] at h
    obtain ⟨x, hx, rfl⟩ := h
    unfold f4Tail at hx
    split at hx
    next ub d2 t =>
      obtain rfl := Option.some.inj hx
      refine ⟨_, [Seg.upper ua, Seg.lower b, Seg.colon, Seg.upper ub], [Seg.upper ua, Seg.colon, Seg.lower b, Seg.upper ub], _, _, rfl, rfl, ?_, ?_, ?_⟩
      · repeat'
          first
          | exact noUD_nil
          | refine noUD_cons _ _ ?_ (by simp)
      · repeat'
          first
          | exact noLC_nil
          | refine noLC_cons _ _ ?_ (by simp)
      · intro b0
        simp
    next d2 t =>
      obtain rfl := Option.some.inj hx
      refine ⟨_, [Seg.upper ua, Seg.lower b, Seg.colon], [Seg.upper ua, Seg.colon, Seg.lower b], _, _, rfl, rfl, ?_, ?_, ?_⟩
      · repeat'
          first
          | exact noUD_nil
          | refine noUD_cons _ _ ?_ (by simp)
      · repeat'
          first
          | exact noLC_nil
          | refine noLC_cons _ _ ?_ (by simp)
      · intro b0
        simp
    next => exact Option.noConfusion hx
  next d1 b rest =>
    rw [Option.map_eq_some'] at h
    obtain ⟨x, hx, rfl⟩ := h
    unfold f4Tail at hx
    split at hx
    next ub d2 t =>
      obtain rfl := Option.some.inj hx
      refine ⟨_, [Seg.lower b, Seg.colon, Seg.upper ub], [Seg.colon, Seg.lower b, Seg.upper ub], _, _, rfl, rfl, ?_, ?_, ?_⟩
      · repeat'
          first
          | exact noUD_nil
          | refine noUD_cons _ _ ?_ (by simp)
      · repeat'
          first
          | exact noLC_nil
          | refine noLC_cons _ _ ?_ (by simp)
      · intro b0
        simp
    next d2 t =>
      obtain rfl := Option.some.inj hx
      refine ⟨_, [Seg.lower b, Seg.colon], [Seg.colon, Seg.lower b], _, _, rfl, rfl, ?_, ?_, ?_⟩
      · repeat'
          first
          | exact noUD_nil
          | refine noUD_cons _ _ ?_ (by simp)
      · repeat'
          first
          | exact noLC_nil
          | refine noLC_cons _ _ ?_ (by simp)
      · intro b0
        simp
    next => exact Option.noConfusion hx
  next => exact Option.noConfusion h

theorem noUD_tail (s : Seg) (m : List Seg) (hm : noUD (s :: m)) : noUD m := by
  intro p u q heq
  exact hm (s :: p) u q (by rw [heq]; rfl)

theorem noLC_tail (s : Seg) (m : List Seg) (hm : noLC (s :: m)) : noLC m := by
  intro p b q heq
  exact hm (s :: p) b q (by rw [heq]; rfl)

theorem noDb_tail (s : Seg) (m : List Seg) (hm : noDb (s :: m)) : noDb m :=
  fun b hb => hm b (List.mem_cons_of_mem s hb)

theorem pair_beyond_UD (m : List Seg) (hm : noUD m) (d2 : Body)
    (t p q : List Seg) (u : Body)
    (he : p ++ Seg.upper u :: Seg.dcolon :: q = m ++ Seg.double d2 :: t) :
    ∃ p2, p = m ++ Seg.double d2 :: p2 ∧
      t = p2 ++ Seg.upper u :: Seg.dcolon :: q := by
  induction m generalizing p with
  | nil =>
    cases p with
    | nil =>
      rw [List.nil_append, List.nil_append] at he
      exact absurd (List.cons.inj he).1 (fun hh => Seg.noConfusion hh)
    | cons s p' =>
      rw [List.nil_append] at he
      obtain ⟨rfl, h2⟩ := List.cons.inj he
      exact ⟨p', rfl, h2.symm⟩
  | cons m0 m' ih =>
    cases p with
    | nil =>
      rw [List.nil_append] at he
      obtain ⟨h1, h2⟩ := List.cons.inj he
      cases m' with
      | nil =>
        have h2b : Seg.dcolon :: q = Seg.double d2 :: t := h2
        exact absurd (List.cons.inj h2b).1 (fun hh => Seg.noConfusion hh)
      | cons m1 m'' =>
        obtain ⟨h3, -⟩ := List.cons.inj h2
        subst h3
        exact (hm [] u m'' (by rw [← h1]; rfl)).elim
    | cons s p' =>
      obtain ⟨rfl, h2⟩ := List.cons.inj he
      obtain ⟨p2, rfl, h4⟩ := ih (noUD_tail _ _ hm) p' h2
      exact ⟨p2, rfl, h4⟩

theorem pair_beyond_LC (m : List Seg) (hm : noLC m) (d2 : Body)
    (t p q : List Seg) (b : Body)
    (he : p ++ Seg.lower b :: Seg.colon :: q = m ++ Seg.double d2 :: t) :
    ∃ p2, p = m ++ Seg.double d2 :: p2 ∧
      t = p2 ++ Seg.lower b :: Seg.colon :: q := by
  induction m generalizing p with
  | nil =>
    cases p with
    | nil =>
      rw [List.nil_append, List.nil_append] at he
      exact absurd (List.cons.inj he).1 (fun hh => Seg.noConfusion hh)
    | cons s p' =>
      rw [List.nil_append] at he
      obtain ⟨rfl, h2⟩ := List.cons.inj he
      exact ⟨p', rfl, h2.symm⟩
  | cons m0 m' ih =>
    cases p with
    | nil =>
      rw [List.nil_append] at he
      obtain ⟨h1, h2⟩ := List.cons.inj he
      cases m' with
      | nil =>
        have h2b : Seg.colon :: q = Seg.double d2 :: t := h2
        exact absurd (List.cons.inj h2b).1 (fun hh => Seg.noConfusion hh)
      | cons m1 m'' =>
        obtain ⟨h3, -⟩ := List.cons.inj h2
        subst h3
        exact (hm [] b m'' (by rw [← h1]; rfl)).elim
    | cons s p' =>
      obtain ⟨rfl, h2⟩ := List.cons.inj he
      obtain ⟨p2, rfl, h4⟩ := ih (noLC_tail _ _ hm) p' h2
      exact ⟨p2, rfl, h4⟩

theorem double_beyond (m : List Seg) (hm : noDb m) (d2 : Body)
    (t p q : List Seg) (d : Body)
    (he : p ++ Seg.double d :: q = m ++ Seg.double d2 :: t) :
    (p = m ∧ d = d2 ∧ q = t) ∨
      ∃ p2, p = m ++ Seg.double d2 :: p2 ∧ t = p2 ++ Seg.double d :: q := by
  induction m generalizing p with
  | nil =>
    cases p with
    | nil =>
      rw [List.nil_append, List.nil_append] at he
      obtain ⟨h1, h2⟩ := List.cons.inj he
      exact Or.inl ⟨rfl, Seg.double.inj h1, h2⟩
    | cons s p' =>
      rw [List.nil_append] at he
      obtain ⟨rfl, h2⟩ := List.cons.inj he
      exact Or.inr ⟨p', rfl, h2.symm⟩
  | cons m0 m' ih =>
    cases p with
    | nil =>
      rw [List.nil_append] at he
      obtain ⟨h1, -⟩ := List.cons.inj he
      exact ((hm d (by rw [h1]; exact List.mem_cons_self m0 m')).elim)
    | cons s p' =>
      obtain ⟨rfl, h2⟩ := List.cons.inj he
      rcases ih (noDb_tail _ _ hm) p' h2 with ⟨rfl, rfl, rfl⟩ | ⟨p2, rfl, h4⟩
      · exact Or.inl ⟨rfl, rfl, rfl⟩
      · exact Or.inr ⟨p2, rfl, h4⟩

theorem u2At_noDb (d : Body) (r x : List Seg) (h : u2At d r = some x)
    (b : Body) : Seg.double b ∉ r := by
  unfold u2At at h
  split at h
  all_goals first | exact Option.noConfusion h | simp

theorem l2At_noDb (d : Body) (r x : List Seg) (h : l2At d r = some x)
    (b : Body) : Seg.double b ∉ r := by
  unfold l2At at h
  split at h
  all_goals first | exact Option.noConfusion h | simp

theorem okD_frame (a : List Seg) (d1 : Body) (m m' : List Seg) (d2 : Body)
    (p2 : List Seg)
    (h : okD true (a ++ Seg.double d1 :: (m' ++ Seg.double d2 :: p2))) :
    okD true (a ++ Seg.double d1 :: (m ++ Seg.double d2 :: p2)) := by
  have e1 : ∀ (z : List Seg),
      (a ++ Seg.double d1 :: (z ++ Seg.double d2 :: p2)).getLast? =
        (Seg.double d2 :: p2).getLast? := by
    intro z
    rw [List.getLast?_append_of_ne_nil _ (List.cons_ne_nil _ _)]
    rw [show Seg.double d1 :: (z ++ Seg.double d2 :: p2) =
      (Seg.double d1 :: z) ++ Seg.double d2 :: p2 from rfl]
    rw [List.getLast?_append_of_ne_nil _ (List.cons_ne_nil _ _)]
  rcases h with ⟨hnil, -⟩ | hlast
  · exact absurd hnil (by simp)
  · right
    rw [e1]
    rw [e1] at hlast
    exact hlast

theorem presU1 (a : List Seg) (d1 : Body) (mid mid' : List Seg) (d2 : Body)
    (t : List Seg) (hUD : noUD mid')
    (hx : findLoneU1 true
      (a ++ Seg.double d1 :: (mid ++ Seg.double d2 :: t)) = none) :
    findLoneU1 true
      (a ++ Seg.double d1 :: (mid' ++ Seg.double d2 :: t)) = none := by
  rw [findLoneU1_none] at hx ⊢
  intro pre u rest heq hok
  rcases List.append_eq_append_iff.mp heq.symm with ⟨a2, ha, h2⟩ | ⟨p', hp, h2⟩
  · cases a2 with
    | nil =>
      rw [List.nil_append] at h2
      exact absurd (List.cons.inj h2).1 (fun hh => Seg.noConfusion hh)
    | cons x a3 =>
      obtain ⟨h3, h4⟩ := List.cons.inj h2
      cases a3 with
      | nil =>
        have h4b : Seg.dcolon :: rest =
            Seg.double d1 :: (mid' ++ Seg.double d2 :: t) := h4
        exact absurd (List.cons.inj h4b).1 (fun hh => Seg.noConfusion hh)
      | cons x2 a4 =>
        obtain ⟨h5, h6⟩ := List.cons.inj h4
        subst ha
        subst h3
        subst h5
        have h6b : rest =
            a4 ++ Seg.double d1 :: (mid' ++ Seg.double d2 :: t) := h6
        have hgx := hx pre u
          (a4 ++ Seg.double d1 :: (mid ++ Seg.double d2 :: t))
          (by simp) hok
        rw [h6b, gateShape_congr a4 d1 (mid' ++ Seg.double d2 :: t)
          (mid ++ Seg.double d2 :: t)]
        exact hgx
  · cases p' with
    | nil =>
      have h2b : Seg.double d1 :: (mid' ++ Seg.double d2 :: t) =
          Seg.upper u :: Seg.dcolon :: rest := h2
      exact absurd (List.cons.inj h2b).1 (fun hh => Seg.noConfusion hh)
    | cons x p'' =>
      obtain ⟨h3, h4⟩ := List.cons.inj h2
      obtain ⟨p2, hp2, ht⟩ := pair_beyond_UD mid' hUD d2 t p'' rest u h4.symm
      subst hp2
      subst hp
      subst h3
      exact hx (a ++ Seg.double d1 :: (mid ++ Seg.double d2 :: p2)) u rest
        (by rw [ht]; simp) (okD_frame a d1 mid mid' d2 p2 hok)

theorem last_two_cases (A : List Seg) (d2 : Body) (p2 q : List Seg)
    (s1 s2 : Seg)
    (he : A ++ Seg.double d2 :: p2 = q ++ [s1, s2]) :
    (p2 = [] ∧ s2 = Seg.double d2) ∨
    (p2 = [s2] ∧ s1 = Seg.double d2) ∨
    (∃ q2, p2 = q2 ++ [s1, s2]) := by
  rcases List.append_eq_append_iff.mp he with ⟨a2, -, h2⟩ | ⟨c2, -, h2⟩
  · cases a2 with
    | nil =>
      have h2b : Seg.double d2 :: p2 = [s1, s2] := h2
      obtain ⟨h3, h4⟩ := List.cons.inj h2b
      exact Or.inr (Or.inl ⟨h4, h3.symm⟩)
    | cons x a3 =>
      obtain ⟨-, h4⟩ := List.cons.inj h2
      exact Or.inr (Or.inr ⟨a3, h4⟩)
  · cases c2 with
    | nil =>
      have h2b : [s1, s2] = Seg.double d2 :: p2 := h2
      obtain ⟨h3, h4⟩ := List.cons.inj h2b
      exact Or.inr (Or.inl ⟨h4.symm, h3⟩)
    | cons x c3 =>
      obtain ⟨-, h4⟩ := List.cons.inj h2
      cases c3 with
      | nil =>
        have h4b : [s2] = Seg.double d2 :: p2 := h4
        obtain ⟨h5, h6⟩ := List.cons.inj h4b
        exact Or.inl ⟨h6.symm, h5⟩
      | cons x2 c4 =>
        obtain ⟨-, h6⟩ := List.cons.inj h4
        exact absurd h6.symm (by simp)

theorem presL1 (a : List Seg) (d1 : Body) (mid mid' : List Seg) (d2 : Body)
    (t : List Seg) (hLC : noLC mid')
    (hx : findLoneL1 true false
      (a ++ Seg.double d1 :: (mid ++ Seg.double d2 :: t)) = none) :
    findLoneL1 true false
      (a ++ Seg.double d1 :: (mid' ++ Seg.double d2 :: t)) = none := by
  rw [findLoneL1_none] at hx ⊢
  intro pre b rest heq hok
  rcases List.append_eq_append_iff.mp heq.symm with ⟨a2, ha, h2⟩ | ⟨p', hp, h2⟩
  · cases a2 with
    | nil =>
      have h2b : Seg.lower b :: Seg.colon :: rest =
          Seg.double d1 :: (mid' ++ Seg.double d2 :: t) := h2
      exact absurd (List.cons.inj h2b).1 (fun hh => Seg.noConfusion hh)
    | cons x a3 =>
      obtain ⟨h3, h4⟩ := List.cons.inj h2
      cases a3 with
      | nil =>
        have h4b : Seg.colon :: rest =
            Seg.double d1 :: (mid' ++ Seg.double d2 :: t) := h4
        exact absurd (List.cons.inj h4b).1 (fun hh => Seg.noConfusion hh)
      | cons x2 a4 =>
        obtain ⟨h5, h6⟩ := List.cons.inj h4
        subst ha
        subst h3
        subst h5
        have h6b : rest =
            a4 ++ Seg.double d1 :: (mid' ++ Seg.double d2 :: t) := h6
        have hgx := hx pre b
          (a4 ++ Seg.double d1 :: (mid ++ Seg.double d2 :: t))
          (by simp) hok
        rw [h6b, gateShape_congr a4 d1 (mid' ++ Seg.double d2 :: t)
          (mid ++ Seg.double d2 :: t)]
        exact hgx
  · cases p' with
    | nil =>
      have h2b : Seg.double d1 :: (mid' ++ Seg.double d2 :: t) =
          Seg.lower b :: Seg.colon :: rest := h2
      exact absurd (List.cons.inj h2b).1 (fun hh => Seg.noConfusion hh)
    | cons x p'' =>
      obtain ⟨h3, h4⟩ := List.cons.inj h2
      obtain ⟨p2, hp2, ht⟩ := pair_beyond_LC mid' hLC d2 t p'' rest b h4.symm
      subst hp2
      subst hp
      subst h3
      refine hx (a ++ Seg.double d1 :: (mid ++ Seg.double d2 :: p2)) b rest
        (by rw [ht]; simp) ?_
      rcases hok with ⟨hnil, -⟩ | ⟨s, hps, -, hpnc⟩ | ⟨q, s1, hq, hcs⟩
      · exact absurd hnil (by simp)
      · exact absurd hpnc (by simp)
      · have hq2 : (a ++ Seg.double d1 :: mid') ++ Seg.double d2 :: p2 =
            q ++ [s1, Seg.colon] := by rw [← hq]; simp
        rcases last_two_cases (a ++ Seg.double d1 :: mid') d2 p2 q s1
            Seg.colon hq2 with ⟨-, hcol⟩ | ⟨hp2e, -⟩ | ⟨q2, hp2e⟩
        · exact absurd hcol (fun hh => Seg.noConfusion hh)
        · right; right
          refine ⟨a ++ Seg.double d1 :: mid, Seg.double d2, ?_, rfl⟩
          rw [hp2e]
          simp
        · right; right
          refine ⟨a ++ Seg.double d1 :: (mid ++ Seg.double d2 :: q2), s1,
            ?_, hcs⟩
          rw [hp2e]
          simp

theorem presU2 (a : List Seg) (d1 : Body) (mid mid' : List Seg) (d2 : Body)
    (t : List Seg) (hDb : noDb mid')
    (hx : findLoneU2
      (a ++ Seg.double d1 :: (mid ++ Seg.double d2 :: t)) = none) :
    findLoneU2
      (a ++ Seg.double d1 :: (mid' ++ Seg.double d2 :: t)) = none := by
  rw [findLoneU2_none] at hx ⊢
  intro pre d rest heq
  rcases List.append_eq_append_iff.mp heq.symm with ⟨a2, ha, h2⟩ | ⟨p', hp, h2⟩
  · cases a2 with
    | nil =>
      have h2b : Seg.double d :: rest =
          Seg.double d1 :: (mid' ++ Seg.double d2 :: t) := h2
      obtain ⟨h3, h4⟩ := List.cons.inj h2b
      rcases hu : u2At d rest with _ | xx
      · rfl
      · exact absurd (by rw [h4]; simp) (u2At_noDb d rest xx hu d2)
    | cons x a3 =>
      obtain ⟨h3, h4⟩ := List.cons.inj h2
      rcases hu : u2At d rest with _ | xx
      · rfl
      · exact absurd (by rw [h4]; simp) (u2At_noDb d rest xx hu d1)
  · cases p' with
    | nil =>
      have h2b : Seg.double d1 :: (mid' ++ Seg.double d2 :: t) =
          Seg.double d :: rest := h2
      obtain ⟨h3, h4⟩ := List.cons.inj h2b
      rcases hu : u2At d rest with _ | xx
      · rfl
      · exact absurd (by rw [← h4]; simp) (u2At_noDb d rest xx hu d2)
    | cons x p'' =>
      obtain ⟨h3, h4⟩ := List.cons.inj h2
      rcases double_beyond mid' hDb d2 t p'' rest d h4.symm with
        ⟨hpm, hd, hrt⟩ | ⟨p2, hp2, ht⟩
      · subst hd
        subst hrt
        exact hx (a ++ Seg.double d1 :: mid) _ _ (by simp)
      · exact hx (a ++ Seg.double d1 :: (mid ++ Seg.double d2 :: p2)) d rest
          (by rw [ht]; simp)

theorem presL2 (a : List Seg) (d1 : Body) (mid mid' : List Seg) (d2 : Body)
    (t : List Seg) (hDb : noDb mid')
    (hx : findLoneL2
      (a ++ Seg.double d1 :: (mid ++ Seg.double d2 :: t)) = none) :
    findLoneL2
      (a ++ Seg.double d1 :: (mid' ++ Seg.double d2 :: t)) = none := by
  rw [findLoneL2_none] at hx ⊢
  intro pre d rest heq
  rcases List.append_eq_append_iff.mp heq.symm with ⟨a2, ha, h2⟩ | ⟨p', hp, h2⟩
  · cases a2 with
    | nil =>
      have h2b : Seg.double d :: rest =
          Seg.double d1 :: (mid' ++ Seg.double d2 :: t) := h2
      obtain ⟨h3, h4⟩ := List.cons.inj h2b
      rcases hu : l2At d rest with _ | xx
      · rfl
      · exact absurd (by rw [h4]; simp) (l2At_noDb d rest xx hu d2)
    | cons x a3 =>
      obtain ⟨h3, h4⟩ := List.cons.inj h2
      rcases hu : l2At d rest with _ | xx
      · rfl
      · exact absurd (by rw [h4]; simp) (l2At_noDb d rest xx hu d1)
  · cases p' with
    | nil =>
      have h2b : Seg.double d1 :: (mid' ++ Seg.double d2 :: t) =
          Seg.double d :: rest := h2
      obtain ⟨h3, h4⟩ := List.cons.inj h2b
      rcases hu : l2At d rest with _ | xx
      · rfl
      · exact absurd (by rw [← h4]; simp) (l2At_noDb d rest xx hu d2)
    | cons x p'' =>
      obtain ⟨h3, h4⟩ := List.cons.inj h2
      rcases double_beyond mid' hDb d2 t p'' rest d h4.symm with
        ⟨hpm, hd, hrt⟩ | ⟨p2, hp2, ht⟩
      · subst hd
        subst hrt
        exact hx (a ++ Seg.double d1 :: mid) _ _ (by simp)
      · exact hx (a ++ Seg.double d1 :: (mid ++ Seg.double d2 :: p2)) d rest
          (by rw [ht]; simp)

theorem formatStep_window (x y : List Seg) (h : formatStep x = some y) :
    ∃ a d1 mid mid' d2 t,
      x = a ++ Seg.double d1 :: (mid ++ Seg.double d2 :: t) ∧
      y = a ++ Seg.double d1 :: (mid' ++ Seg.double d2 :: t) ∧
      noUD mid' ∧ noLC mid' ∧ noDb mid' := by
  have main : ∀ (pat : List Seg → Option (List Seg)),
      (∀ w r, pat w = some r → ∃ d1 mid mid' d2 t,
        w = Seg.double d1 :: (mid ++ Seg.double d2 :: t) ∧
        r = Seg.double d1 :: (mid' ++ Seg.double d2 :: t) ∧
        noUD mid' ∧ noLC mid' ∧ noDb mid') →
      findPat pat x = some y →
      ∃ a d1 mid mid' d2 t,
        x = a ++ Seg.double d1 :: (mid ++ Seg.double d2 :: t) ∧
        y = a ++ Seg.double d1 :: (mid' ++ Seg.double d2 :: t) ∧
        noUD mid' ∧ noLC mid' ∧ noDb mid' := by
    intro pat hpat hf
    obtain ⟨a, w, r, rfl, hw, rfl⟩ := findPat_decomp pat _ _ hf
    obtain ⟨d1, mid, mid', d2, t, rfl, rfl, hprops⟩ := hpat w r hw
    exact ⟨a, d1, mid, mid', d2, t, rfl, rfl, hprops⟩
  unfold formatStep at h
  rcases h1 : findPat f1At x with _ | y1
  · rw [h1] at h
    rcases h2 : findPat f2At x with _ | y2
    · rw [h2] at h
      rcases h3 : findPat f3At x with _ | y3
      · rw [h3] at h
        exact main f4At f4At_window h
      · rw [h3] at h
        have hy : Option.some y3 = some y := h
        obtain rfl := Option.some.inj hy
        exact main f3At f3At_window h3
    · rw [h2] at h
      have hy : Option.some y2 = some y := h
      obtain rfl := Option.some.inj hy
      exact main f2At f2At_window h2
  · rw [h1] at h
    have hy : Option.some y1 = some y := h
    obtain rfl := Option.some.inj hy
    exact main f1At f1At_window h1

theorem mergeStep_none (l : List Seg) :
    mergeStep l = none ↔
      findLoneU1 true l = none ∧ findLoneU2 l = none ∧
      findLoneL1 true false l = none ∧ findLoneL2 l = none := by
  unfold mergeStep
  rcases h1 : findLoneU1 true l with _ | v1
  · rcases h2 : findLoneU2 l with _ | v2
    · rcases h3 : findLoneL1 true false l with _ | v3
      · simp
      · simp
    · simp
  · simp

theorem mergeGatesF_of_none (fuel : Nat) (x : List Seg)
    (h : mergeStep x = none) : mergeGatesF fuel x = x := by
  cases fuel with
  | zero => rfl
  | succ n => simp [mergeGatesF, h]

theorem reformatF_of_none (fuel : Nat) (x : List Seg)
    (h : formatStep x = none) : reformatF fuel x = x := by
  cases fuel with
  | zero => rfl
  | succ n => simp [reformatF, h]

theorem mergeStep_none_step (x y : List Seg) (hm : mergeStep x = none)
    (hf : formatStep x = some y) : mergeStep y = none := by
  rw [mergeStep_none] at hm ⊢
  obtain ⟨a, d1, mid, mid', d2, t, rfl, rfl, hUD, hLC, hDb⟩ :=
    formatStep_window x y hf
  exact ⟨presU1 a d1 mid mid' d2 t hUD hm.1,
    presU2 a d1 mid mid' d2 t hDb hm.2.1,
    presL1 a d1 mid mid' d2 t hLC hm.2.2.1,
    presL2 a d1 mid mid' d2 t hDb hm.2.2.2⟩

theorem mergeStep_none_reformatF (fuel : Nat) (x : List Seg)
    (hm : mergeStep x = none) : mergeStep (reformatF fuel x) = none := by
  induction fuel generalizing x with
  | zero => exact hm
  | succ n ih =>
    rw [reformatF]
    rcases hf : formatStep x with _ | y
    · exact hm
    · exact ih y (mergeStep_none_step x y hm hf)

/-- C1: canonicalization is idempotent — for every segment list `l`,
`standardise (standardise l) = standardise l`: the output of `tidy`,
`merge_gates` and `reformat` is a fixed point of all three passes. -/
theorem c1_standardise_idempotent (l : List Seg) :
    standardise (standardise l) = standardise l := by
  have hnorm := standardise_norm l
  have ht : tidyS (standardise l) = standardise l := tidyS_self _ hnorm
  have hm0 : mergeStep (mergeGates (tidyS l)) = none := mergeGates_fix (tidyS l)
  have hm1 : mergeStep (standardise l) = none := by
    unfold standardise reformat
    exact mergeStep_none_reformatF _ _ hm0
  have hmg : mergeGates (standardise l) = standardise l :=
    mergeGatesF_of_none _ _ hm1
  have hf : formatStep (standardise l) = none := by
    unfold standardise
    exact reformat_fix _
  show reformat (mergeGates (tidyS (standardise l))) = standardise l
  rw [ht, hmg]
  exact reformatF_of_none _ _ hf

end DSD

